import Mathlib

/-!
teamwork/log: a shallow embedding.

Verification development for the vendored logging core
(`src/vendor/github.com/teamwork/log`): the stack capturer (`stacktrace.go`),
the redaction filter and the formatters (`formatter.go`) and the `Entry`
operations with their trace buffer (`entry.go`).

Go strings and byte slices are sequences of runes (`List Char`), the way
`regexp`, `strings` and `fmt` read them; a byte that is not part of a valid
encoding is a rune of its own that belongs to no class below.  The Go heap is an
explicit store, the `World`, that is passed through every operation.  What the
code takes from other packages (logrus, `pkg/errors`, `strconv`, the runtime) is
written out from their documented behaviour, or is a field of `Env`.
-/

namespace TeamworkLog

/-- A Go string or byte slice, as the sequence of runes it decodes to. -/
abbrev Str := List Char

/-! ## stacktrace.go -/

/-- One entry `pc[i]` of the stack `runtime.Callers` fills, a return program
counter, kept as an `errors.Frame`.  The fields `fn`, `file` and `line` are what
the frame reports: `errors.Frame` resolves `pc - 1`, the call instruction.  The
field `rawFile` is the file `runtime.FuncForPC(pc).FileLine(pc)` gives for the
program counter itself, which is what the loop of `addStackTrace` tests; the
runtime is taken to know a function for every such program counter.  The two
files differ when the instruction after the call belongs to a function of
another file that the compiler has inlined there, as it does with
`runtime.Callers` in `addStackTrace`. -/
structure Frame where
  fn : Str
  file : Str
  line : Nat
  rawFile : Str
deriving DecidableEq, Repr

/-- A non-nil Go `error` value.  Every error has a message (`Error()`), may
implement `stackTracer` (`stack` is `some _`) and may implement `causer`:
`leaf` has no `Cause` method, `nilCause` has one that returns nil, `wrap` has
one that returns `cause`. -/
inductive GoError where
  | leaf (msg : Str) (stack : Option (List Frame))
  | nilCause (msg : Str) (stack : Option (List Frame))
  | wrap (msg : Str) (stack : Option (List Frame)) (cause : GoError)
deriving DecidableEq, Repr

namespace GoError

/-- The method `Error() string`. -/
def Error : GoError → Str
  | leaf m _ => m
  | nilCause m _ => m
  | wrap m _ _ => m

/-- The method `StackTrace()`, when the error implements `stackTracer`. -/
def StackTrace : GoError → Option (List Frame)
  | leaf _ s => s
  | nilCause _ s => s
  | wrap _ s _ => s

/-- The type assertion `err.(stackTracer)` succeeds. -/
def isStackTracer (e : GoError) : Bool := e.StackTrace.isSome

/-- The type assertion `err.(causer)` succeeds. -/
def isCauser : GoError → Bool
  | leaf _ _ => false
  | _ => true

/-- The method `Cause()` of a `causer`; `none` is the nil error. -/
def Cause : GoError → Option GoError
  | wrap _ _ c => some c
  | _ => none

/-- The cause chain of an error, the error itself first. -/
def causeChain : GoError → List GoError
  | wrap m s c => wrap m s c :: causeChain c
  | e => [e]

end GoError

/-- The constant `maxStackFrames`. -/
def maxStackFrames : Nat := 25

/-- The value `&withStack{err: err, stack: stack}`: its `Error()` is
`err.Error()`, its `Cause()` is `err`, its `StackTrace()` is `stack`. -/
def withStack (err : GoError) (stack : List Frame) : GoError :=
  GoError.wrap err.Error (some stack) err

/-- The first loop of `addStackTrace`: the index `i` at which it breaks, that is
the number of leading entries for which the file of `fn.FileLine(pc[i])`, the
file of the program counter itself, has the prefix `myPath` (as a string) and
has not the suffix `_test.go`. -/
def ownFrameCount (myPath : Str) : List Frame → Nat
  | [] => 0
  | f :: fs =>
    if !(myPath.isPrefixOf f.rawFile) || "_test.go".toList.isSuffixOf f.rawFile then 0
    else ownFrameCount myPath fs + 1

/-- The function `addStackTrace`.  `callers` is the call stack `runtime.Callers`
sees (it fills at most `maxStackFrames` entries), `myPath` the directory of the
package.  The stack of the result is `pc[i:count]`, every entry as an
`errors.Frame`. -/
def addStackTrace (myPath : Str) (callers : List Frame) (err : GoError) : GoError :=
  if err.isStackTracer then err
  else
    let pc := callers.take maxStackFrames
    let i := ownFrameCount myPath pc
    withStack err (pc.drop i)

/-- The loop of `earliestStackTracer`, entered with a non-nil `err` and the
current value of the variable `tracer`. -/
def earliestStackTracerLoop (tracer : Option GoError) (err : GoError) : Option GoError :=
  match err with
  | GoError.wrap m s c =>
    earliestStackTracerLoop (if s.isSome then some (GoError.wrap m s c) else tracer) c
  | e => if e.isStackTracer then some e else tracer

/-- The function `earliestStackTracer`; `none` is the nil error. -/
def earliestStackTracer : Option GoError → Option GoError
  | none => none
  | some err => earliestStackTracerLoop none err

/-! ## formatter.go: the redaction filter

`rxEmail` and `rxPassword` have one shape,
`("|')?(KEYS)("|')?(\s*[:=]\s*)("|')?(VALUE)("|')?` under the flag `(?i)`.
Go's `regexp` reads a byte slice rune by rune and takes the leftmost match,
preferring the first alternative and the longest repetition.  In this shape no
stage can succeed after giving back a rune (what follows a stage never accepts
a rune the stage accepts, and two keys of a rule never match the same text), so
the match is the one the stages find greedily, one after the other.  Under
`(?i)` a letter of a key matches both of its cases, `s` also matches U+017F and
`k` also U+212A, and these two runes are part of the folded classes `\w` and
`[0-9A-Za-z\-\.]`. -/

/-- The class `"|'`. -/
def isQuote (c : Char) : Bool := c.toNat = 34 || c.toNat = 39

/-- The class `\s`, that is `[\t\n\f\r ]`. -/
def isSpace (c : Char) : Bool :=
  c.toNat = 9 || c.toNat = 10 || c.toNat = 12 || c.toNat = 13 || c.toNat = 32

/-- The class `[:=]`. -/
def isSep (c : Char) : Bool := c.toNat = 58 || c.toNat = 61

/-- The class `[0-9A-Za-z]`. -/
def isAlnum (c : Char) : Bool :=
  (48 ≤ c.toNat && c.toNat ≤ 57) || (65 ≤ c.toNat && c.toNat ≤ 90) ||
    (97 ≤ c.toNat && c.toNat ≤ 122)

/-- The two runes outside ASCII that fold to a letter: U+017F (to `s`) and
U+212A (to `k`). -/
def isFoldExtra (c : Char) : Bool := c.toNat = 0x17F || c.toNat = 0x212A

/-- The class `[\w-]` under `(?i)`. -/
def isWord (c : Char) : Bool := isAlnum c || c.toNat = 95 || c.toNat = 45 || isFoldExtra c

/-- The class `[0-9A-Za-z\-\.]` under `(?i)`. -/
def isEmailChar (c : Char) : Bool := isAlnum c || c.toNat = 45 || c.toNat = 46 || isFoldExtra c

/-- The rune `c` matches the pattern character `p` (a lower-case letter or a
hyphen) under `(?i)`. -/
def foldEq (p c : Char) : Bool :=
  c.toNat = p.toNat || (97 ≤ p.toNat && p.toNat ≤ 122 && c.toNat + 32 = p.toNat) ||
    (p.toNat = 115 && c.toNat = 0x17F) || (p.toNat = 107 && c.toNat = 0x212A)

/-- The group `("|')?`: the text it matches and the rest. -/
def optQuote : Str → Str × Str
  | [] => ([], [])
  | c :: t => if isQuote c then ([c], t) else ([], c :: t)

/-- A literal under `(?i)` at the start of a text: the text it matches and the
rest. -/
def matchLit : Str → Str → Option (Str × Str)
  | [], s => some ([], s)
  | _ :: _, [] => none
  | p :: ps, c :: t =>
    if foldEq p c then
      match matchLit ps t with
      | some (k, r) => some (c :: k, r)
      | none => none
    else none

/-- An alternation of literals, the first that matches. -/
def matchAlt : List Str → Str → Option (Str × Str)
  | [], _ => none
  | p :: ps, s =>
    match matchLit p s with
    | some r => some r
    | none => matchAlt ps s

/-- The groups 1 to 5 of a rule, `("|')?(KEYS)("|')?(\s*[:=]\s*)("|')?`: the
text they match and the rest. -/
def matchHeader (keys : List Str) (s : Str) : Option (Str × Str) :=
  let q1 := optQuote s
  match matchAlt keys q1.2 with
  | none => none
  | some (k, s2) =>
    let q3 := optQuote s2
    let w1 := (q3.2.takeWhile isSpace, q3.2.dropWhile isSpace)
    match w1.2 with
    | [] => none
    | c :: s5 =>
      if isSep c then
        let w2 := (s5.takeWhile isSpace, s5.dropWhile isSpace)
        let q5 := optQuote w2.2
        some (q1.1 ++ k ++ q3.1 ++ w1.1 ++ c :: w2.1 ++ q5.1, q5.2)
      else none

/-- The group 6 of `rxPassword`, `([\w-]+)`. -/
def wordValue (s : Str) : Option (Str × Str) :=
  let v := (s.takeWhile isWord, s.dropWhile isWord)
  if v.1 = [] then none else some v

/-- The group 6 of `rxEmail`, `([0-9A-Za-z\-\.]+@[0-9A-Za-z\-\.]+)`. -/
def emailValue (s : Str) : Option (Str × Str) :=
  let a := (s.takeWhile isEmailChar, s.dropWhile isEmailChar)
  if a.1 = [] then none
  else
    match a.2 with
    | [] => none
    | c :: r =>
      if c.toNat = 64 then
        let b := (r.takeWhile isEmailChar, r.dropWhile isEmailChar)
        if b.1 = [] then none else some (a.1 ++ c :: b.1, b.2)
      else none

/-- A compiled rule: the keys of group 2, in the order of the alternation, and
the matcher of group 6. -/
structure Rule where
  keys : List Str
  value : Str → Option (Str × Str)

/-- A match of the rule at the start of a text: the text of the groups 1 to 5,
the text of group 7 and the rest after the match. -/
def Rule.find (R : Rule) (s : Str) : Option (Str × Str × Str) :=
  match matchHeader R.keys s with
  | none => none
  | some (pre, s7) =>
    match R.value s7 with
    | none => none
    | some (_, s8) =>
      let q7 := optQuote s8
      some (pre, q7.1, q7.2)

/-- The marker that replaces group 6. -/
def filtered : Str := "[FILTERED]".toList

/-- The scan of `ReplaceAll` with the template
`${1}${2}${3}${4}${5}[FILTERED]${7}`: the first argument counts the runes of the
last match the scan still has to step over. -/
def Rule.replaceFrom (R : Rule) : Nat → Str → Str
  | _, [] => []
  | k + 1, _ :: t => R.replaceFrom k t
  | 0, c :: t =>
    match R.find (c :: t) with
    | some (pre, post, rest) =>
      pre ++ filtered ++ post ++ R.replaceFrom (t.length - rest.length) t
    | none => c :: R.replaceFrom 0 t

/-- The call `rx.ReplaceAll(b, "${1}${2}${3}${4}${5}[FILTERED]${7}")`. -/
def Rule.ReplaceAll (R : Rule) (s : Str) : Str := R.replaceFrom 0 s

/-- The regular expression `rxEmail`. -/
def rxEmail : Rule := ⟨["email".toList, "e-mail".toList], emailValue⟩

/-- The regular expression `rxPassword`; `tw-?auth` is the two keys `tw-auth`
and `twauth`. -/
def rxPassword : Rule :=
  ⟨["password".toList, "secret".toList, "tw-auth".toList, "twauth".toList], wordValue⟩

/-- The function `defaultFilter`. -/
def defaultFilter (b : Str) : Str := rxPassword.ReplaceAll (rxEmail.ReplaceAll b)

/-! ### Notions used in the proofs about the filter -/

/-- Two keys that no text matches both: at some position their characters
match no common rune. -/
def clash : Str → Str → Prop
  | a :: as, b :: bs => (∀ c, ¬(foldEq a c = true ∧ foldEq b c = true)) ∨ clash as bs
  | _, _ => False

/-- The text holds a separator and, somewhere after it, a rune that is neither
a space nor a quote. -/
def sepThenValue : Str → Bool
  | [] => false
  | c :: t => (isSep c && t.any (fun d => !isSpace d && !isQuote d)) || sepThenValue t

/-- The keys of a rule are made of word characters and are not empty. -/
def KeysOK (keys : List Str) : Prop :=
  (∀ key ∈ keys, key ≠ [] ∧ ∀ p ∈ key, isWord p = true) ∧ keys.Pairwise clash

/-- A character that no stage of a rule consumes: it ends every stage like the
end of the input does. -/
def Barrier (b : Char) : Prop :=
  isWord b = false ∧ isEmailChar b = false ∧ isQuote b = false ∧ isSpace b = false ∧
    isSep b = false ∧ b.toNat ≠ 64

/-- What the proofs need of the value stage of a rule. -/
structure ValueOK (val : Str → Option (Str × Str)) : Prop where
  dec : ∀ x v r, val x = some (v, r) → x = v ++ r
  start : ∀ x v r, val x = some (v, r) →
    ∃ c v', v = c :: v' ∧ (!isSpace c && !isQuote c) = true
  br : ∀ u Z b, Barrier b → val (u ++ b :: Z) = (val u).map (fun p => (p.1, p.2 ++ b :: Z))
  ext : ∀ x v r Y, val x = some (v, r) → (val (x ++ Y)).isSome = true

/-- What the proofs need of a rule. -/
structure RuleOK (R : Rule) : Prop where
  keys : KeysOK R.keys
  value : ValueOK R.value
  marker : ∀ a1 a2 Z, filtered = a1 ++ a2 → a2 ≠ [] → R.find (a2 ++ Z) = none

/-- No suffix of the text starts with a match of the rule. -/
def NoHit (R : Rule) : Str → Prop
  | [] => True
  | c :: t => R.find (c :: t) = none ∧ NoHit R t

/-- Every suffix at which rule `R` matches is one at which `R2` matches. -/
def Covers (R R2 : Rule) (s : Str) : Prop :=
  ∀ a c t, s = a ++ c :: t → (R.find (c :: t)).isSome = true → (R2.find (c :: t)).isSome = true

/-- The text `k` is the key pattern `key` in some letter case. -/
def FoldMatch (key k : Str) : Prop := List.Forall₂ (fun p c => foldEq p c = true) key k

/-- An optional quote character, as the text it matched. -/
def OptQ (q : Str) : Prop := q = [] ∨ ∃ c, isQuote c = true ∧ q = [c]

/-! ## types.go -/

/-- The supported logging levels of `types.go`. -/
inductive Level where
  | ErrorLevel
  | WarnLevel
  | InfoLevel
  | DebugLevel
deriving DecidableEq, Repr

/-- The numeric value of a level (`logrus.Level`). -/
def Level.toNat : Level → Nat
  | ErrorLevel => 2
  | WarnLevel => 3
  | InfoLevel => 4
  | DebugLevel => 5

/-- The method `String` of a level. -/
def Level.String : Level → Str
  | DebugLevel => "debug".toList
  | InfoLevel => "info".toList
  | ErrorLevel => "error".toList
  | WarnLevel => "warning".toList

/-- The constant `fieldError`. -/
def fieldError : Str := "error".toList

/-- The constant `fieldErrorMessage`. -/
def fieldErrorMessage : Str := "error_message".toList

/-- The constant `fieldErrorTrace`. -/
def fieldErrorTrace : Str := "error_trace".toList

/-- The constant `fieldHTTPRequest`. -/
def fieldHTTPRequest : Str := "http_request".toList

/-- The constant `fieldModule`. -/
def fieldModule : Str := "module".toList

/-- The constant `fieldTags`. -/
def fieldTags : Str := "tags".toList

/-- A field value (`interface{}`), by the dynamic types the code distinguishes:
a string, an error, a `url.URL` or `*url.URL` (with its `%s` text), an
`*http.Request`, and any other value (with its `%#v` text).  Values of a
function type, which some versions of logrus refuse as fields, are left out. -/
inductive Value where
  | str (s : Str)
  | err (e : GoError)
  | url (text : Str)
  | httpRequest (goSyntax : Str)
  | other (goSyntax : Str)
deriving DecidableEq, Repr

/-- The type `Fields`, a map from string keys to values, as the list of its
entries; `Fields.set` keeps the keys unique. -/
abbrev Fields := List (Str × Value)

namespace Fields

/-- The map read `m[k]`. -/
def get (m : Fields) (k : Str) : Option Value :=
  match m with
  | [] => none
  | (k1, v) :: rest => if k1 = k then some v else get rest k

/-- The builtin `delete(m, k)`. -/
def delete (m : Fields) (k : Str) : Fields := m.filter (fun p => !decide (p.1 = k))

/-- The map write `m[k] = v`. -/
def set (m : Fields) (k : Str) (v : Value) : Fields :=
  match m with
  | [] => [(k, v)]
  | (k1, v1) :: rest => if k1 = k then (k1, v) :: rest else (k1, v1) :: set rest k v

/-- The loop `for k, v := range fields { m[k] = v }`. -/
def setAll (m : Fields) (fields : Fields) : Fields :=
  fields.foldl (fun acc p => acc.set p.1 p.2) m

end Fields

/-! ## formatter.go: the human-readable formatter -/

/-- What the formatter takes from outside the program: the process id as
`%d` prints it, the text of a time stamp in the layout `TimeFormat`, whether
standard output is a terminal, `strconv.IsPrint`, the `%#v` text of an error
value, the package directory `myPath`, the global `stackFilter`, and whether
the logrus in use formats a copy of the entry (`Entry.Dup`). -/
structure Env where
  pid : Str
  timeText : Nat → Str
  stdoutIsTerminal : Bool
  isPrint : Char → Bool
  errSyntax : GoError → Str
  myPath : Str
  stackFilter : Option (List Frame → List Frame)
  entryDup : Bool

/-- The part of a `logrus.Entry` a formatter or hook reads. -/
structure Record where
  Time : Nat
  Level : Level
  Message : Str
  Data : Fields

/-- The result of `Formatter.Format`: the bytes, the error, and the entry's
field map after the call (a formatter receives the entry by pointer). -/
structure Formatted where
  bytes : Str
  err : Option Str
  Data : Fields

/-- A `logrus.Formatter`. -/
abbrev Formatter := Env → Record → Formatted

/-- The constant `fgRed`. -/
def fgRed : Nat := 31

/-- The constant `fgBlue`. -/
def fgBlue : Nat := 34

/-- The constant `fgWhite`. -/
def fgWhite : Nat := 37

/-- The constant `bgWhite`. -/
def bgWhite : Nat := 57

/-- The map `colors`; a missing key reads as zero. -/
def colors : Level → Nat
  | Level.DebugLevel => fgWhite
  | Level.ErrorLevel => fgRed
  | Level.InfoLevel => fgBlue
  | Level.WarnLevel => 0

/-- The function `colorize`. -/
def colorize (text : Str) (color : Nat) (colored : Bool) : Str :=
  if !colored then text
  else [Char.ofNat 27, '['] ++ Nat.toDigits 10 color ++ ['m'] ++ text ++
    [Char.ofNat 27, '[', '0', 'm']

/-- ASCII upper-casing of one rune, as `strings.ToUpper` does on the level names. -/
def upperChar (c : Char) : Char :=
  if 97 ≤ c.toNat ∧ c.toNat ≤ 122 then Char.ofNat (c.toNat - 32) else c

/-- The predicate `unicode.IsSpace`. -/
def isUnicodeSpace (c : Char) : Bool :=
  (9 ≤ c.toNat && c.toNat ≤ 13) || c.toNat = 32 || c.toNat = 0x85 || c.toNat = 0xA0 ||
    c.toNat = 0x1680 || (0x2000 ≤ c.toNat && c.toNat ≤ 0x200a) || c.toNat = 0x2028 ||
    c.toNat = 0x2029 || c.toNat = 0x202f || c.toNat = 0x205f || c.toNat = 0x3000

/-- The function `strings.TrimSpace`. -/
def trimSpace (s : Str) : Str :=
  ((s.dropWhile isUnicodeSpace).reverse.dropWhile isUnicodeSpace).reverse

/-- The function `printMessage`: the line it writes and the field map after
it (it deletes the module field of the entry it is given). -/
def printMessage (env : Env) (entry : Record) (color : Bool) : Str × Fields :=
  let pid := colorize env.pid bgWhite color
  let levelText := colorize ((entry.Level.String.map upperChar).take 4) (colors entry.Level) color
  let md : Str × Fields :=
    match entry.Data.get fieldModule with
    | some (Value.str m) => (" (".toList ++ m ++ ")".toList, entry.Data.delete fieldModule)
    | _ => ([], entry.Data)
  (env.timeText entry.Time ++ " [".toList ++ pid ++ "] ".toList ++ levelText ++ ":".toList ++
    md.1 ++ " ".toList ++ trimSpace entry.Message ++ "\n".toList, md.2)

/-- Two hexadecimal digits, as `strconv` writes them. -/
def hexDigit (n : Nat) : Char :=
  if n < 10 then Char.ofNat (48 + n) else Char.ofNat (87 + n)

/-- One rune as `strconv.Quote` writes it. -/
def quoteRune (isPrint : Char → Bool) (c : Char) : Str :=
  if c.toNat = 34 then ['\\', '"']
  else if c.toNat = 92 then ['\\', '\\']
  else if c.toNat = 7 then ['\\', 'a']
  else if c.toNat = 8 then ['\\', 'b']
  else if c.toNat = 12 then ['\\', 'f']
  else if c.toNat = 10 then ['\\', 'n']
  else if c.toNat = 13 then ['\\', 'r']
  else if c.toNat = 9 then ['\\', 't']
  else if c.toNat = 11 then ['\\', 'v']
  else if c.toNat < 32 ∨ c.toNat = 127 then
    ['\\', 'x', hexDigit (c.toNat / 16), hexDigit (c.toNat % 16)]
  else if c.toNat < 127 then [c]
  else if isPrint c then [c]
  else if c.toNat < 0x10000 then
    ['\\', 'u', hexDigit (c.toNat / 4096 % 16), hexDigit (c.toNat / 256 % 16),
      hexDigit (c.toNat / 16 % 16), hexDigit (c.toNat % 16)]
  else
    ['\\', 'U', hexDigit (c.toNat / 268435456 % 16), hexDigit (c.toNat / 16777216 % 16),
      hexDigit (c.toNat / 1048576 % 16), hexDigit (c.toNat / 65536 % 16),
      hexDigit (c.toNat / 4096 % 16), hexDigit (c.toNat / 256 % 16),
      hexDigit (c.toNat / 16 % 16), hexDigit (c.toNat % 16)]

/-- The verb `%q` on a string (`strconv.Quote`). -/
def goQuote (isPrint : Char → Bool) (s : Str) : Str :=
  '"' :: (s.flatMap (quoteRune isPrint)) ++ ['"']

/-- Byte-wise order of two strings, as `sort.Strings` compares them. -/
def strLe : Str → Str → Bool
  | [], _ => true
  | _ :: _, [] => false
  | a :: as, b :: bs => a.toNat < b.toNat || (a.toNat = b.toNat && strLe as bs)

/-- The call `bytes.Join(pairs, sep)`. -/
def joinWith (sep : Str) : List Str → Str
  | [] => []
  | [x] => x
  | x :: y :: rest => x ++ sep ++ joinWith sep (y :: rest)

/-- One `key=value` pair of `printData`. -/
def formatPair (env : Env) (k : Str) (v : Option Value) : Str :=
  match v with
  | some (Value.str s) => k ++ '=' :: goQuote env.isPrint s
  | some (Value.url t) => k ++ '=' :: t
  | some (Value.err e) => k ++ '=' :: env.errSyntax e
  | some (Value.httpRequest t) => k ++ '=' :: t
  | some (Value.other t) => k ++ '=' :: t
  | none => k ++ "=<nil>".toList

/-- The function `printData`: the bytes it writes. -/
def printData (env : Env) (data : Fields) (_color : Bool) : Str :=
  if data.length = 0 then []
  else
    let keys := (data.map (fun p => p.1)).insertionSort (fun a b => strLe a b = true)
    let pairs := keys.map (fun k => formatPair env k (data.get k))
    '\t' :: joinWith " ".toList pairs ++ "\n".toList

/-- The function `errors.Cause`: the last error of the cause chain, nil when a
`Cause` method returns nil. -/
def errorsCause : GoError → Option GoError
  | GoError.leaf m s => some (GoError.leaf m s)
  | GoError.nilCause _ _ => none
  | GoError.wrap _ _ c => errorsCause c

/-- The text `%+v` prints for a stack trace: for every frame a line with the
function and a line with a tab, the file, a colon and the line number. -/
def stackText (st : List Frame) : Str :=
  st.flatMap (fun f => '\n' :: f.fn ++ '\n' :: '\t' :: f.file ++ ':' :: Nat.toDigits 10 f.line)

/-- The call `strings.Split(s, "\n")`. -/
def splitLines : Str → List Str
  | [] => [[]]
  | c :: t =>
    if c = '\n' then [] :: splitLines t
    else
      match splitLines t with
      | [] => [[c]]
      | l :: ls => (c :: l) :: ls

/-- The function `extractError`: the bytes it returns and the field map after
it (it deletes the error fields of the map it is given). -/
def extractError (env : Env) (data : Fields) (_color : Bool) : Str × Fields :=
  match data.get fieldError with
  | some (Value.err err) =>
    let data1 := (data.delete fieldError).delete fieldErrorMessage
    let b1 := "\tError: ".toList ++ err.Error ++ "\n".toList
    let b2 :=
      if err.isCauser then
        match errorsCause err with
        | some cause =>
          if cause.Error ≠ err.Error then "\tCause: ".toList ++ cause.Error ++ "\n".toList
          else []
        | none => []
      else []
    let b3 :=
      match earliestStackTracer (some err) with
      | some tracer =>
        let st := tracer.StackTrace.getD []
        let st1 := match env.stackFilter with
          | some f => f st
          | none => st
        "\tStacktrace:\n".toList ++
          ((splitLines (stackText st1)).filter (fun l => !decide (l = []))).flatMap
            (fun l => '\t' :: '\t' :: l ++ "\n".toList)
      | none => []
    (b1 ++ b2 ++ b3, data1)
  | _ => ([], data)

/-- The type `twFormatter`. -/
structure twFormatter where
  ForceColors : Bool
  DisableColors : Bool

/-- The method `twFormatter.Format`. -/
def twFormatter.Format (f : twFormatter) : Formatter := fun env entry =>
  let useColors := !f.DisableColors && (f.ForceColors || env.stdoutIsTerminal)
  let m := printMessage env entry useColors
  let x := extractError env m.2 useColors
  let data :=
    match x.2.get fieldHTTPRequest with
    | some (Value.httpRequest _) => x.2.delete fieldHTTPRequest
    | _ => x.2
  ⟨m.1 ++ printData env data useColors ++ x.1, none, data⟩

/-- The type `SensitiveJSONFormatter`: the embedded `logrus.JSONFormatter`, as
the function that serialises an entry, and the field `Filter`. -/
structure SensitiveJSONFormatter where
  JSONFormatter : Env → Record → Str × Option Str
  Filter : Option (Str → Str)

/-- The method `SensitiveJSONFormatter.Format`; a nil `Filter` stands for
`defaultFilter`. -/
def SensitiveJSONFormatter.Format (s : SensitiveJSONFormatter) : Formatter := fun env entry =>
  let r := s.JSONFormatter env entry
  let filter := match s.Filter with
    | some f => f
    | none => defaultFilter
  ⟨filter r.1, r.2, entry.Data⟩

/-- Whether `sub` occurs in `s` (`bytes.Contains`). -/
def containsStr (s sub : Str) : Bool := s.tails.any (fun t => sub.isPrefixOf t)

/-! ## log.go, entry.go: the logger and its entries -/

/-- The state of one `Logger` and of the heap its entries live in.
`Level`, `Formatter` and `Out` are the fields of the wrapped `logrus.Logger`
(`Out` is kept as the list of the writes it received); `records` are the
entries logrus materialised, in order, as it hands them to the hooks; `maps`
holds the `Data` map of every `logrus.Entry`, by address; `slices` holds every
`[][]byte` a `traceLines` pointer points to, by address; `clock` counts the
calls of `time.Now`. -/
structure World where
  env : Env
  Level : Nat
  Formatter : Formatter
  Out : List Str
  Stderr : List Str
  records : List Record
  maps : List Fields
  slices : List (List Str)
  clock : Nat

/-- The struct `Entry`: `e` is the address of the `Data` map of the wrapped
`logrus.Entry`, `traceLines` the pointer to the slice of pending trace lines.
The `logger` of every entry is the logger of the `World`.  The constructors of
the package never leave `traceLines` nil. -/
structure Entry where
  e : Nat
  traceLines : Nat
deriving DecidableEq, Repr

namespace World

/-- The field map of an entry (`e.e.Data`). -/
def data (w : World) (e : Entry) : Fields := w.maps.getD e.e []

/-- The pending trace lines of an entry (`*e.traceLines`). -/
def lines (w : World) (e : Entry) : List Str := w.slices.getD e.traceLines []

end World

/-- The value of `logrus.DebugLevel`. -/
def logrusDebugLevel : Nat := 5

/-- The function `New`: a logger at the level logrus starts with (info), with
the human-readable formatter. -/
def New (env : Env) : World :=
  ⟨env, Level.InfoLevel.toNat, twFormatter.Format ⟨false, false⟩, [], [], [], [], [], 0⟩

/-- The method `Logger.EnableDebug`. -/
def World.EnableDebug (w : World) : World := { w with Level := logrusDebugLevel }

/-- The method `Logger.SetFormatter`. -/
def World.SetFormatter (w : World) (f : TeamworkLog.Formatter) : World := { w with Formatter := f }

/-- The function `NewEntry`: a new `logrus.Entry` with an empty field map and a
new empty slice of trace lines. -/
def NewEntry (w : World) : World × Entry :=
  ({ w with maps := w.maps ++ [[]], slices := w.slices ++ [[]] },
    ⟨w.maps.length, w.slices.length⟩)

/-- What logrus does for `entry.Debug`, `entry.Info`, `entry.Warn` and
`entry.Error` on the entry whose field map is at address `ref`: when the level
of the logger admits `level`, it stamps the entry, fires the hooks, formats the
entry and writes the bytes to `Out`.  The record gets the time of the call; a
logrus that keeps a time already written into the entry, as `Entry.log` writes
one, would give the record that earlier time. -/
def logrusLog (w : World) (ref : Nat) (level : Level) (msg : Str) : World :=
  if level.toNat ≤ w.Level then
    let entry : Record := ⟨w.clock, level, msg, w.maps.getD ref []⟩
    let r := w.Formatter w.env entry
    let maps := if w.env.entryDup then w.maps else w.maps.set ref r.Data
    match r.err with
    | some err =>
      { w with clock := w.clock + 1, records := w.records ++ [entry], maps := maps,
               Stderr := w.Stderr ++ ["Failed to obtain reader, ".toList ++ err ++ "\n".toList] }
    | none =>
      { w with clock := w.clock + 1, records := w.records ++ [entry], maps := maps,
               Out := w.Out ++ [r.bytes] }
  else w

namespace Entry

/-- The method `ClearTraceLog`: it points `e.traceLines` to a new empty slice. -/
def ClearTraceLog (w : World) (e : Entry) : World × Entry :=
  ({ w with slices := w.slices ++ [[]] }, { e with traceLines := w.slices.length })

/-- The method `dumpTrace`, called with a new `bytes.Buffer` and `Logger.Out`
as the writers: every pending line is written to both, then the trace log is
cleared.  The third component is the content of the buffer.  Both writers are
taken to accept every write; the branch for a failed write, which locks
`logger.mu` while `Error` holds it, is left out. -/
def dumpTrace (w : World) (e : Entry) : World × Entry × Str :=
  let pending := w.lines e
  let w1 := { w with Out := w.Out ++ pending }
  let c := ClearTraceLog w1 e
  (c.1, c.2, pending.flatten)

/-- The method `log`: it stamps the wrapped entry with the time, the debug level
and the message and formats it; the formatter works on the entry itself. -/
def log (w : World) (e : Entry) (msg : Str) : World × Str :=
  let entry : Record := ⟨w.clock, Level.DebugLevel, msg, w.data e⟩
  let r := w.Formatter w.env entry
  let w1 := { w with clock := w.clock + 1, maps := w.maps.set e.e r.Data }
  match r.err with
  | some err =>
    ({ w1 with Stderr := w1.Stderr ++ ["Failed to obtain reader, ".toList ++ err ++ "\n".toList] },
      r.bytes)
  | none => (w1, r.bytes)

/-- The method `Debug`; `msg` is `fmt.Sprint(args...)`. -/
def Debug (w : World) (e : Entry) (msg : Str) : World := logrusLog w e.e Level.DebugLevel msg

/-- The method `Debugf`; `msg` is `fmt.Sprintf(format, args...)`. -/
def Debugf (w : World) (e : Entry) (msg : Str) : World := logrusLog w e.e Level.DebugLevel msg

/-- The method `Print`. -/
def Print (w : World) (e : Entry) (msg : Str) : World := logrusLog w e.e Level.InfoLevel msg

/-- The method `Printf`. -/
def Printf (w : World) (e : Entry) (msg : Str) : World := logrusLog w e.e Level.InfoLevel msg

/-- The method `Warn`. -/
def Warn (w : World) (e : Entry) (msg : Str) : World := logrusLog w e.e Level.WarnLevel msg

/-- The method `Warnf`. -/
def Warnf (w : World) (e : Entry) (msg : Str) : World := logrusLog w e.e Level.WarnLevel msg

/-- The method `Info`. -/
def Info (w : World) (e : Entry) (msg : Str) : World := Print w e msg

/-- The method `Infof`. -/
def Infof (w : World) (e : Entry) (msg : Str) : World := Printf w e msg

/-- The method `Tracef`; `msg` is `fmt.Sprintf(format, args...)`. -/
def Tracef (w : World) (e : Entry) (msg : Str) : World :=
  if w.Level = logrusDebugLevel then Debugf w e msg
  else
    let r := log w e msg
    { r.1 with slices := r.1.slices.set e.traceLines (r.1.lines e ++ [r.2]) }

/-- The method `Trace`; `msg` is `fmt.Sprint(args...)`. -/
def Trace (w : World) (e : Entry) (msg : Str) : World :=
  if w.Level = logrusDebugLevel then Debug w e msg
  else
    let r := log w e msg
    { r.1 with slices := r.1.slices.set e.traceLines (r.1.lines e ++ [r.2]) }

/-- The method `WithFields`: logrus copies the field map of the entry into a
new map and adds the fields; the new entry shares the trace lines. -/
def WithFields (w : World) (e : Entry) (fields : Fields) : World × Entry :=
  ({ w with maps := w.maps ++ [(w.data e).setAll fields] }, ⟨w.maps.length, e.traceLines⟩)

/-- The method `WithField`. -/
def WithField (w : World) (e : Entry) (key : Str) (value : Value) : World × Entry :=
  ({ w with maps := w.maps ++ [(w.data e).set key value] }, ⟨w.maps.length, e.traceLines⟩)

/-- The method `Module`. -/
def Module (w : World) (e : Entry) (module : Str) : World × Entry :=
  WithField w e fieldModule (Value.str module)

/-- The method `GetModule`. -/
def GetModule (w : World) (e : Entry) : Str :=
  match (w.data e).get fieldModule with
  | some (Value.str m) => m
  | _ => []

/-- The method `WithError`; `callers` is the call stack at the call. -/
def WithError (w : World) (e : Entry) (callers : List Frame) (err : Option GoError) :
    World × Entry :=
  let err1 := match err with
    | some x => x
    | none => GoError.leaf "(nil)".toList none
  WithFields w e [(fieldError, Value.err (addStackTrace w.env.myPath callers err1)),
    (fieldErrorMessage, Value.str err1.Error)]

/-- The text `fmt.Sprint(err)` of an error value. -/
def sprintErr : Option GoError → Str
  | some x => x.Error
  | none => "<nil>".toList

/-- The body shared by `Error` and `Errorf` up to the call of logrus: the trace
lines are dumped, the error and the dumped lines are added as fields.  The
result is the world, the receiver after the call and the entry that is logged. -/
def errorEntry (w : World) (e : Entry) (callers : List Frame) (err : Option GoError) :
    World × Entry × Entry :=
  let d := dumpTrace w e
  let e1 := WithError d.1 d.2.1 callers err
  let e2 := if d.2.2 ≠ [] then WithField e1.1 e1.2 fieldErrorTrace (Value.str d.2.2) else e1
  (e2.1, d.2.1, e2.2)

/-- The message of `Error`: `fmt.Sprint(args...)`, where `args` is the error
alone when no argument is given. -/
def errorMessage (err : Option GoError) : Option Str → Str
  | some m => m
  | none => sprintErr err

/-- The method `Error`; `args` is `fmt.Sprint(args...)` when arguments are
given.  The result is the world and the receiver after the call. -/
def Error (w : World) (e : Entry) (callers : List Frame) (err : Option GoError)
    (args : Option Str) : World × Entry :=
  let r := errorEntry w e callers err
  (logrusLog r.1 r.2.2.e Level.ErrorLevel (errorMessage err args), r.2.1)

/-- The method `Errorf`; `msg` is `fmt.Sprintf(format, args...)`. -/
def Errorf (w : World) (e : Entry) (callers : List Frame) (err : Option GoError) (msg : Str) :
    World × Entry :=
  let r := errorEntry w e callers err
  (logrusLog r.1 r.2.2.e Level.ErrorLevel msg, r.2.1)

end Entry

/-- One call of `Trace` or `Tracef`, with the message it renders. -/
inductive TraceCall where
  | trace (msg : Str)
  | tracef (msg : Str)

/-- The message of a trace call. -/
def TraceCall.msg : TraceCall → Str
  | trace m => m
  | tracef m => m

/-- The call itself. -/
def TraceCall.run (w : World) (e : Entry) : TraceCall → World
  | trace m => Entry.Trace w e m
  | tracef m => Entry.Tracef w e m

/-- A sequence of trace calls on one entry, in order. -/
def runTraces (w : World) (e : Entry) : List TraceCall → World
  | [] => w
  | c :: cs => runTraces (c.run w e) e cs

/-- The lines the calls of a sequence render, each in the world its call
starts in. -/
def renderedLines (w : World) (e : Entry) : List TraceCall → List Str
  | [] => []
  | c :: cs => (Entry.log w e c.msg).2 :: renderedLines (c.run w e) e cs

/-- A letter, a digit, `_` or `-` of ASCII. -/
def isAsciiWord (c : Char) : Bool := isAlnum c || c.toNat = 95 || c.toNat = 45

/-! ## Concrete inputs -/

/-- An environment: process 42, a fixed time text, no terminal, every rune
printable, the package in `/go/src/log`, no stack filter, a logrus that formats
the entry itself. -/
def sampleEnv : Env :=
  ⟨"42".toList, fun _ => "Jan 02 15:04:05".toList, false, fun _ => true, fun _ => "err".toList,
    "/go/src/log".toList, none, false⟩

/-- A record with the string field `k` set to `password=abc123`. -/
def passwordRecord : Record :=
  ⟨0, Level.InfoLevel, "login".toList, [("k".toList, Value.str "password=abc123".toList)]⟩

/-- A new logger with a new entry `p`, one trace call on `p`, the entry `c`
derived from `p` by `WithField`, an error call on `c` and then one on `p`:
the writes to the output and the second error record. -/
def sharedBufferRun : List Str × Option Record :=
  let p := NewEntry (New sampleEnv)
  let w1 := Entry.Trace p.1 p.2 "step".toList
  let c := Entry.WithField w1 p.2 "k".toList (Value.str "v".toList)
  let r1 := Entry.Error c.1 c.2 [] (some (GoError.leaf "first".toList none)) none
  let r2 := Entry.Error r1.1 p.2 [] (some (GoError.leaf "second".toList none)) none
  (r2.1.Out, r2.1.records.getLast?)

/-- A new logger with an entry that carries the module `db`, and two trace
calls on it: the field map before, the field map after the first call, and the
two lines in the buffer. -/
def moduleTraceRun : Fields × Fields × List Str :=
  let p := NewEntry (New sampleEnv)
  let m := Entry.Module p.1 p.2 "db".toList
  let w1 := Entry.Trace m.1 m.2 "one".toList
  let w2 := Entry.Trace w1 m.2 "one".toList
  (m.1.data m.2, w1.data m.2, w2.lines m.2)

/-- A new logger with a new entry. -/
def sampleStart : World × Entry := NewEntry (New sampleEnv)

/-! ## grayloghook/grayloghook.go -/

/-- The constant `prefixIgnore`. -/
def prefixIgnore : Str := "g-".toList

/-- The variable `logrus.ErrorKey`, at the value logrus gives it. -/
def logrusErrorKey : Str := "error".toList

/-- The type `GraylogHook`: the field `fieldPrefix`; the request object is
carried by its text, so the function `newHTTPRequest`, which projects a
request to a value of the type `httpRequest`, is a function of that text. -/
structure GraylogHook where
  fieldPrefix : Str
  newHTTPRequest : Str → Value

namespace GraylogHook

/-- The variable `newKey` of `Fire` for the key `k`. -/
def newKey (g : GraylogHook) (k : Str) : Str :=
  if g.fieldPrefix ≠ [] ∧ k ≠ logrusErrorKey ∧ prefixIgnore.isPrefixOf k = false then
    g.fieldPrefix ++ "-".toList ++ k
  else k

/-- The type switch of `Fire` on the value `v`: what is stored under the new key. -/
def newValue (g : GraylogHook) : Value → Value
  | Value.httpRequest r => g.newHTTPRequest r
  | v => v

/-- The loop of `Fire` over `entry.Data`, in the order of the list: the map
`newData` after it. -/
def newData (g : GraylogHook) (data : Fields) : Fields :=
  data.foldl (fun acc p => acc.set (g.newKey p.1) (g.newValue p.2)) []

/-- The method `Fire`: the entry it hands to the wrapped graylog hook. -/
def Fire (g : GraylogHook) (entry : Record) : Record :=
  ⟨entry.Time, entry.Level, entry.Message, g.newData entry.Data⟩

/-- The prefix lets no renamed key meet a key that is kept: it is empty, or it
is not `g` and does not start with `g-`. -/
def SafePrefix (p : Str) : Prop := p = [] ∨ (p ≠ "g".toList ∧ prefixIgnore.isPrefixOf p = false)

end GraylogHook

/-! ## log.go: Flush

`Logger.Flush` starts one goroutine for every flusher and waits for them with a
`sync.WaitGroup`.  The embedding is the interleaving of the steps of the main
goroutine and of the goroutines it starts; the call `f.Flush()` of a hook is two
steps, its start and its return. -/

/-- Where a goroutine `go func(f flusher) { defer wg.Done(); f.Flush() }(f)` is:
created, inside `f.Flush()`, back from it, or after `wg.Done()`. -/
inductive GoStatus where
  | spawned
  | running
  | flushed
  | done
deriving DecidableEq, Repr

/-- One goroutine of `Flush`: the flusher it was started with, where it is, and
how often it has called `f.Flush()`. -/
structure Goroutine where
  f : Nat
  status : GoStatus
  calls : Nat
deriving DecidableEq, Repr

/-- Where the main goroutine is in `Flush`: before the nil check, at the head
of the loop, after `wg.Add(1)`, in `wg.Wait()`, or returned. -/
inductive FlushPC where
  | start
  | loop
  | added
  | wait
  | returned
deriving DecidableEq, Repr

/-- The state of one call of `Flush`: the field `l.flushers` (flushers by
number), the main goroutine, the counter of the wait group and the goroutines
started so far, in the order of the loop. -/
structure FlushState where
  flushers : List Nat
  pc : FlushPC
  wg : Nat
  gs : List Goroutine
deriving DecidableEq, Repr

/-- Who takes the next step: the main goroutine or the goroutine number `j`. -/
inductive FlushAction where
  | main
  | goroutine (j : Nat)
deriving DecidableEq, Repr

/-- The method `Logger.addFlusher`. -/
def addFlusher (flushers : List Nat) (f : Nat) : List Nat := flushers ++ [f]

namespace Flush

/-- The state at the call of `Flush`. -/
def init (flushers : List Nat) : FlushState := ⟨flushers, FlushPC.start, 0, []⟩

/-- One step of the main goroutine: the nil check, `wg.Add(1)`, the `go`
statement, the end of the loop, and `wg.Wait()`, which passes only at zero. -/
def mainStep (s : FlushState) : Option FlushState :=
  match s.pc with
  | FlushPC.start =>
    if s.flushers = [] then some { s with pc := FlushPC.returned }
    else some { s with pc := FlushPC.loop }
  | FlushPC.loop =>
    if s.gs.length < s.flushers.length then some { s with wg := s.wg + 1, pc := FlushPC.added }
    else some { s with pc := FlushPC.wait }
  | FlushPC.added =>
    some { s with gs := s.gs ++ [⟨s.flushers.getD s.gs.length 0, GoStatus.spawned, 0⟩],
                  pc := FlushPC.loop }
  | FlushPC.wait => if s.wg = 0 then some { s with pc := FlushPC.returned } else none
  | FlushPC.returned => none

/-- One step of the goroutine `g`, number `j`: the call of `f.Flush()`, its
return, and the deferred `wg.Done()`, which panics on a counter of zero. -/
def goStep (s : FlushState) (j : Nat) (g : Goroutine) : Option FlushState :=
  match g.status with
  | GoStatus.spawned =>
    some { s with gs := s.gs.set j ⟨g.f, GoStatus.running, g.calls + 1⟩ }
  | GoStatus.running => some { s with gs := s.gs.set j ⟨g.f, GoStatus.flushed, g.calls⟩ }
  | GoStatus.flushed =>
    if s.wg = 0 then none
    else some { s with gs := s.gs.set j ⟨g.f, GoStatus.done, g.calls⟩, wg := s.wg - 1 }
  | GoStatus.done => none

/-- One step of the program; `none` when the chosen goroutine cannot move. -/
def step (s : FlushState) : FlushAction → Option FlushState
  | FlushAction.main => mainStep s
  | FlushAction.goroutine j =>
    match s.gs.get? j with
    | some g => goStep s j g
    | none => none

/-- A schedule, step by step. -/
def run (s : FlushState) : List FlushAction → Option FlushState
  | [] => some s
  | a :: as =>
    match step s a with
    | some s1 => run s1 as
    | none => none

/-- Whether a goroutine in this status still holds the wait group. -/
def active : GoStatus → Nat
  | GoStatus.done => 0
  | _ => 1

/-- How often a goroutine in this status has called `f.Flush()`. -/
def invoked : GoStatus → Nat
  | GoStatus.spawned => 0
  | _ => 1

/-- The steps a goroutine in this status still has to take. -/
def stepsLeft : GoStatus → Nat
  | GoStatus.spawned => 3
  | GoStatus.running => 2
  | GoStatus.flushed => 1
  | GoStatus.done => 0

/-- The steps the whole program still has to take. -/
def measure (s : FlushState) : Nat :=
  (s.gs.map (fun g => stepsLeft g.status)).sum +
    match s.pc with
    | FlushPC.start => 5 * s.flushers.length + 3
    | FlushPC.loop => 5 * (s.flushers.length - s.gs.length) + 2
    | FlushPC.added => 5 * (s.flushers.length - s.gs.length) + 1
    | FlushPC.wait => 1
    | FlushPC.returned => 0

/-- What holds in every state a schedule reaches. -/
structure Inv (s : FlushState) : Prop where
  len : s.gs.length ≤ s.flushers.length
  added : s.pc = FlushPC.added → s.gs.length < s.flushers.length
  atStart : s.pc = FlushPC.start → s.gs = []
  after : s.pc = FlushPC.wait ∨ s.pc = FlushPC.returned → s.gs.length = s.flushers.length
  ret : s.pc = FlushPC.returned → ∀ g ∈ s.gs, g.status = GoStatus.done
  count : s.wg = (s.gs.map (fun g => active g.status)).sum +
    (if s.pc = FlushPC.added then 1 else 0)
  calls : ∀ g ∈ s.gs, g.calls = invoked g.status
  fs : s.gs.map (fun g => g.f) = s.flushers.take s.gs.length

end Flush

/-! ## More concrete inputs -/

/-- A call stack: a frame of the package, a frame of a test file of the package,
a frame of the program; every program counter lies in the file its frame
reports, as in a build without inlining. -/
def sampleCallers : List Frame :=
  [⟨"log.addStackTrace".toList, "/go/src/log/stacktrace.go".toList, 50,
      "/go/src/log/stacktrace.go".toList⟩,
    ⟨"log.TestError".toList, "/go/src/log/entry_test.go".toList, 7,
      "/go/src/log/entry_test.go".toList⟩,
    ⟨"main.main".toList, "/app/main.go".toList, 12, "/app/main.go".toList⟩]

/-- An error without a stack that wraps an error with a stack. -/
def wrappedTracer : GoError :=
  GoError.wrap "read config".toList none
    (GoError.leaf "no such file".toList (some [⟨"os.Open".toList, "/go/os/file.go".toList, 3, "/go/os/file.go".toList⟩]))

/-- A logger whose level is above debug (`logrus.TraceLevel`, 6), with a new
entry. -/
def verboseStart : World × Entry := NewEntry { New sampleEnv with Level := 6 }

/-- The condition under which the first loop of `addStackTrace` goes on: the
file of the program counter itself has the prefix `myPath` and has not the
suffix `_test.go`. -/
def isOwnFrame (myPath : Str) (f : Frame) : Bool :=
  myPath.isPrefixOf f.rawFile && !("_test.go".toList.isSuffixOf f.rawFile)

/-- A hook with the field prefix `p`; a request is projected to a value of
another type. -/
def sampleHook (p : Str) : GraylogHook := ⟨p, fun t => Value.other t⟩

/-- A record with the fields `x` and `g-x`. -/
def sampleRecord : Record :=
  ⟨0, Level.InfoLevel, "m".toList,
    [("x".toList, Value.str "a".toList), ("g-x".toList, Value.str "b".toList)]⟩

/-- A schedule of `Flush` with two flushers: the main goroutine starts both
goroutines, the second one completes first, then the main goroutine returns. -/
def sampleSchedule : List FlushAction :=
  [FlushAction.main, FlushAction.main, FlushAction.main, FlushAction.main, FlushAction.main,
    FlushAction.main, FlushAction.goroutine 1, FlushAction.goroutine 0, FlushAction.goroutine 1,
    FlushAction.goroutine 1, FlushAction.goroutine 0, FlushAction.goroutine 0, FlushAction.main]

/-- The state the schedule `sampleSchedule` ends in. -/
def sampleFinal : FlushState :=
  ⟨[7, 8], FlushPC.returned, 0, [⟨7, GoStatus.done, 1⟩, ⟨8, GoStatus.done, 1⟩]⟩

/-! ## Proofs -/

/-! ### The character classes -/

theorem isWord_not_space {c : Char} (h : isWord c = true) : isSpace c = false := by
  simp only [isWord, isAlnum, isFoldExtra, isSpace, Bool.or_eq_true, Bool.and_eq_true,
    decide_eq_true_eq, Bool.or_eq_false_iff, decide_eq_false_iff_not] at *
  omega

theorem isWord_not_quote {c : Char} (h : isWord c = true) : isQuote c = false := by
  simp only [isWord, isAlnum, isFoldExtra, isQuote, Bool.or_eq_true, Bool.and_eq_true,
    decide_eq_true_eq, Bool.or_eq_false_iff, decide_eq_false_iff_not] at *
  omega

theorem isWord_not_sep {c : Char} (h : isWord c = true) : isSep c = false := by
  simp only [isWord, isAlnum, isFoldExtra, isSep, Bool.or_eq_true, Bool.and_eq_true,
    decide_eq_true_eq, Bool.or_eq_false_iff, decide_eq_false_iff_not] at *
  omega

theorem isWord_ne_bracket {c : Char} (h : isWord c = true) : c.toNat ≠ 91 := by
  simp only [isWord, isAlnum, isFoldExtra, Bool.or_eq_true, Bool.and_eq_true,
    decide_eq_true_eq] at *
  omega

theorem isEmailChar_not_space {c : Char} (h : isEmailChar c = true) : isSpace c = false := by
  simp only [isEmailChar, isAlnum, isFoldExtra, isSpace, Bool.or_eq_true, Bool.and_eq_true,
    decide_eq_true_eq, Bool.or_eq_false_iff, decide_eq_false_iff_not] at *
  omega

theorem isEmailChar_not_quote {c : Char} (h : isEmailChar c = true) : isQuote c = false := by
  simp only [isEmailChar, isAlnum, isFoldExtra, isQuote, Bool.or_eq_true, Bool.and_eq_true,
    decide_eq_true_eq, Bool.or_eq_false_iff, decide_eq_false_iff_not] at *
  omega

theorem foldEq_word {p c : Char} (hp : isWord p = true) (h : foldEq p c = true) :
    isWord c = true := by
  simp only [isWord, isAlnum, isFoldExtra, foldEq, Bool.or_eq_true, Bool.and_eq_true,
    decide_eq_true_eq] at *
  omega

/-! ### The stages of a rule -/

theorem optQuote_dec (x : Str) : (optQuote x).1 ++ (optQuote x).2 = x := by
  cases x with
  | nil => rfl
  | cons c t => by_cases h : isQuote c = true <;> simp [optQuote, h]

theorem optQuote_fst (x : Str) :
    (optQuote x).1 = [] ∨ ∃ q, isQuote q = true ∧ (optQuote x).1 = [q] := by
  cases x with
  | nil => exact Or.inl rfl
  | cons c t =>
    by_cases h : isQuote c = true
    · exact Or.inr ⟨c, h, by simp [optQuote, h]⟩
    · exact Or.inl (by simp [optQuote, h])

theorem optQuote_ext (x Y : Str) (hx : x ≠ []) :
    optQuote (x ++ Y) = ((optQuote x).1, (optQuote x).2 ++ Y) := by
  cases x with
  | nil => exact absurd rfl hx
  | cons c t => by_cases h : isQuote c = true <;> simp [optQuote, h]

theorem optQuote_br (u Z : Str) (b : Char) (hb : isQuote b = false) :
    optQuote (u ++ b :: Z) = ((optQuote u).1, (optQuote u).2 ++ b :: Z) := by
  cases u with
  | nil => simp [optQuote, hb]
  | cons c t => exact optQuote_ext _ _ (by simp)

theorem optQuote_of_not_quote (c : Char) (t : Str) (h : isQuote c = false) :
    optQuote (c :: t) = ([], c :: t) := by
  simp [optQuote, h]

theorem takeWhile_br (p : Char → Bool) (u Z : Str) (b : Char) (hb : p b = false) :
    (u ++ b :: Z).takeWhile p = u.takeWhile p := by
  induction u with
  | nil => simp [List.takeWhile, hb]
  | cons c t ih => by_cases h : p c = true <;> simp [List.takeWhile, h, ih]

theorem dropWhile_br (p : Char → Bool) (u Z : Str) (b : Char) (hb : p b = false) :
    (u ++ b :: Z).dropWhile p = u.dropWhile p ++ b :: Z := by
  induction u with
  | nil => simp [List.dropWhile, hb]
  | cons c t ih => by_cases h : p c = true <;> simp [List.dropWhile, h, ih]

theorem takeWhile_ext (p : Char → Bool) (x Y : Str) (h : x.dropWhile p ≠ []) :
    (x ++ Y).takeWhile p = x.takeWhile p := by
  induction x with
  | nil => simp at h
  | cons c t ih =>
    by_cases hc : p c = true
    · simp only [List.dropWhile, hc] at h
      simp [List.takeWhile, hc, ih h]
    · simp [List.takeWhile, hc]

theorem dropWhile_ext (p : Char → Bool) (x Y : Str) (h : x.dropWhile p ≠ []) :
    (x ++ Y).dropWhile p = x.dropWhile p ++ Y := by
  induction x with
  | nil => simp at h
  | cons c t ih =>
    by_cases hc : p c = true
    · simp only [List.dropWhile, hc] at h
      simp [List.dropWhile, hc, ih h]
    · simp [List.dropWhile, hc]

theorem takeWhile_ne_nil_ext (p : Char → Bool) (x Y : Str) (h : x.takeWhile p ≠ []) :
    (x ++ Y).takeWhile p ≠ [] := by
  cases x with
  | nil => simp at h
  | cons c t =>
    by_cases hc : p c = true
    · simp [List.takeWhile, hc]
    · simp [List.takeWhile, hc] at h

theorem takeWhile_all (p : Char → Bool) (x : Str) : ∀ c ∈ x.takeWhile p, p c = true :=
  fun _ hc => List.mem_takeWhile_imp hc

theorem matchLit_dec (pat x k r : Str) (h : matchLit pat x = some (k, r)) :
    x = k ++ r ∧ k.length = pat.length ∧ List.Forall₂ (fun p c => foldEq p c = true) pat k := by
  induction pat generalizing x k r with
  | nil =>
    simp [matchLit] at h
    obtain ⟨rfl, rfl⟩ := h
    simp
  | cons p ps ih =>
    cases x with
    | nil => simp [matchLit] at h
    | cons c t =>
      by_cases hc : foldEq p c = true
      · simp only [matchLit, hc, if_true] at h
        cases hm : matchLit ps t with
        | none => simp [hm] at h
        | some kr =>
          obtain ⟨k', r'⟩ := kr
          simp [hm] at h
          obtain ⟨rfl, rfl⟩ := h
          obtain ⟨h1, h2, h3⟩ := ih t k' r' hm
          exact ⟨by simp [h1], by simp [h2], List.Forall₂.cons hc h3⟩
      · simp [matchLit, hc] at h

theorem matchLit_ext (pat x k r Y : Str) (h : matchLit pat x = some (k, r)) :
    matchLit pat (x ++ Y) = some (k, r ++ Y) := by
  induction pat generalizing x k r with
  | nil =>
    simp [matchLit] at h
    obtain ⟨rfl, rfl⟩ := h
    simp [matchLit]
  | cons p ps ih =>
    cases x with
    | nil => simp [matchLit] at h
    | cons c t =>
      by_cases hc : foldEq p c = true
      · simp only [matchLit, hc, if_true] at h
        cases hm : matchLit ps t with
        | none => simp [hm] at h
        | some kr =>
          obtain ⟨k', r'⟩ := kr
          simp [hm] at h
          obtain ⟨rfl, rfl⟩ := h
          simp [matchLit, hc, ih t k' r' hm]
      · simp [matchLit, hc] at h

theorem matchLit_br (pat u Z : Str) (b : Char) (hb : ∀ p ∈ pat, foldEq p b = false) :
    matchLit pat (u ++ b :: Z) = (matchLit pat u).map (fun kr => (kr.1, kr.2 ++ b :: Z)) := by
  induction pat generalizing u with
  | nil => simp [matchLit]
  | cons p ps ih =>
    cases u with
    | nil => simp [matchLit, hb p (by simp)]
    | cons c t =>
      by_cases hc : foldEq p c = true
      · have := ih t (fun q hq => hb q (by simp [hq]))
        cases hm : matchLit ps t with
        | none => simp [matchLit, hc, this, hm]
        | some kr => simp [matchLit, hc, this, hm]
      · simp [matchLit, hc]

theorem clash_none (p q x k r Y : Str) (hc : clash p q) (h : matchLit q x = some (k, r)) :
    matchLit p (x ++ Y) = none := by
  induction p generalizing q x k r with
  | nil => cases q <;> simp [clash] at hc
  | cons a as ih =>
    cases q with
    | nil => simp [clash] at hc
    | cons b bs =>
      cases x with
      | nil => simp [matchLit] at h
      | cons c t =>
        by_cases hb : foldEq b c = true
        · simp only [matchLit, hb, if_true] at h
          cases hm : matchLit bs t with
          | none => simp [hm] at h
          | some kr =>
            obtain ⟨k', r'⟩ := kr
            by_cases ha : foldEq a c = true
            · rcases hc with hc | hc
              · exact absurd ⟨ha, hb⟩ (hc c)
              · simp [matchLit, ha, ih bs t k' r' hc hm]
            · simp [matchLit, ha]
        · simp [matchLit, hb] at h

theorem matchAlt_dec (keys : List Str) (x k r : Str) (h : matchAlt keys x = some (k, r)) :
    ∃ q ∈ keys, matchLit q x = some (k, r) := by
  induction keys with
  | nil => simp [matchAlt] at h
  | cons p ps ih =>
    cases hm : matchLit p x with
    | none =>
      simp only [matchAlt, hm] at h
      obtain ⟨q, hq, hq2⟩ := ih h
      exact ⟨q, by simp [hq], hq2⟩
    | some kr =>
      simp only [matchAlt, hm] at h
      exact ⟨p, by simp, by rw [hm, h]⟩

theorem matchAlt_ext (keys : List Str) (x k r Y : Str) (hp : keys.Pairwise clash)
    (h : matchAlt keys x = some (k, r)) : matchAlt keys (x ++ Y) = some (k, r ++ Y) := by
  induction keys with
  | nil => simp [matchAlt] at h
  | cons p ps ih =>
    rw [List.pairwise_cons] at hp
    cases hm : matchLit p x with
    | none =>
      simp only [matchAlt, hm] at h
      obtain ⟨q, hq, hq2⟩ := matchAlt_dec ps x k r h
      simp only [matchAlt, clash_none p q x k r Y (hp.1 q hq) hq2]
      exact ih hp.2 h
    | some kr =>
      simp only [matchAlt, hm] at h
      rw [h] at hm
      simp [matchAlt, matchLit_ext p x k r Y hm]

theorem matchAlt_br (keys : List Str) (u Z : Str) (b : Char)
    (hb : ∀ key ∈ keys, ∀ p ∈ key, foldEq p b = false) :
    matchAlt keys (u ++ b :: Z) = (matchAlt keys u).map (fun kr => (kr.1, kr.2 ++ b :: Z)) := by
  induction keys with
  | nil => simp [matchAlt]
  | cons p ps ih =>
    have h1 := matchLit_br p u Z b (hb p (by simp))
    have h2 := ih (fun key hk => hb key (by simp [hk]))
    cases hm : matchLit p u with
    | none => simp [matchAlt, h1, hm, h2]
    | some kr => simp [matchAlt, h1, hm]

theorem forall₂_word (pat k : Str) (hp : ∀ p ∈ pat, isWord p = true)
    (h : List.Forall₂ (fun p c => foldEq p c = true) pat k) : ∀ c ∈ k, isWord c = true := by
  induction h with
  | nil => simp
  | cons h1 _ ih =>
    intro c hc
    rcases List.mem_cons.1 hc with rfl | hc
    · exact foldEq_word (hp _ (by simp)) h1
    · exact ih (fun p hp2 => hp p (by simp [hp2])) c hc

theorem matchAlt_word (keys : List Str) (x k r : Str) (hk : KeysOK keys)
    (h : matchAlt keys x = some (k, r)) :
    x = k ++ r ∧ k ≠ [] ∧ ∀ c ∈ k, isWord c = true := by
  obtain ⟨q, hq, hm⟩ := matchAlt_dec keys x k r h
  obtain ⟨h1, h2, h3⟩ := matchLit_dec q x k r hm
  refine ⟨h1, ?_, forall₂_word q k (hk.1 q hq).2 h3⟩
  intro hnil
  rw [hnil] at h2
  exact (hk.1 q hq).1 (List.length_eq_zero.1 h2.symm)

theorem keys_bracket (keys : List Str) (hk : KeysOK keys) (b : Char) (hb : isWord b = false) :
    ∀ key ∈ keys, ∀ p ∈ key, foldEq p b = false := by
  intro key hkey p hp
  by_contra h
  have := foldEq_word ((hk.1 key hkey).2 p hp) (by simpa using h)
  rw [hb] at this
  exact Bool.false_ne_true this

/-- Unfolding of `matchHeader`. -/
theorem matchHeader_some (keys : List Str) (s pre r : Str) :
    matchHeader keys s = some (pre, r) ↔
      ∃ k s2 c s5, matchAlt keys (optQuote s).2 = some (k, s2) ∧
        (optQuote s2).2.dropWhile isSpace = c :: s5 ∧ isSep c = true ∧
        pre = (optQuote s).1 ++ k ++ (optQuote s2).1 ++ (optQuote s2).2.takeWhile isSpace ++
          c :: s5.takeWhile isSpace ++ (optQuote (s5.dropWhile isSpace)).1 ∧
        r = (optQuote (s5.dropWhile isSpace)).2 := by
  simp only [matchHeader]
  cases hm : matchAlt keys (optQuote s).2 with
  | none => simp
  | some kr =>
    obtain ⟨k, s2⟩ := kr
    cases hd : (optQuote s2).2.dropWhile isSpace with
    | nil => simp [hd]
    | cons c s5 =>
      by_cases hc : isSep c = true
      · simp only [hd, hc, if_true, Option.some.injEq, Prod.mk.injEq]
        constructor
        · rintro ⟨rfl, rfl⟩
          exact ⟨k, s2, c, s5, ⟨rfl, rfl⟩, hd, hc, rfl, rfl⟩
        · rintro ⟨k', s2', c', s5', ⟨rfl, rfl⟩, h2, -, h4, h5⟩
          rw [hd] at h2
          simp only [List.cons.injEq] at h2
          obtain ⟨rfl, rfl⟩ := h2
          exact ⟨h4.symm, h5.symm⟩
      · simp only [hd, hc]
        constructor
        · intro h
          simp at h
        · rintro ⟨k', s2', c', s5', h1, h2, h3, -, -⟩
          simp only [Option.some.injEq, Prod.mk.injEq] at h1
          obtain ⟨rfl, rfl⟩ := h1
          rw [hd] at h2
          simp only [List.cons.injEq] at h2
          obtain ⟨rfl, rfl⟩ := h2
          exact absurd h3 hc

theorem matchHeader_dec (keys : List Str) (hk : KeysOK keys) (s pre r : Str)
    (h : matchHeader keys s = some (pre, r)) : s = pre ++ r := by
  obtain ⟨k, s2, c, s5, h1, h2, -, rfl, rfl⟩ := (matchHeader_some keys s pre r).1 h
  have e1 := optQuote_dec s
  have e2 := (matchAlt_word keys _ k s2 hk h1).1
  have e3 := optQuote_dec s2
  have e4 := List.takeWhile_append_dropWhile isSpace (optQuote s2).2
  have e5 := List.takeWhile_append_dropWhile isSpace s5
  have e6 := optQuote_dec (s5.dropWhile isSpace)
  rw [h2] at e4
  calc s = (optQuote s).1 ++ (optQuote s).2 := e1.symm
    _ = (optQuote s).1 ++ (k ++ s2) := by rw [e2]
    _ = (optQuote s).1 ++ (k ++ ((optQuote s2).1 ++ (optQuote s2).2)) := by rw [e3]
    _ = (optQuote s).1 ++ (k ++ ((optQuote s2).1 ++
          ((optQuote s2).2.takeWhile isSpace ++ c :: s5))) := by rw [e4]
    _ = (optQuote s).1 ++ (k ++ ((optQuote s2).1 ++
          ((optQuote s2).2.takeWhile isSpace ++ c :: (s5.takeWhile isSpace ++
            ((optQuote (s5.dropWhile isSpace)).1 ++ (optQuote (s5.dropWhile isSpace)).2))))) := by
        rw [e6, e5]
    _ = _ := by simp [List.append_assoc]

theorem matchHeader_br (keys : List Str) (hk : KeysOK keys) (u Z : Str) (b : Char)
    (hb : Barrier b) :
    matchHeader keys (u ++ b :: Z) =
      (matchHeader keys u).map (fun p => (p.1, p.2 ++ b :: Z)) := by
  obtain ⟨hw, -, hq, hs, hp, -⟩ := hb
  simp only [matchHeader, optQuote_br u Z b hq,
    matchAlt_br keys _ Z b (keys_bracket keys hk b hw)]
  cases hm : matchAlt keys (optQuote u).2 with
  | none => simp
  | some kr =>
    obtain ⟨k, s2⟩ := kr
    simp only [Option.map_some', optQuote_br s2 Z b hq, takeWhile_br isSpace _ Z b hs,
      dropWhile_br isSpace _ Z b hs]
    cases hd : (optQuote s2).2.dropWhile isSpace with
    | nil => simp [hp]
    | cons c s5 =>
      by_cases hc : isSep c = true
      · simp [hc, optQuote_br _ Z b hq, takeWhile_br isSpace _ Z b hs,
          dropWhile_br isSpace _ Z b hs]
      · simp [hc]

theorem optQuote_snd_ne_nil (x : Str) (h : (optQuote x).2 ≠ []) : x ≠ [] := by
  rintro rfl
  exact h rfl

theorem dropWhile_ne_nil (p : Char → Bool) (x : Str) (h : x.dropWhile p ≠ []) : x ≠ [] := by
  rintro rfl
  exact h rfl

theorem matchHeader_ext (keys : List Str) (hk : KeysOK keys) (x pre r Y : Str)
    (h : matchHeader keys x = some (pre, r)) (hr : r ≠ []) :
    matchHeader keys (x ++ Y) = some (pre, r ++ Y) := by
  have hx : x ≠ [] := by
    rw [matchHeader_dec keys hk x pre r h]
    simp [hr]
  obtain ⟨k, s2, c, s5, h1, h2, h3, rfl, rfl⟩ := (matchHeader_some keys x pre _).1 h
  have d5 : s5.dropWhile isSpace ≠ [] := optQuote_snd_ne_nil _ hr
  have d2 : (optQuote s2).2.dropWhile isSpace ≠ [] := by simp [h2]
  have n2 : s2 ≠ [] := optQuote_snd_ne_nil _ (dropWhile_ne_nil _ _ d2)
  refine (matchHeader_some keys (x ++ Y) _ _).2 ⟨k, s2 ++ Y, c, s5 ++ Y, ?_, ?_, h3, ?_, ?_⟩
  · rw [optQuote_ext x Y hx]
    exact matchAlt_ext keys _ k s2 Y hk.2 h1
  · rw [optQuote_ext s2 Y n2]
    simp only [dropWhile_ext isSpace _ Y d2, h2, List.cons_append]
  · rw [optQuote_ext x Y hx, optQuote_ext s2 Y n2]
    simp only [takeWhile_ext isSpace _ Y d2, takeWhile_ext isSpace _ Y d5,
      dropWhile_ext isSpace _ Y d5, optQuote_ext _ Y d5]
  · simp only [dropWhile_ext isSpace _ Y d5, optQuote_ext _ Y d5]

theorem matchHeader_quote (keys : List Str) (hk : KeysOK keys) (q : Char) (r pre rest : Str)
    (hq : isQuote q = true) (h : matchHeader keys (q :: r) = some (pre, rest)) :
    ∃ pre', pre = q :: pre' ∧ matchHeader keys r = some (pre', rest) := by
  obtain ⟨k, s2, c, s5, h1, h2, h3, rfl, rfl⟩ := (matchHeader_some keys _ pre _).1 h
  have e : optQuote (q :: r) = ([q], r) := by simp [optQuote, hq]
  rw [e] at h1
  obtain ⟨w1, w2, w3⟩ := matchAlt_word keys r k s2 hk h1
  cases k with
  | nil => exact absurd rfl w2
  | cons c0 k0 =>
    have e2 : optQuote r = ([], r) := by
      rw [w1]
      exact optQuote_of_not_quote c0 _ (isWord_not_quote (w3 c0 (by simp)))
    refine ⟨_, ?_, (matchHeader_some keys r _ _).2 ⟨c0 :: k0, s2, c, s5, ?_, h2, h3, rfl, rfl⟩⟩
    · simp [e, e2]
    · rw [e2]
      exact h1

/-! ### Separator and value -/

theorem sepThenValue_suffix (a b : Str) (h : sepThenValue (a ++ b) = false) :
    sepThenValue b = false := by
  induction a with
  | nil => exact h
  | cons c t ih =>
    simp only [List.cons_append, sepThenValue, Bool.or_eq_false_iff] at h
    exact ih h.2

theorem sepThenValue_intro (a b d : Str) (c w : Char) (hc : isSep c = true)
    (hw : (!isSpace w && !isQuote w) = true) :
    sepThenValue (a ++ c :: (b ++ w :: d)) = true := by
  induction a with
  | nil => simp [sepThenValue, hc, hw]
  | cons x t ih => simp [sepThenValue, ih]

theorem sepThenValue_no_value (b : Str) (h : ∀ d ∈ b, (!isSpace d && !isQuote d) = false) :
    sepThenValue b = false := by
  induction b with
  | nil => rfl
  | cons x t ih =>
    have ht : ∀ d ∈ t, (!isSpace d && !isQuote d) = false := fun d hd => h d (by simp [hd])
    have : t.any (fun d => !isSpace d && !isQuote d) = false := by
      rw [List.any_eq_false]
      intro d hd
      simp [ht d hd]
    simp [sepThenValue, ih ht, this]

theorem sepThenValue_header (a b : Str) (ha : ∀ d ∈ a, isSep d = false)
    (hb : sepThenValue b = false) : sepThenValue (a ++ b) = false := by
  induction a with
  | nil => exact hb
  | cons x t ih =>
    simp [sepThenValue, ha x (by simp), ih (fun d hd => ha d (by simp [hd]))]

theorem matchHeader_noValue (keys : List Str) (hk : KeysOK keys) (s pre r : Str)
    (h : matchHeader keys s = some (pre, r)) : sepThenValue pre = false := by
  obtain ⟨k, s2, c, s5, h1, h2, h3, rfl, rfl⟩ := (matchHeader_some keys s pre _).1 h
  obtain ⟨-, -, w3⟩ := matchAlt_word keys _ k s2 hk h1
  have q1 := optQuote_fst s
  have q3 := optQuote_fst s2
  have q5 := optQuote_fst (s5.dropWhile isSpace)
  have hq : ∀ x : Str, ((optQuote x).1 = [] ∨ ∃ q, isQuote q = true ∧ (optQuote x).1 = [q]) →
      ∀ d ∈ (optQuote x).1, isQuote d = true := by
    intro x hx d hd
    rcases hx with hx | ⟨q, hq1, hq2⟩
    · rw [hx] at hd
      simp at hd
    · rw [hq2] at hd
      simp at hd
      rw [hd]
      exact hq1
  have qs : ∀ d, isQuote d = true → isSep d = false := by
    intro d hd
    simp only [isQuote, isSep, Bool.or_eq_true, decide_eq_true_eq, Bool.or_eq_false_iff,
      decide_eq_false_iff_not] at *
    omega
  have ss : ∀ d, isSpace d = true → isSep d = false := by
    intro d hd
    simp only [isSpace, isSep, Bool.or_eq_true, decide_eq_true_eq, Bool.or_eq_false_iff,
      decide_eq_false_iff_not] at *
    omega
  have e : (optQuote s).1 ++ k ++ (optQuote s2).1 ++ (optQuote s2).2.takeWhile isSpace ++
        c :: s5.takeWhile isSpace ++ (optQuote (s5.dropWhile isSpace)).1 =
      ((optQuote s).1 ++ k ++ (optQuote s2).1 ++ (optQuote s2).2.takeWhile isSpace) ++
        c :: (s5.takeWhile isSpace ++ (optQuote (s5.dropWhile isSpace)).1) := by
    simp [List.append_assoc]
  rw [e]
  apply sepThenValue_header
  · intro d hd
    simp only [List.mem_append] at hd
    rcases hd with ((hd | hd) | hd) | hd
    · exact qs d (hq s q1 d hd)
    · exact isWord_not_sep (w3 d hd)
    · exact qs d (hq s2 q3 d hd)
    · exact ss d (takeWhile_all isSpace _ d hd)
  · have hv : ∀ d ∈ s5.takeWhile isSpace ++ (optQuote (s5.dropWhile isSpace)).1,
        (!isSpace d && !isQuote d) = false := by
      intro d hd
      simp only [List.mem_append] at hd
      rcases hd with hd | hd
      · simp [takeWhile_all isSpace _ d hd]
      · simp [hq _ q5 d hd]
    have hany : (s5.takeWhile isSpace ++ (optQuote (s5.dropWhile isSpace)).1).any
        (fun d => !isSpace d && !isQuote d) = false := by
      rw [List.any_eq_false]
      intro d hd
      simp [hv d hd]
    simp only [sepThenValue, hany, Bool.and_false, Bool.false_or]
    exact sepThenValue_no_value _ hv

theorem matchHeader_hasSep (keys : List Str) (s pre r : Str)
    (h : matchHeader keys s = some (pre, r)) : ∃ a c b, pre = a ++ c :: b ∧ isSep c = true := by
  obtain ⟨k, s2, c, s5, -, -, h3, rfl, rfl⟩ := (matchHeader_some keys s pre _).1 h
  exact ⟨(optQuote s).1 ++ k ++ (optQuote s2).1 ++ (optQuote s2).2.takeWhile isSpace, c,
    s5.takeWhile isSpace ++ (optQuote (s5.dropWhile isSpace)).1, by simp [List.append_assoc], h3⟩

theorem find_some (R : Rule) (s pre post rest : Str) :
    R.find s = some (pre, post, rest) ↔
      ∃ s7 v s8, matchHeader R.keys s = some (pre, s7) ∧ R.value s7 = some (v, s8) ∧
        post = (optQuote s8).1 ∧ rest = (optQuote s8).2 := by
  simp only [Rule.find]
  cases hh : matchHeader R.keys s with
  | none => simp
  | some ps =>
    obtain ⟨p, s7⟩ := ps
    cases hv : R.value s7 with
    | none => simp [hv]
    | some vs =>
      obtain ⟨v, s8⟩ := vs
      simp only [hv, Option.some.injEq, Prod.mk.injEq]
      constructor
      · rintro ⟨rfl, rfl, rfl⟩
        exact ⟨s7, v, s8, ⟨rfl, rfl⟩, hv, rfl, rfl⟩
      · rintro ⟨s7', v', s8', ⟨rfl, rfl⟩, h2, h3, h4⟩
        rw [hv] at h2
        simp only [Option.some.injEq, Prod.mk.injEq] at h2
        obtain ⟨rfl, rfl⟩ := h2
        exact ⟨rfl, h3.symm, h4.symm⟩

theorem find_dec (R : Rule) (hR : RuleOK R) (s pre post rest : Str)
    (h : R.find s = some (pre, post, rest)) :
    ∃ v, s = pre ++ v ++ post ++ rest ∧ v ≠ [] ∧ sepThenValue pre = false ∧
      (post = [] ∨ ∃ q, isQuote q = true ∧ post = [q]) := by
  obtain ⟨s7, v, s8, h1, h2, rfl, rfl⟩ := (find_some R s pre post rest).1 h
  refine ⟨v, ?_, ?_, matchHeader_noValue R.keys hR.keys s pre s7 h1, optQuote_fst s8⟩
  · rw [matchHeader_dec R.keys hR.keys s pre s7 h1, hR.value.dec s7 v s8 h2]
    have := optQuote_dec s8
    calc pre ++ (v ++ s8) = pre ++ (v ++ ((optQuote s8).1 ++ (optQuote s8).2)) := by rw [this]
      _ = _ := by simp [List.append_assoc]
  · obtain ⟨c, v', hv, -⟩ := hR.value.start s7 v s8 h2
    simp [hv]

theorem find_br (R : Rule) (hR : RuleOK R) (u Z : Str) (b : Char) (hb : Barrier b) :
    R.find (u ++ b :: Z) = (R.find u).map (fun p => (p.1, p.2.1, p.2.2 ++ b :: Z)) := by
  simp only [Rule.find, matchHeader_br R.keys hR.keys u Z b hb]
  cases hh : matchHeader R.keys u with
  | none => simp
  | some ps =>
    obtain ⟨p, s7⟩ := ps
    simp only [Option.map_some', hR.value.br s7 Z b hb]
    cases hv : R.value s7 with
    | none => simp
    | some vs => simp [optQuote_br _ Z b hb.2.2.1]

theorem find_sepThenValue (R : Rule) (hR : RuleOK R) (s : Str)
    (h : (R.find s).isSome = true) : sepThenValue s = true := by
  obtain ⟨⟨pre, post, rest⟩, hf⟩ := Option.isSome_iff_exists.1 h
  obtain ⟨s7, v, s8, h1, h2, rfl, rfl⟩ := (find_some R s pre _ _).1 hf
  obtain ⟨a, c, b, rfl, hc⟩ := matchHeader_hasSep R.keys s pre s7 h1
  obtain ⟨w, v', rfl, hw⟩ := hR.value.start s7 v s8 h2
  rw [matchHeader_dec R.keys hR.keys s _ s7 h1, hR.value.dec s7 _ s8 h2]
  have := sepThenValue_intro a b (v' ++ s8) c w hc hw
  simpa [List.append_assoc] using this

theorem find_ext (R : Rule) (hR : RuleOK R) (x Y : Str) (h : (R.find x).isSome = true) :
    (R.find (x ++ Y)).isSome = true := by
  obtain ⟨⟨pre, post, rest⟩, hf⟩ := Option.isSome_iff_exists.1 h
  obtain ⟨s7, v, s8, h1, h2, rfl, rfl⟩ := (find_some R x pre _ _).1 hf
  have n7 : s7 ≠ [] := by
    obtain ⟨w, v', rfl, -⟩ := hR.value.start s7 v s8 h2
    rw [hR.value.dec s7 _ s8 h2]
    simp
  have e := matchHeader_ext R.keys hR.keys x pre s7 Y h1 n7
  have e2 := hR.value.ext s7 v s8 Y h2
  obtain ⟨⟨v2, s9⟩, hv2⟩ := Option.isSome_iff_exists.1 e2
  simp [Rule.find, e, hv2]

theorem find_quote (R : Rule) (hR : RuleOK R) (q : Char) (r : Str) (hq : isQuote q = true)
    (h : (R.find (q :: r)).isSome = true) : (R.find r).isSome = true := by
  obtain ⟨⟨pre, post, rest⟩, hf⟩ := Option.isSome_iff_exists.1 h
  obtain ⟨s7, v, s8, h1, h2, rfl, rfl⟩ := (find_some R _ pre _ _).1 hf
  obtain ⟨pre', -, h3⟩ := matchHeader_quote R.keys hR.keys q r pre s7 hq h1
  simp [Rule.find, h3, h2]

theorem replaceFrom_skip (R : Rule) (k : Nat) (s : Str) :
    R.replaceFrom k s = R.replaceFrom 0 (s.drop k) := by
  induction s generalizing k with
  | nil => cases k <;> simp [Rule.replaceFrom]
  | cons c t ih =>
    cases k with
    | zero => simp
    | succ k => simp [Rule.replaceFrom, ih k]

theorem replaceAll_nil (R : Rule) : R.ReplaceAll [] = [] := rfl

theorem replaceAll_none (R : Rule) (c : Char) (t : Str) (h : R.find (c :: t) = none) :
    R.ReplaceAll (c :: t) = c :: R.ReplaceAll t := by
  simp [Rule.ReplaceAll, Rule.replaceFrom, h]

theorem replaceAll_some (R : Rule) (hR : RuleOK R) (s pre post rest : Str)
    (h : R.find s = some (pre, post, rest)) :
    R.ReplaceAll s = pre ++ filtered ++ post ++ R.ReplaceAll rest := by
  obtain ⟨v, hs, hv, -, -⟩ := find_dec R hR s pre post rest h
  cases s with
  | nil =>
    have := congrArg List.length hs
    cases v with
    | nil => exact absurd rfl hv
    | cons w v' =>
      simp at this
      omega
  | cons c t =>
    simp only [Rule.ReplaceAll, Rule.replaceFrom, h]
    rw [replaceFrom_skip]
    have ht : t = (pre ++ v ++ post).tail ++ rest := by
      have h2 : c :: t = (pre ++ v ++ post) ++ rest := hs
      have hne : pre ++ v ++ post ≠ [] := by simp [hv]
      cases hm : pre ++ v ++ post with
      | nil => exact absurd hm hne
      | cons m ms =>
        rw [hm] at h2
        simp only [List.cons_append, List.cons.injEq] at h2
        simpa using h2.2
    have hd : t.drop (t.length - rest.length) = rest := by
      conv_lhs => rw [ht]
      simp
    rw [hd]

theorem noHit_replace (R : Rule) (s : Str) (h : NoHit R s) : R.ReplaceAll s = s := by
  induction s with
  | nil => rfl
  | cons c t ih => rw [replaceAll_none R c t h.1, ih h.2]

theorem noHit_append (R : Rule) (a b : Str)
    (h : ∀ a1 a2, a = a1 ++ a2 → a2 ≠ [] → R.find (a2 ++ b) = none) (hb : NoHit R b) :
    NoHit R (a ++ b) := by
  induction a with
  | nil => exact hb
  | cons c t ih =>
    refine ⟨h [] (c :: t) rfl (by simp), ih ?_⟩
    intro a1 a2 e hne
    exact h (c :: a1) a2 (by simp [e]) hne

theorem covers_suffix (R R2 : Rule) (a b : Str) (h : Covers R R2 (a ++ b)) : Covers R R2 b := by
  intro a1 c1 b1 e
  exact h (a ++ a1) c1 b1 (by simp [e])

theorem barrier_bracket : Barrier '[' := by
  refine ⟨by decide, by decide, by decide, by decide, by decide, by decide⟩

theorem filtered_eq : filtered = '[' :: "FILTERED]".toList := rfl

/-- A replacement further on never creates a match that starts before it. -/
theorem find_replaceAll_none (R R2 : Rule) (hR : RuleOK R) (h2 : RuleOK R2) (y : Str) :
    ∀ x, R.find (x ++ y) = none → R.find (x ++ R2.ReplaceAll y) = none := by
  induction y with
  | nil => exact fun x h => h
  | cons c t ih =>
    intro x h
    cases hf : R2.find (c :: t) with
    | none =>
      rw [replaceAll_none R2 c t hf]
      have := ih (x ++ [c]) (by simpa using h)
      simpa using this
    | some m =>
      obtain ⟨pre, post, rest⟩ := m
      obtain ⟨v, hs, -, -, -⟩ := find_dec R2 h2 _ pre post rest hf
      rw [replaceAll_some R2 h2 _ pre post rest hf, filtered_eq]
      have e : x ++ (pre ++ '[' :: "FILTERED]".toList ++ post ++ R2.ReplaceAll rest) =
          (x ++ pre) ++ '[' :: ("FILTERED]".toList ++ post ++ R2.ReplaceAll rest) := by
        simp [List.append_assoc]
      rw [e, find_br R hR _ _ _ barrier_bracket]
      cases hx : R.find (x ++ pre) with
      | none => rfl
      | some m2 =>
        have := find_ext R hR (x ++ pre) (v ++ post ++ rest) (by simp [hx])
        rw [hs] at h
        simp [List.append_assoc] at this h
        simp [h] at this

/-- The result of a replacement pass holds no match of a rule whose matches the
replacing rule covers. -/
theorem noHit_replaceAll (R R2 : Rule) (hR : RuleOK R) (h2 : RuleOK R2) :
    ∀ n (s : Str), s.length = n → Covers R R2 s → NoHit R (R2.ReplaceAll s) := by
  intro n
  induction n using Nat.strong_induction_on with
  | _ n ih =>
    intro s hn hc
    cases s with
    | nil => exact trivial
    | cons c t =>
      cases hf : R2.find (c :: t) with
      | none =>
        rw [replaceAll_none R2 c t hf]
        have hmiss : R.find (c :: t) = none := by
          by_contra hne
          have := hc [] c t rfl (by
            cases hq : R.find (c :: t) with
            | none => exact absurd hq hne
            | some _ => rfl)
          simp [hf] at this
        refine ⟨?_, ih t.length (by simp at hn; omega) t rfl (covers_suffix R R2 [c] t hc)⟩
        exact find_replaceAll_none R R2 hR h2 t [c] hmiss
      | some m =>
        obtain ⟨pre, post, rest⟩ := m
        obtain ⟨v, hs, hv, hpre, hpost⟩ := find_dec R2 h2 _ pre post rest hf
        rw [replaceAll_some R2 h2 _ pre post rest hf]
        have hlen : rest.length < n := by
          have := congrArg List.length hs
          have hv2 : 0 < v.length := List.length_pos.2 hv
          simp at this hn
          omega
        have hcr : Covers R R2 rest := by
          rw [hs] at hc
          exact covers_suffix R R2 _ rest hc
        have hrest : NoHit R (R2.ReplaceAll rest) := ih rest.length hlen rest rfl hcr
        have hpostr : NoHit R (post ++ R2.ReplaceAll rest) := by
          rcases hpost with rfl | ⟨q, hq, rfl⟩
          · exact hrest
          · refine ⟨?_, hrest⟩
            cases hqr : R.find (q :: rest) with
            | none => exact find_replaceAll_none R R2 hR h2 rest [q] hqr
            | some m2 =>
              have hcq : Covers R R2 (q :: rest) := by
                rw [hs] at hc
                exact covers_suffix R R2 (pre ++ v) (q :: rest) (by simpa using hc)
              have h3 := hcq [] q rest rfl (by simp [hqr])
              have h4 := find_quote R2 h2 q rest hq h3
              obtain ⟨⟨pre2, post2, rest2⟩, hf2⟩ := Option.isSome_iff_exists.1 h4
              obtain ⟨v2, -, -, hpre2, -⟩ := find_dec R2 h2 _ pre2 post2 rest2 hf2
              rw [replaceAll_some R2 h2 _ pre2 post2 rest2 hf2, filtered_eq]
              have e : q :: (pre2 ++ '[' :: "FILTERED]".toList ++ post2 ++ R2.ReplaceAll rest2) =
                  (q :: pre2) ++ '[' :: ("FILTERED]".toList ++ post2 ++ R2.ReplaceAll rest2) := by
                simp [List.append_assoc]
              show R.find (q :: (pre2 ++ '[' :: "FILTERED]".toList ++ post2 ++
                R2.ReplaceAll rest2)) = none
              rw [e, find_br R hR _ _ _ barrier_bracket]
              cases hx : R.find (q :: pre2) with
              | none => rfl
              | some m3 =>
                have h5 := find_sepThenValue R hR (q :: pre2) (by simp [hx])
                have hqs : isSep q = false := by
                  simp only [isQuote, isSep, Bool.or_eq_true, decide_eq_true_eq,
                    Bool.or_eq_false_iff, decide_eq_false_iff_not] at *
                  omega
                simp [sepThenValue, hqs, hpre2] at h5
        have hfil : NoHit R (filtered ++ (post ++ R2.ReplaceAll rest)) :=
          noHit_append R _ _ (fun a1 a2 e hne => hR.marker a1 a2 _ e hne) hpostr
        have hall : NoHit R (pre ++ (filtered ++ (post ++ R2.ReplaceAll rest))) := by
          apply noHit_append R _ _ _ hfil
          intro a1 a2 e hne
          rw [filtered_eq]
          have e2 : a2 ++ ('[' :: "FILTERED]".toList ++ (post ++ R2.ReplaceAll rest)) =
              a2 ++ '[' :: ("FILTERED]".toList ++ (post ++ R2.ReplaceAll rest)) := by simp
          rw [e2, find_br R hR _ _ _ barrier_bracket]
          cases hx : R.find a2 with
          | none => rfl
          | some m3 =>
            have h5 := find_sepThenValue R hR a2 (by simp [hx])
            rw [e] at hpre
            rw [sepThenValue_suffix a1 a2 hpre] at h5
            exact absurd h5 (by simp)
        simpa [List.append_assoc] using hall

theorem wordValue_ok : ValueOK wordValue := by
  refine ⟨?_, ?_, ?_, ?_⟩
  · intro x v r h
    simp only [wordValue] at h
    split at h
    · simp at h
    · simp only [Option.some.injEq, Prod.mk.injEq] at h
      rw [← h.1, ← h.2, List.takeWhile_append_dropWhile]
  · intro x v r h
    simp only [wordValue] at h
    split at h
    · simp at h
    · rename_i hne
      simp only [Option.some.injEq, Prod.mk.injEq] at h
      rw [← h.1]
      cases hv : x.takeWhile isWord with
      | nil => exact absurd hv hne
      | cons c v' =>
        have hc : isWord c = true := takeWhile_all isWord x c (by simp [hv])
        exact ⟨c, v', rfl, by simp [isWord_not_space hc, isWord_not_quote hc]⟩
  · intro u Z b hb
    simp only [wordValue, takeWhile_br isWord u Z b hb.1, dropWhile_br isWord u Z b hb.1]
    split <;> simp
  · intro x v r Y h
    simp only [wordValue] at h ⊢
    split at h
    · simp at h
    · rename_i hne
      simp [takeWhile_ne_nil_ext isWord x Y hne]

theorem emailValue_some (x v r : Str) :
    emailValue x = some (v, r) ↔
      x.takeWhile isEmailChar ≠ [] ∧ ∃ c t, x.dropWhile isEmailChar = c :: t ∧ c.toNat = 64 ∧
        t.takeWhile isEmailChar ≠ [] ∧
        v = x.takeWhile isEmailChar ++ c :: t.takeWhile isEmailChar ∧
        r = t.dropWhile isEmailChar := by
  simp only [emailValue]
  by_cases h1 : x.takeWhile isEmailChar = []
  · simp [h1]
  · cases hd : x.dropWhile isEmailChar with
    | nil => simp [h1]
    | cons c t =>
      by_cases hc : c.toNat = 64
      · by_cases h2 : t.takeWhile isEmailChar = []
        · simp only [h1, hc, h2, if_true, if_false]
          constructor
          · intro h
            simp at h
          · rintro ⟨-, c', t', e, -, h2', -⟩
            simp only [List.cons.injEq] at e
            obtain ⟨rfl, rfl⟩ := e
            exact absurd h2 h2'
        · simp only [h1, hc, h2, if_true, if_false, Option.some.injEq, Prod.mk.injEq]
          constructor
          · rintro ⟨rfl, rfl⟩
            exact ⟨h1, c, t, rfl, hc, h2, rfl, rfl⟩
          · rintro ⟨-, c', t', e, -, -, rfl, rfl⟩
            simp only [List.cons.injEq] at e
            obtain ⟨rfl, rfl⟩ := e
            exact ⟨rfl, rfl⟩
      · simp only [h1, hc, if_false]
        constructor
        · intro h
          simp at h
        · rintro ⟨-, c', t', e, h64, -⟩
          simp only [List.cons.injEq] at e
          obtain ⟨rfl, rfl⟩ := e
          exact absurd h64 hc

theorem emailValue_ok : ValueOK emailValue := by
  refine ⟨?_, ?_, ?_, ?_⟩
  · intro x v r h
    obtain ⟨-, c, t, hd, -, -, rfl, rfl⟩ := (emailValue_some x v r).1 h
    have e1 := List.takeWhile_append_dropWhile isEmailChar x
    have e2 := List.takeWhile_append_dropWhile isEmailChar t
    rw [hd] at e1
    calc x = x.takeWhile isEmailChar ++ c :: t := e1.symm
      _ = x.takeWhile isEmailChar ++ c :: (t.takeWhile isEmailChar ++ t.dropWhile isEmailChar) := by
        rw [e2]
      _ = _ := by simp [List.append_assoc]
  · intro x v r h
    obtain ⟨hne, c, t, -, -, -, rfl, rfl⟩ := (emailValue_some x v r).1 h
    cases hv : x.takeWhile isEmailChar with
    | nil => exact absurd hv hne
    | cons c0 v' =>
      have hc : isEmailChar c0 = true := takeWhile_all isEmailChar x c0 (by simp [hv])
      exact ⟨c0, v' ++ c :: t.takeWhile isEmailChar, by simp,
        by simp [isEmailChar_not_space hc, isEmailChar_not_quote hc]⟩
  · intro u Z b hb
    simp only [emailValue, takeWhile_br isEmailChar u Z b hb.2.1,
      dropWhile_br isEmailChar u Z b hb.2.1]
    by_cases h1 : u.takeWhile isEmailChar = []
    · simp [h1]
    · cases hd : u.dropWhile isEmailChar with
      | nil => simp [h1, hb.2.2.2.2.2]
      | cons c t =>
        by_cases hc : c.toNat = 64
        · by_cases h2 : t.takeWhile isEmailChar = []
          · simp [h1, hc, h2, takeWhile_br isEmailChar t Z b hb.2.1]
          · simp [h1, hc, h2, takeWhile_br isEmailChar t Z b hb.2.1,
              dropWhile_br isEmailChar t Z b hb.2.1]
        · simp [h1, hc]
  · intro x v r Y h
    obtain ⟨hne, c, t, hd, hc, h2, rfl, rfl⟩ := (emailValue_some x v r).1 h
    have d1 : x.dropWhile isEmailChar ≠ [] := by simp [hd]
    have h3 := takeWhile_ne_nil_ext isEmailChar t Y h2
    simp [emailValue, takeWhile_ext isEmailChar x Y d1, dropWhile_ext isEmailChar x Y d1, hd,
      hne, hc, h3]

theorem foldEq_disjoint (a b c : Char)
    (ha : (97 ≤ a.toNat ∧ a.toNat ≤ 122) ∨ a.toNat = 45)
    (hb : (97 ≤ b.toNat ∧ b.toNat ≤ 122) ∨ b.toNat = 45) (hne : a.toNat ≠ b.toNat) :
    ¬(foldEq a c = true ∧ foldEq b c = true) := by
  simp only [foldEq, Bool.or_eq_true, Bool.and_eq_true, decide_eq_true_eq]
  omega

theorem rxPassword_keys : KeysOK rxPassword.keys := by
  refine ⟨by decide, ?_⟩
  simp only [rxPassword, List.pairwise_cons, List.mem_cons, List.mem_singleton, forall_eq_or_imp,
    forall_eq, List.not_mem_nil, false_implies, implies_true, List.Pairwise.nil, and_true]
  refine ⟨⟨?_, ?_, ?_⟩, ⟨?_, ?_⟩, ?_⟩
  · exact Or.inl fun c => foldEq_disjoint _ _ c (by decide) (by decide) (by decide)
  · exact Or.inl fun c => foldEq_disjoint _ _ c (by decide) (by decide) (by decide)
  · exact Or.inl fun c => foldEq_disjoint _ _ c (by decide) (by decide) (by decide)
  · exact Or.inl fun c => foldEq_disjoint _ _ c (by decide) (by decide) (by decide)
  · exact Or.inl fun c => foldEq_disjoint _ _ c (by decide) (by decide) (by decide)
  · exact Or.inr (Or.inr (Or.inl fun c =>
      foldEq_disjoint _ _ c (by decide) (by decide) (by decide)))

theorem rxEmail_keys : KeysOK rxEmail.keys := by
  refine ⟨by decide, ?_⟩
  simp only [rxEmail, List.pairwise_cons, List.mem_cons, List.mem_singleton, forall_eq_or_imp,
    forall_eq, List.not_mem_nil, false_implies, implies_true, List.Pairwise.nil, and_true]
  exact Or.inr (Or.inl fun c => foldEq_disjoint _ _ c (by decide) (by decide) (by decide))

theorem filtered_tails (a1 a2 : Str) (h : filtered = a1 ++ a2) (hne : a2 ≠ []) :
    a2 ∈ ["[FILTERED]".toList, "FILTERED]".toList, "ILTERED]".toList, "LTERED]".toList,
      "TERED]".toList, "ERED]".toList, "RED]".toList, "ED]".toList, "D]".toList, "]".toList] := by
  have : a2 ∈ filtered.tails := (List.mem_tails _ _).2 ⟨a1, h.symm⟩
  simp only [filtered, String.toList, List.tails, List.mem_cons] at this
  simp only [String.toList, List.mem_cons]
  rcases this with h | h | h | h | h | h | h | h | h | h | h
  all_goals first | (subst h; simp) | (simp at h; exact absurd h hne)

theorem rxPassword_ok : RuleOK rxPassword := by
  refine ⟨rxPassword_keys, wordValue_ok, ?_⟩
  intro a1 a2 Z h hne
  have := filtered_tails a1 a2 h hne
  simp only [List.mem_cons, List.mem_singleton, List.not_mem_nil, or_false] at this
  rcases this with h | h | h | h | h | h | h | h | h | h <;> subst h <;> rfl

theorem rxEmail_ok : RuleOK rxEmail := by
  refine ⟨rxEmail_keys, emailValue_ok, ?_⟩
  intro a1 a2 Z h hne
  have := filtered_tails a1 a2 h hne
  simp only [List.mem_cons, List.mem_singleton, List.not_mem_nil, or_false] at this
  rcases this with h | h | h | h | h | h | h | h | h | h <;> subst h <;> rfl

theorem covers_self (R : Rule) (s : Str) : Covers R R s := fun _ _ _ _ h => h

theorem covers_of_noHit (R R2 : Rule) (s : Str) (h : NoHit R s) : Covers R R2 s := by
  intro a c t e hb
  exfalso
  subst e
  induction a with
  | nil => simp [h.1] at hb
  | cons x a ih => exact ih h.2

theorem matchLit_intro (pat k X : Str) (h : FoldMatch pat k) :
    matchLit pat (k ++ X) = some (k, X) := by
  induction h with
  | nil => simp [matchLit]
  | cons h1 _ ih => simp [matchLit, h1, ih]

theorem matchAlt_intro (keys : List Str) (hp : keys.Pairwise clash) (key x k r : Str)
    (hk : key ∈ keys) (h : matchLit key x = some (k, r)) : matchAlt keys x = some (k, r) := by
  induction keys with
  | nil => simp at hk
  | cons p ps ih =>
    rw [List.pairwise_cons] at hp
    rcases List.mem_cons.1 hk with rfl | hk
    · simp [matchAlt, h]
    · have := clash_none p key x k r [] (hp.1 key hk) h
      simp only [List.append_nil] at this
      simp only [matchAlt, this]
      exact ih hp.2 hk

theorem optQuote_quote (q : Char) (t : Str) (h : isQuote q = true) :
    optQuote (q :: t) = ([q], t) := by
  simp [optQuote, h]

theorem takeWhile_run (p : Char → Bool) (v t : Str) (hv : ∀ c ∈ v, p c = true)
    (ht : t = [] ∨ ∃ c t', t = c :: t' ∧ p c = false) :
    (v ++ t).takeWhile p = v ∧ (v ++ t).dropWhile p = t := by
  induction v with
  | nil =>
    rcases ht with rfl | ⟨c, t', rfl, hc⟩
    · simp
    · simp [List.takeWhile, List.dropWhile, hc]
  | cons x v ih =>
    have hx := hv x (by simp)
    have := ih (fun c hc => hv c (by simp [hc]))
    simp [List.takeWhile, List.dropWhile, hx, this.1, this.2]

/-- The header stage on a key in any letter case with optional quotes around it,
a separator with optional spaces around it and an optional quote before the
value. -/
theorem matchHeader_intro (keys : List Str) (hK : KeysOK keys) (key k q1 q3 w1 w2 q5 : Str)
    (sep w : Char) (X : Str) (hkey : key ∈ keys) (hk : FoldMatch key k) (h1 : OptQ q1)
    (h3 : OptQ q3) (h5 : OptQ q5) (hw1 : ∀ c ∈ w1, isSpace c = true)
    (hw2 : ∀ c ∈ w2, isSpace c = true) (hs : isSep sep = true)
    (hw : isSpace w = false ∧ isQuote w = false) :
    matchHeader keys (q1 ++ k ++ q3 ++ w1 ++ sep :: w2 ++ q5 ++ w :: X) =
      some (q1 ++ k ++ q3 ++ w1 ++ sep :: w2 ++ q5, w :: X) := by
  have hkw : ∀ c ∈ k, isWord c = true := forall₂_word key k (hK.1 key hkey).2 hk
  have hkne : k ≠ [] := by
    intro h
    have := List.Forall₂.length_eq hk
    rw [h] at this
    exact (hK.1 key hkey).1 (List.length_eq_zero.1 this)
  have hsq : isQuote sep = false := by
    simp only [isQuote, isSep, Bool.or_eq_true, decide_eq_true_eq, Bool.or_eq_false_iff,
      decide_eq_false_iff_not] at *
    omega
  have hss : isSpace sep = false := by
    simp only [isSpace, isSep, Bool.or_eq_true, decide_eq_true_eq, Bool.or_eq_false_iff,
      decide_eq_false_iff_not] at *
    omega
  have hqs : ∀ c, isQuote c = true → isSpace c = false := by
    intro c hc
    simp only [isSpace, isQuote, Bool.or_eq_true, decide_eq_true_eq, Bool.or_eq_false_iff,
      decide_eq_false_iff_not] at *
    omega
  have hsqn : ∀ c, isSpace c = true → isQuote c = false := by
    intro c hc
    simp only [isSpace, isQuote, Bool.or_eq_true, decide_eq_true_eq, Bool.or_eq_false_iff,
      decide_eq_false_iff_not] at *
    omega
  have hma : ∀ Y, matchAlt keys (k ++ Y) = some (k, Y) := fun Y =>
    matchAlt_intro keys hK.2 key _ k Y hkey (matchLit_intro key k Y hk)
  have e1 : optQuote (q1 ++ (k ++ (q3 ++ (w1 ++ sep :: (w2 ++ (q5 ++ w :: X)))))) =
      (q1, k ++ (q3 ++ (w1 ++ sep :: (w2 ++ (q5 ++ w :: X))))) := by
    rcases h1 with rfl | ⟨c, hc, rfl⟩
    · cases k with
      | nil => exact absurd rfl hkne
      | cons c0 k0 =>
        exact optQuote_of_not_quote c0 _ (isWord_not_quote (hkw c0 (by simp)))
    · exact optQuote_quote c _ hc
  have e3 : optQuote (q3 ++ (w1 ++ sep :: (w2 ++ (q5 ++ w :: X)))) =
      (q3, w1 ++ sep :: (w2 ++ (q5 ++ w :: X))) := by
    rcases h3 with rfl | ⟨c, hc, rfl⟩
    · cases w1 with
      | nil => exact optQuote_of_not_quote sep _ hsq
      | cons c0 w0 => exact optQuote_of_not_quote c0 _ (hsqn c0 (hw1 c0 (by simp)))
    · exact optQuote_quote c _ hc
  have e4 := takeWhile_run isSpace w1 (sep :: (w2 ++ (q5 ++ w :: X))) hw1
    (Or.inr ⟨sep, _, rfl, hss⟩)
  have e5 : optQuote (q5 ++ w :: X) = (q5, w :: X) := by
    rcases h5 with rfl | ⟨c, hc, rfl⟩
    · exact optQuote_of_not_quote w _ hw.2
    · exact optQuote_quote c _ hc
  have e6 := takeWhile_run isSpace w2 (q5 ++ w :: X) hw2 (by
    rcases h5 with rfl | ⟨c, hc, rfl⟩
    · exact Or.inr ⟨w, X, rfl, hw.1⟩
    · exact Or.inr ⟨c, w :: X, rfl, hqs c hc⟩)
  have e0 : q1 ++ k ++ q3 ++ w1 ++ sep :: w2 ++ q5 ++ w :: X =
      q1 ++ (k ++ (q3 ++ (w1 ++ sep :: (w2 ++ (q5 ++ w :: X))))) := by
    simp [List.append_assoc]
  rw [e0]
  refine (matchHeader_some keys _ _ _).2 ⟨k, q3 ++ (w1 ++ sep :: (w2 ++ (q5 ++ w :: X))), sep,
    w2 ++ (q5 ++ w :: X), ?_, ?_, hs, ?_, ?_⟩
  · rw [e1]
    exact hma _
  · rw [e3]
    exact e4.2
  · rw [e1, e3, e4.1, e6.1, e6.2, e5]
  · rw [e6.2, e5]

theorem noHit_of_no_sep (R : Rule) (hR : RuleOK R) (x : Str) (h : ∀ c ∈ x, isSep c = false) :
    NoHit R x := by
  induction x with
  | nil => exact trivial
  | cons c t ih =>
    refine ⟨?_, ih (fun d hd => h d (by simp [hd]))⟩
    cases hf : R.find (c :: t) with
    | none => rfl
    | some m =>
      have h1 := find_sepThenValue R hR (c :: t) (by simp [hf])
      have h2 : sepThenValue (c :: t) = false := by
        have := sepThenValue_header (c :: t) [] h rfl
        simpa using this
      rw [h2] at h1
      exact absurd h1 (by simp)

theorem rxEmail_find_at (x : Str) (h : (rxEmail.find x).isSome = true) :
    ∃ c ∈ x, c.toNat = 64 := by
  obtain ⟨⟨pre, post, rest⟩, hf⟩ := Option.isSome_iff_exists.1 h
  obtain ⟨s7, v, s8, h1, h2, rfl, rfl⟩ := (find_some rxEmail x pre _ _).1 hf
  obtain ⟨-, c, t, -, hc, -, rfl, rfl⟩ := (emailValue_some s7 v s8).1 h2
  refine ⟨c, ?_, hc⟩
  rw [matchHeader_dec rxEmail.keys rxEmail_keys x pre s7 h1, emailValue_ok.dec s7 _ _ h2]
  simp

theorem noHit_rxEmail (x : Str) (h : ∀ c ∈ x, c.toNat ≠ 64) : NoHit rxEmail x := by
  induction x with
  | nil => exact trivial
  | cons c t ih =>
    refine ⟨?_, ih (fun d hd => h d (by simp [hd]))⟩
    cases hf : rxEmail.find (c :: t) with
    | none => rfl
    | some m =>
      obtain ⟨d, hd, h64⟩ := rxEmail_find_at (c :: t) (by simp [hf])
      exact absurd h64 (h d hd)

theorem noHit_before_filtered (R : Rule) (hR : RuleOK R) (x Z : Str)
    (h : sepThenValue x = false) (hZ : NoHit R Z) : NoHit R (x ++ (filtered ++ Z)) := by
  apply noHit_append R x (filtered ++ Z)
  · intro a1 a2 e _
    rw [filtered_eq]
    have e2 : a2 ++ ('[' :: "FILTERED]".toList ++ Z) = a2 ++ '[' :: ("FILTERED]".toList ++ Z) := by
      simp
    rw [e2, find_br R hR _ _ _ barrier_bracket]
    cases hx : R.find a2 with
    | none => rfl
    | some m =>
      have h5 := find_sepThenValue R hR a2 (by simp [hx])
      rw [e] at h
      rw [sepThenValue_suffix a1 a2 h] at h5
      exact absurd h5 (by simp)
  · exact noHit_append R filtered Z (fun a1 a2 e hne => hR.marker a1 a2 Z e hne) hZ

theorem isWord_ne_at {c : Char} (h : isWord c = true) : c.toNat ≠ 64 := by
  simp only [isWord, isAlnum, isFoldExtra, Bool.or_eq_true, Bool.and_eq_true,
    decide_eq_true_eq] at *
  omega

theorem isQuote_ne_at {c : Char} (h : isQuote c = true) : c.toNat ≠ 64 := by
  simp only [isQuote, Bool.or_eq_true, decide_eq_true_eq] at *
  omega

theorem isSpace_ne_at {c : Char} (h : isSpace c = true) : c.toNat ≠ 64 := by
  simp only [isSpace, Bool.or_eq_true, decide_eq_true_eq] at *
  omega

theorem isSep_ne_at {c : Char} (h : isSep c = true) : c.toNat ≠ 64 := by
  simp only [isSep, Bool.or_eq_true, decide_eq_true_eq] at *
  omega

theorem optQ_all (q : Str) (h : OptQ q) : ∀ c ∈ q, isQuote c = true := by
  intro c hc
  rcases h with rfl | ⟨d, hd, rfl⟩
  · simp at hc
  · simp at hc
    rw [hc]
    exact hd

theorem optQuote_optQ (q : Str) (h : OptQ q) : optQuote q = (q, []) := by
  rcases h with rfl | ⟨d, hd, rfl⟩
  · rfl
  · simp [optQuote, hd]

/-- The password rule rewrites a pair whose key is one of its keys in any letter
case. -/
theorem rxPassword_pair (key k q1 q3 w1 w2 q5 q7 v : Str) (sep : Char)
    (hkey : key ∈ rxPassword.keys) (hk : FoldMatch key k) (h1 : OptQ q1) (h3 : OptQ q3)
    (h5 : OptQ q5) (h7 : OptQ q7) (hw1 : ∀ c ∈ w1, isSpace c = true)
    (hw2 : ∀ c ∈ w2, isSpace c = true) (hs : isSep sep = true) (hv : v ≠ [])
    (hw : ∀ c ∈ v, isWord c = true) :
    defaultFilter (q1 ++ k ++ q3 ++ w1 ++ sep :: w2 ++ q5 ++ v ++ q7) =
      q1 ++ k ++ q3 ++ w1 ++ sep :: w2 ++ q5 ++ filtered ++ q7 := by
  have hkw : ∀ c ∈ k, isWord c = true :=
    forall₂_word key k (rxPassword_keys.1 key hkey).2 hk
  have hE : NoHit rxEmail (q1 ++ k ++ q3 ++ w1 ++ sep :: w2 ++ q5 ++ v ++ q7) := by
    apply noHit_rxEmail
    intro c hc
    simp only [List.mem_append, List.mem_cons] at hc
    rcases hc with ((((((hc | hc) | hc) | hc) | (hc | hc)) | hc) | hc) | hc
    · exact isQuote_ne_at (optQ_all q1 h1 c hc)
    · exact isWord_ne_at (hkw c hc)
    · exact isQuote_ne_at (optQ_all q3 h3 c hc)
    · exact isSpace_ne_at (hw1 c hc)
    · rw [hc]
      exact isSep_ne_at hs
    · exact isSpace_ne_at (hw2 c hc)
    · exact isQuote_ne_at (optQ_all q5 h5 c hc)
    · exact isWord_ne_at (hw c hc)
    · exact isQuote_ne_at (optQ_all q7 h7 c hc)
  cases v with
  | nil => exact absurd rfl hv
  | cons w v' =>
    have hww := hw w (by simp)
    have hh := matchHeader_intro rxPassword.keys rxPassword_keys key k q1 q3 w1 w2 q5 sep w
      (v' ++ q7) hkey hk h1 h3 h5 hw1 hw2 hs ⟨isWord_not_space hww, isWord_not_quote hww⟩
    have hrun := takeWhile_run isWord (w :: v') q7 hw (by
      rcases h7 with rfl | ⟨d, hd, rfl⟩
      · exact Or.inl rfl
      · refine Or.inr ⟨d, [], rfl, ?_⟩
        by_contra hne
        have := isWord_not_quote (by simpa using hne : isWord d = true)
        rw [hd] at this
        exact Bool.noConfusion this)
    have hf : rxPassword.find (q1 ++ k ++ q3 ++ w1 ++ sep :: w2 ++ q5 ++ (w :: v') ++ q7) =
        some (q1 ++ k ++ q3 ++ w1 ++ sep :: w2 ++ q5, q7, []) := by
      refine (find_some rxPassword _ _ _ _).2 ⟨w :: (v' ++ q7), w :: v', q7, ?_, ?_, ?_, ?_⟩
      · simpa [List.append_assoc] using hh
      · show wordValue (w :: (v' ++ q7)) = some (w :: v', q7)
        have e : w :: (v' ++ q7) = (w :: v') ++ q7 := rfl
        simp only [wordValue, e, hrun.1, hrun.2]
        simp
      · rw [optQuote_optQ q7 h7]
      · rw [optQuote_optQ q7 h7]
    show rxPassword.ReplaceAll (rxEmail.ReplaceAll _) = _
    rw [noHit_replace rxEmail _ hE, replaceAll_some rxPassword rxPassword_ok _ _ _ _ hf,
      replaceAll_nil]
    simp [List.append_assoc]

theorem isQuote_not_sep {c : Char} (h : isQuote c = true) : isSep c = false := by
  simp only [isQuote, isSep, Bool.or_eq_true, decide_eq_true_eq, Bool.or_eq_false_iff,
    decide_eq_false_iff_not] at *
  omega

theorem isQuote_not_email {c : Char} (h : isQuote c = true) : isEmailChar c = false := by
  cases he : isEmailChar c with
  | false => rfl
  | true =>
    rw [isEmailChar_not_quote he] at h
    exact Bool.noConfusion h

/-- The email rule rewrites a pair whose key is one of its keys in any letter
case and whose value is email-shaped. -/
theorem rxEmail_pair (key k q1 q3 w1 w2 q5 q7 l d : Str) (sep : Char)
    (hkey : key ∈ rxEmail.keys) (hk : FoldMatch key k) (h1 : OptQ q1) (h3 : OptQ q3)
    (h5 : OptQ q5) (h7 : OptQ q7) (hw1 : ∀ c ∈ w1, isSpace c = true)
    (hw2 : ∀ c ∈ w2, isSpace c = true) (hs : isSep sep = true) (hl : l ≠ [])
    (hle : ∀ c ∈ l, isEmailChar c = true) (hd : d ≠ []) (hde : ∀ c ∈ d, isEmailChar c = true) :
    defaultFilter (q1 ++ k ++ q3 ++ w1 ++ sep :: w2 ++ q5 ++ l ++ '@' :: d ++ q7) =
      q1 ++ k ++ q3 ++ w1 ++ sep :: w2 ++ q5 ++ filtered ++ q7 := by
  cases l with
  | nil => exact absurd rfl hl
  | cons w l' =>
    have hww := hle w (by simp)
    have hh := matchHeader_intro rxEmail.keys rxEmail_keys key k q1 q3 w1 w2 q5 sep w
      (l' ++ '@' :: (d ++ q7)) hkey hk h1 h3 h5 hw1 hw2 hs
      ⟨isEmailChar_not_space hww, isEmailChar_not_quote hww⟩
    have r1 := takeWhile_run isEmailChar (w :: l') ('@' :: (d ++ q7)) hle
      (Or.inr ⟨'@', _, rfl, by decide⟩)
    have r2 := takeWhile_run isEmailChar d q7 hde (by
      rcases h7 with rfl | ⟨c, hc, rfl⟩
      · exact Or.inl rfl
      · exact Or.inr ⟨c, [], rfl, isQuote_not_email hc⟩)
    have hv : emailValue ((w :: l') ++ '@' :: (d ++ q7)) = some ((w :: l') ++ '@' :: d, q7) := by
      refine (emailValue_some _ _ _).2 ⟨?_, '@', d ++ q7, r1.2, by decide, ?_, ?_, ?_⟩
      · rw [r1.1]
        simp
      · rw [r2.1]
        exact hd
      · rw [r1.1, r2.1]
      · rw [r2.2]
    have hf : rxEmail.find (q1 ++ k ++ q3 ++ w1 ++ sep :: w2 ++ q5 ++ (w :: l') ++ '@' :: d ++ q7) =
        some (q1 ++ k ++ q3 ++ w1 ++ sep :: w2 ++ q5, q7, []) := by
      refine (find_some rxEmail _ _ _ _).2
        ⟨w :: (l' ++ '@' :: (d ++ q7)), (w :: l') ++ '@' :: d, q7, ?_, hv, ?_, ?_⟩
      · simpa [List.append_assoc] using hh
      · rw [optQuote_optQ q7 h7]
      · rw [optQuote_optQ q7 h7]
    have hnv := matchHeader_noValue rxEmail.keys rxEmail_keys _ _ _ hh
    have hq7 : NoHit rxPassword q7 :=
      noHit_of_no_sep rxPassword rxPassword_ok q7 (fun c hc => isQuote_not_sep (optQ_all q7 h7 c hc))
    have hP := noHit_before_filtered rxPassword rxPassword_ok _ q7 hnv hq7
    show rxPassword.ReplaceAll (rxEmail.ReplaceAll _) = _
    rw [replaceAll_some rxEmail rxEmail_ok _ _ _ _ hf, replaceAll_nil]
    have e : q1 ++ k ++ q3 ++ w1 ++ sep :: w2 ++ q5 ++ filtered ++ q7 ++ [] =
        (q1 ++ k ++ q3 ++ w1 ++ sep :: w2 ++ q5) ++ (filtered ++ q7) := by
      simp [List.append_assoc]
    rw [e, noHit_replace rxPassword _ hP]
    simp [List.append_assoc]

theorem token_tails (a1 a2 : Str) (h : "Token: ".toList = a1 ++ a2) (hne : a2 ≠ []) :
    a2 ∈ ["Token: ".toList, "oken: ".toList, "ken: ".toList, "en: ".toList, "n: ".toList,
      ": ".toList, " ".toList] := by
  have : a2 ∈ "Token: ".toList.tails := (List.mem_tails _ _).2 ⟨a1, h.symm⟩
  simp only [String.toList, List.tails, List.mem_cons] at this
  simp only [String.toList, List.mem_cons]
  rcases this with h | h | h | h | h | h | h | h
  all_goals first | (subst h; simp) | (simp at h; exact absurd h hne)

/-- The key `token` is in no rule: a pair with that key is left as it is. -/
theorem token_unchanged (v : Str) (hw : ∀ c ∈ v, isWord c = true) :
    defaultFilter ("Token: ".toList ++ v) = "Token: ".toList ++ v := by
  have hE : NoHit rxEmail ("Token: ".toList ++ v) := by
    apply noHit_rxEmail
    intro c hc
    rcases List.mem_append.1 hc with hc | hc
    · have hall : ∀ d ∈ "Token: ".toList, d.toNat ≠ 64 := by decide
      exact hall c hc
    · exact isWord_ne_at (hw c hc)
  have hv : NoHit rxPassword v :=
    noHit_of_no_sep rxPassword rxPassword_ok v (fun c hc => isWord_not_sep (hw c hc))
  have hP : NoHit rxPassword ("Token: ".toList ++ v) := by
    apply noHit_append rxPassword _ _ _ hv
    intro a1 a2 e hne
    have := token_tails a1 a2 e hne
    simp only [List.mem_cons, List.mem_singleton, List.not_mem_nil, or_false] at this
    rcases this with h | h | h | h | h | h | h <;> subst h <;> rfl
  show rxPassword.ReplaceAll (rxEmail.ReplaceAll _) = _
  rw [noHit_replace rxEmail _ hE, noHit_replace rxPassword _ hP]

/-! ## Stack capturer -/

theorem earliestStackTracerLoop_eq (err : GoError) (tracer : Option GoError) :
    earliestStackTracerLoop tracer err =
      match (err.causeChain.filter GoError.isStackTracer).getLast? with
      | some t => some t
      | none => tracer := by
  induction err generalizing tracer with
  | leaf m s =>
    cases s <;> simp [earliestStackTracerLoop, GoError.causeChain, GoError.isStackTracer,
      GoError.StackTrace]
  | nilCause m s =>
    cases s <;> simp [earliestStackTracerLoop, GoError.causeChain, GoError.isStackTracer,
      GoError.StackTrace]
  | wrap m s c ih =>
    rw [earliestStackTracerLoop, ih]
    have hc : (GoError.wrap m s c).causeChain = GoError.wrap m s c :: c.causeChain := rfl
    rw [hc]
    cases s with
    | none =>
      have h1 : (GoError.wrap m none c).isStackTracer = false := rfl
      simp [List.filter, h1]
    | some st =>
      have h1 : (GoError.wrap m (some st) c).isStackTracer = true := rfl
      simp only [List.filter, h1, Option.isSome_some, if_true]
      cases List.filter GoError.isStackTracer c.causeChain with
      | nil => simp
      | cons x xs =>
        rw [List.getLast?_cons_cons]
        cases hl : (x :: xs).getLast? with
        | none => simp at hl
        | some t => rfl

theorem earliestStackTracer_getLast (err : GoError) :
    earliestStackTracer (some err) =
      (err.causeChain.filter GoError.isStackTracer).getLast? := by
  rw [earliestStackTracer, earliestStackTracerLoop_eq]
  cases (err.causeChain.filter GoError.isStackTracer).getLast? <;> rfl

/-! ## Field maps -/

theorem Fields.get_set (d : Fields) (k k' : Str) (v : Value) :
    (d.set k v).get k' = if k' = k then some v else d.get k' := by
  induction d with
  | nil =>
    by_cases h : k' = k
    · simp [Fields.set, Fields.get, h]
    · have h2 : ¬ k = k' := fun e => h e.symm
      simp [Fields.set, Fields.get, h, h2]
  | cons p rest ih =>
    obtain ⟨k1, v1⟩ := p
    by_cases h1 : k1 = k
    · subst h1
      by_cases h : k' = k1
      · subst h
        simp [Fields.set, Fields.get]
      · have h2 : ¬ k1 = k' := fun e => h e.symm
        simp [Fields.set, Fields.get, h, h2]
    · by_cases h : k1 = k'
      · subst h
        simp [Fields.set, Fields.get, h1]
      · simp [Fields.set, Fields.get, h1, h, ih]

theorem Fields.get_none_of_not_mem (m : Fields) (k : Str) (h : k ∉ m.map (fun p => p.1)) :
    m.get k = none := by
  induction m with
  | nil => rfl
  | cons p rest ih =>
    obtain ⟨k1, v1⟩ := p
    simp only [List.map_cons, List.mem_cons, not_or] at h
    have h1 : ¬ k1 = k := fun e => h.1 e.symm
    simp [Fields.get, h1, ih h.2]

theorem Fields.get_setAll (d m : Fields) (k' : Str) (hm : (m.map (fun p => p.1)).Nodup) :
    (d.setAll m).get k' = match m.get k' with
      | some v => some v
      | none => d.get k' := by
  induction m generalizing d with
  | nil => rfl
  | cons p rest ih =>
    obtain ⟨k1, v1⟩ := p
    simp only [List.map_cons, List.nodup_cons] at hm
    have e : Fields.setAll d ((k1, v1) :: rest) = Fields.setAll (d.set k1 v1) rest := rfl
    rw [e, ih (d.set k1 v1) hm.2, Fields.get_set]
    by_cases h : k1 = k'
    · subst h
      simp [Fields.get, Fields.get_none_of_not_mem rest k1 hm.1]
    · have h2 : ¬ k' = k1 := fun e => h e.symm
      simp [Fields.get, h, h2]

theorem Fields.get_delete (d : Fields) (k k' : Str) :
    (d.delete k).get k' = if k' = k then none else d.get k' := by
  induction d with
  | nil => simp [Fields.delete, Fields.get]
  | cons p rest ih =>
    obtain ⟨k1, v1⟩ := p
    have e : Fields.delete ((k1, v1) :: rest) k =
        if k1 = k then Fields.delete rest k else (k1, v1) :: Fields.delete rest k := by
      by_cases h : k1 = k <;> simp [Fields.delete, List.filter, h]
    rw [e]
    by_cases h : k1 = k
    · subst h
      by_cases h2 : k' = k1
      · subst h2
        simp [ih]
      · have h3 : ¬ k1 = k' := fun e => h2 e.symm
        simp [ih, h2, h3, Fields.get]
    · by_cases h2 : k1 = k'
      · subst h2
        simp [h, Fields.get]
      · simp [h, Fields.get, h2, ih]

/-! ## Entries -/

theorem getD_append_left {α : Type} (l : List α) (x d : α) (i : Nat) (h : i < l.length) :
    (l ++ [x]).getD i d = l.getD i d := by
  simp [List.getD, List.getElem?_append_left h]

theorem getD_append_length {α : Type} (l : List α) (x d : α) :
    (l ++ [x]).getD l.length d = x := by
  simp [List.getD]

theorem getD_set_self {α : Type} (l : List α) (x d : α) (i : Nat) (h : i < l.length) :
    (l.set i x).getD i d = x := by
  simp [List.getD, h]

theorem log_frame (w : World) (e : Entry) (m : Str) :
    (Entry.log w e m).1.Level = w.Level ∧ (Entry.log w e m).1.Formatter = w.Formatter ∧
    (Entry.log w e m).1.env = w.env ∧ (Entry.log w e m).1.Out = w.Out ∧
    (Entry.log w e m).1.records = w.records ∧ (Entry.log w e m).1.slices = w.slices ∧
    (Entry.log w e m).1.maps.length = w.maps.length := by
  simp only [Entry.log]
  split <;> simp

theorem run_frame (w : World) (e : Entry) (c : TraceCall) (hl : w.Level ≠ logrusDebugLevel)
    (ht : e.traceLines < w.slices.length) :
    (c.run w e).Level = w.Level ∧ (c.run w e).Formatter = w.Formatter ∧
    (c.run w e).env = w.env ∧ (c.run w e).Out = w.Out ∧ (c.run w e).records = w.records ∧
    (c.run w e).slices.length = w.slices.length ∧
    (c.run w e).maps.length = w.maps.length ∧
    (c.run w e).lines e = w.lines e ++ [(Entry.log w e c.msg).2] := by
  obtain ⟨h1, h2, h3, h4, h5, h6, h7⟩ := log_frame w e c.msg
  have hrun : c.run w e = { (Entry.log w e c.msg).1 with
      slices := (Entry.log w e c.msg).1.slices.set e.traceLines
        ((Entry.log w e c.msg).1.lines e ++ [(Entry.log w e c.msg).2]) } := by
    cases c <;> simp [TraceCall.run, TraceCall.msg, Entry.Trace, Entry.Tracef, hl]
  rw [hrun]
  refine ⟨h1, h2, h3, h4, h5, ?_, h7, ?_⟩
  · simp [h6]
  · simp only [World.lines, h6]
    exact getD_set_self _ _ _ _ ht

theorem runTraces_frame (w : World) (e : Entry) (calls : List TraceCall)
    (hl : w.Level ≠ logrusDebugLevel) (ht : e.traceLines < w.slices.length) :
    (runTraces w e calls).Level = w.Level ∧ (runTraces w e calls).Formatter = w.Formatter ∧
    (runTraces w e calls).env = w.env ∧ (runTraces w e calls).Out = w.Out ∧
    (runTraces w e calls).records = w.records ∧
    (runTraces w e calls).lines e = w.lines e ++ renderedLines w e calls := by
  induction calls generalizing w with
  | nil => simp [runTraces, renderedLines]
  | cons c cs ih =>
    obtain ⟨h1, h2, h3, h4, h5, h6, -, h8⟩ := run_frame w e c hl ht
    obtain ⟨g1, g2, g3, g4, g5, g6⟩ := ih (c.run w e) (by rw [h1]; exact hl) (by rw [h6]; exact ht)
    refine ⟨by rw [runTraces, g1, h1], by rw [runTraces, g2, h2], by rw [runTraces, g3, h3],
      by rw [runTraces, g4, h4], by rw [runTraces, g5, h5], ?_⟩
    rw [runTraces, g6, h8, renderedLines]
    simp

theorem renderedLines_ne_nil (w : World) (e : Entry) (calls : List TraceCall)
    (hl : w.Level ≠ logrusDebugLevel) (ht : e.traceLines < w.slices.length)
    (hf : ∀ env entry, (w.Formatter env entry).bytes ≠ []) :
    ∀ l ∈ renderedLines w e calls, l ≠ [] := by
  induction calls generalizing w with
  | nil => simp [renderedLines]
  | cons c cs ih =>
    obtain ⟨h1, h2, -, -, -, h6, -, -⟩ := run_frame w e c hl ht
    intro l hmem
    simp only [renderedLines, List.mem_cons] at hmem
    rcases hmem with rfl | hmem
    · simp only [Entry.log]
      split <;> exact hf _ _
    · exact ih (c.run w e) (by rw [h1]; exact hl) (by rw [h6]; exact ht)
        (by rw [h2]; exact hf) l hmem

theorem logrusLog_effect (w : World) (ref : Nat) (level : Level) (msg : Str)
    (hl : level.toNat ≤ w.Level) :
    (logrusLog w ref level msg).records = w.records ++ [⟨w.clock, level, msg, w.maps.getD ref []⟩] ∧
    w.Out <+: (logrusLog w ref level msg).Out ∧
    (logrusLog w ref level msg).slices = w.slices := by
  simp only [logrusLog, hl, if_true]
  split
  · exact ⟨rfl, List.prefix_rfl, rfl⟩
  · exact ⟨rfl, List.prefix_append _ _, rfl⟩

theorem errorEntry_effect (w : World) (e : Entry) (callers : List Frame) (err : Option GoError) :
    (Entry.errorEntry w e callers err).1.slices = w.slices ++ [[]] ∧
    (Entry.errorEntry w e callers err).2.1.traceLines = w.slices.length ∧
    (Entry.errorEntry w e callers err).1.Out = w.Out ++ w.lines e ∧
    (Entry.errorEntry w e callers err).1.records = w.records ∧
    (Entry.errorEntry w e callers err).1.Level = w.Level ∧
    ((w.lines e).flatten ≠ [] →
      ((Entry.errorEntry w e callers err).1.maps.getD
        (Entry.errorEntry w e callers err).2.2.e []).get fieldErrorTrace =
          some (Value.str (w.lines e).flatten)) ∧
    ((w.lines e).flatten = [] →
      ((Entry.errorEntry w e callers err).1.maps.getD
        (Entry.errorEntry w e callers err).2.2.e []).get fieldErrorTrace =
          (w.data e).get fieldErrorTrace) := by
  by_cases hne : (w.lines e).flatten = []
  · simp only [Entry.errorEntry, Entry.dumpTrace, Entry.ClearTraceLog, hne, ne_eq,
      not_true_eq_false, if_false, Entry.WithError, Entry.WithFields, World.data,
      getD_append_length]
    refine ⟨trivial, trivial, trivial, trivial, trivial, fun h => h.elim, fun _ => ?_⟩
    have n1 : fieldError ≠ fieldErrorMessage := by decide
    have n2 : fieldError ≠ fieldErrorTrace := by decide
    have n3 : fieldErrorMessage ≠ fieldErrorTrace := by decide
    rw [Fields.get_setAll _ _ _ (by simp [n1])]
    simp [Fields.get, n2, n3]
  · simp only [Entry.errorEntry, Entry.dumpTrace, Entry.ClearTraceLog, hne, ne_eq,
      not_false_eq_true, if_true, Entry.WithField, Entry.WithError, Entry.WithFields,
      World.data, getD_append_length]
    refine ⟨trivial, trivial, trivial, trivial, trivial, fun _ => ?_, fun h => h.elim⟩
    rw [Fields.get_set]
    simp

/-- What `Error` does, in terms of the pending lines of the receiver. -/
theorem error_effect (w : World) (e : Entry) (callers : List Frame) (err : Option GoError)
    (args : Option Str) (hl : Level.ErrorLevel.toNat ≤ w.Level)
    (hne : (w.lines e).flatten ≠ []) :
    (∃ entry, (Entry.Error w e callers err args).1.records = w.records ++ [entry] ∧
      entry.Level = Level.ErrorLevel ∧
      entry.Data.get fieldErrorTrace = some (Value.str (w.lines e).flatten)) ∧
    (w.Out ++ w.lines e) <+: (Entry.Error w e callers err args).1.Out ∧
    (Entry.Error w e callers err args).1.lines (Entry.Error w e callers err args).2 = [] := by
  obtain ⟨h1, h2, h3, h4, h5, h6, -⟩ := errorEntry_effect w e callers err
  obtain ⟨g1, g2, g3⟩ := logrusLog_effect (Entry.errorEntry w e callers err).1
    (Entry.errorEntry w e callers err).2.2.e Level.ErrorLevel
    (Entry.errorMessage err args) (by rw [h5]; exact hl)
  refine ⟨⟨⟨(Entry.errorEntry w e callers err).1.clock, Level.ErrorLevel,
    Entry.errorMessage err args,
    (Entry.errorEntry w e callers err).1.maps.getD (Entry.errorEntry w e callers err).2.2.e []⟩,
    ?_, rfl, h6 hne⟩, ?_, ?_⟩
  · simp only [Entry.Error]
    rw [g1, h4]
  · simp only [Entry.Error]
    rw [← h3]
    exact g2
  · simp only [Entry.Error, World.lines]
    rw [g3, h1, h2]
    exact getD_append_length _ _ _

/-! ## The human-readable formatter -/

theorem containsStr_iff (s sub : Str) : containsStr s sub = true ↔ sub <:+: s := by
  simp only [containsStr, List.any_eq_true, List.mem_tails, List.isPrefixOf_iff_prefix]
  constructor
  · rintro ⟨t, ht, hp⟩
    exact List.infix_iff_prefix_suffix.2 ⟨t, hp, ht⟩
  · intro h
    obtain ⟨t, hp, ht⟩ := List.infix_iff_prefix_suffix.1 h
    exact ⟨t, ht, hp⟩

theorem quoteRune_plain (isPrint : Char → Bool) (c : Char)
    (h : 32 ≤ c.toNat ∧ c.toNat < 127 ∧ c.toNat ≠ 34 ∧ c.toNat ≠ 92) :
    quoteRune isPrint c = [c] := by
  obtain ⟨h1, h2, h3, h4⟩ := h
  have e1 : ¬ c.toNat = 7 := by omega
  have e2 : ¬ c.toNat = 8 := by omega
  have e3 : ¬ c.toNat = 12 := by omega
  have e4 : ¬ c.toNat = 10 := by omega
  have e5 : ¬ c.toNat = 13 := by omega
  have e6 : ¬ c.toNat = 9 := by omega
  have e7 : ¬ c.toNat = 11 := by omega
  have e8 : ¬ (c.toNat < 32 ∨ c.toNat = 127) := by omega
  simp [quoteRune, h3, h4, e1, e2, e3, e4, e5, e6, e7, e8, h2]

theorem goQuote_plain (isPrint : Char → Bool) (s : Str)
    (h : ∀ c ∈ s, 32 ≤ c.toNat ∧ c.toNat < 127 ∧ c.toNat ≠ 34 ∧ c.toNat ≠ 92) :
    goQuote isPrint s = '"' :: s ++ ['"'] := by
  have : s.flatMap (quoteRune isPrint) = s := by
    induction s with
    | nil => rfl
    | cons c t ih =>
      rw [List.flatMap_cons, quoteRune_plain isPrint c (h c (by simp)),
        ih (fun d hd => h d (by simp [hd]))]
      rfl
  simp [goQuote, this]

theorem joinWith_infix (sep x : Str) (l : List Str) (h : x ∈ l) : x <:+: joinWith sep l := by
  induction l with
  | nil => simp at h
  | cons y rest ih =>
    cases rest with
    | nil =>
      simp only [List.mem_singleton] at h
      subst h
      exact List.infix_refl _
    | cons z rest2 =>
      rcases List.mem_cons.1 h with rfl | h
      · exact ⟨[], sep ++ joinWith sep (z :: rest2), by simp [joinWith]⟩
      · obtain ⟨a, b, e⟩ := ih h
        exact ⟨y ++ sep ++ a, b, by simp [joinWith, ← e, List.append_assoc]⟩

theorem Fields.get_mem_keys (d : Fields) (k : Str) (v : Value) (h : d.get k = some v) :
    k ∈ d.map (fun p => p.1) := by
  by_contra hn
  rw [Fields.get_none_of_not_mem d k hn] at h
  exact Option.noConfusion h

/-- A string field that `printData` is given appears, quoted, in what it writes. -/
theorem printData_contains (env : Env) (data : Fields) (color : Bool) (k s : Str)
    (h : data.get k = some (Value.str s)) :
    (k ++ '=' :: goQuote env.isPrint s) <:+: printData env data color := by
  have hk := Fields.get_mem_keys data k _ h
  have hlen : data.length ≠ 0 := by
    intro h0
    rw [List.length_eq_zero.1 h0] at hk
    simp at hk
  simp only [printData, hlen, if_false]
  have hmem : (k ++ '=' :: goQuote env.isPrint s) ∈
      ((data.map (fun p => p.1)).insertionSort (fun a b => strLe a b = true)).map
        (fun k => formatPair env k (data.get k)) := by
    refine List.mem_map.2 ⟨k, ?_, ?_⟩
    · exact (List.perm_insertionSort _ _).mem_iff.2 hk
    · simp [h, formatPair]
  obtain ⟨a, b, e⟩ := joinWith_infix " ".toList _ _ hmem
  refine ⟨'\t' :: a, b ++ "\n".toList, ?_⟩
  rw [← e]
  simp [List.append_assoc]

/-- The field map `twFormatter.Format` hands to `printData` keeps every string
field other than the module and the error message. -/
theorem format_keeps_string (f : twFormatter) (env : Env) (entry : Record) (k s : Str)
    (hm : k ≠ fieldModule) (hk : k ≠ fieldErrorMessage)
    (h : entry.Data.get k = some (Value.str s)) :
    (f.Format env entry).Data.get k = some (Value.str s) ∧
    (f.Format env entry).bytes =
      (printMessage env entry (!f.DisableColors && (f.ForceColors || env.stdoutIsTerminal))).1 ++
      printData env (f.Format env entry).Data
        (!f.DisableColors && (f.ForceColors || env.stdoutIsTerminal)) ++
      (extractError env (printMessage env entry
        (!f.DisableColors && (f.ForceColors || env.stdoutIsTerminal))).2
        (!f.DisableColors && (f.ForceColors || env.stdoutIsTerminal))).1 := by
  refine ⟨?_, rfl⟩
  have h1 : ∀ col, (printMessage env entry col).2.get k = some (Value.str s) := by
    intro col
    simp only [printMessage]
    split
    · rw [Fields.get_delete]
      simp [hm, h]
    · exact h
  have h2 : ∀ col, (extractError env (printMessage env entry col).2 col).2.get k =
      some (Value.str s) := by
    intro col
    have h1c := h1 col
    simp only [extractError]
    split
    · rename_i err herr
      have hne : k ≠ fieldError := by
        intro e
        rw [e, herr] at h1c
        simp at h1c
      rw [Fields.get_delete, Fields.get_delete]
      simp [hne, hk, h1c]
    · exact h1c
  show (twFormatter.Format f env entry).Data.get k = some (Value.str s)
  simp only [twFormatter.Format]
  split
  · rename_i t ht
    have h2c := h2 (!f.DisableColors && (f.ForceColors || env.stdoutIsTerminal))
    have hne : k ≠ fieldHTTPRequest := by
      intro e
      rw [e, ht] at h2c
      simp at h2c
    rw [Fields.get_delete]
    simp [hne, h2c]
  · exact h2 _

theorem isAsciiWord_plain {c : Char} (h : isAsciiWord c = true) :
    32 ≤ c.toNat ∧ c.toNat < 127 ∧ c.toNat ≠ 34 ∧ c.toNat ≠ 92 := by
  simp only [isAsciiWord, isAlnum, Bool.or_eq_true, Bool.and_eq_true, decide_eq_true_eq] at h
  omega

theorem format_bytes_ne_nil (f : twFormatter) (env : Env) (entry : Record) :
    (f.Format env entry).bytes ≠ [] := by
  simp [twFormatter.Format, printMessage]

theorem optQ_nil : OptQ [] := Or.inl rfl

/-! ## The claims -/

/-- Claim C1: for every non-empty sequence of trace and tracef calls on one
Entry of a logger whose level is not debug (and admits errors, with a formatter
that never renders an empty line, as the two formatters of the package), followed
by one error call on the same Entry: logrus materialises one record, at the
error level, whose field `error_trace` is the concatenation of the pending lines
(`w.lines e`, none on a new Entry) and the rendered trace lines in call order;
these lines are written in that order to the output; and the trace buffer of the
Entry is empty after the call. -/
theorem trace_lines_dumped_on_error (w : World) (e : Entry) (calls : List TraceCall)
    (callers : List Frame) (err : Option GoError) (args : Option Str)
    (hc : calls ≠ []) (hl : w.Level ≠ logrusDebugLevel)
    (hle : Level.ErrorLevel.toNat ≤ w.Level) (ht : e.traceLines < w.slices.length)
    (hf : ∀ env entry, (w.Formatter env entry).bytes ≠ []) :
    (∃ entry, (Entry.Error (runTraces w e calls) e callers err args).1.records =
        w.records ++ [entry] ∧ entry.Level = Level.ErrorLevel ∧
      entry.Data.get fieldErrorTrace =
        some (Value.str (w.lines e ++ renderedLines w e calls).flatten)) ∧
    (w.Out ++ (w.lines e ++ renderedLines w e calls)) <+:
      (Entry.Error (runTraces w e calls) e callers err args).1.Out ∧
    (Entry.Error (runTraces w e calls) e callers err args).1.lines
      (Entry.Error (runTraces w e calls) e callers err args).2 = [] := by
  obtain ⟨g1, -, -, g4, g5, g6⟩ := runTraces_frame w e calls hl ht
  have hne : ((runTraces w e calls).lines e).flatten ≠ [] := by
    rw [g6]
    cases calls with
    | nil => exact absurd rfl hc
    | cons c cs =>
      have := renderedLines_ne_nil w e (c :: cs) hl ht hf
      simp only [renderedLines, List.mem_cons, forall_eq_or_imp] at this
      simp only [renderedLines, List.flatten_append, List.flatten_cons, ne_eq,
        List.append_eq_nil, not_and]
      intro _ h
      exact absurd h this.1
  have h := error_effect (runTraces w e calls) e callers err args (by rw [g1]; exact hle) hne
  rw [g4, g5, g6] at h
  exact h

theorem trace_lines_dumped_on_error_witness :
    [TraceCall.trace "step".toList] ≠ [] ∧ sampleStart.1.Level ≠ logrusDebugLevel ∧
    Level.ErrorLevel.toNat ≤ sampleStart.1.Level ∧
    sampleStart.2.traceLines < sampleStart.1.slices.length ∧
    (∀ env entry, (sampleStart.1.Formatter env entry).bytes ≠ []) ∧
    (∃ entry, (Entry.Error (runTraces sampleStart.1 sampleStart.2 [TraceCall.trace "step".toList])
        sampleStart.2 [] none none).1.records = sampleStart.1.records ++ [entry] ∧
      entry.Level = Level.ErrorLevel ∧
      entry.Data.get fieldErrorTrace = some (Value.str
        (sampleStart.1.lines sampleStart.2 ++
          renderedLines sampleStart.1 sampleStart.2 [TraceCall.trace "step".toList]).flatten)) :=
  ⟨List.cons_ne_nil _ _, by decide, by decide, by decide,
    fun env entry => format_bytes_ne_nil ⟨false, false⟩ env entry,
    (trace_lines_dumped_on_error sampleStart.1 sampleStart.2 [TraceCall.trace "step".toList] []
      none none (List.cons_ne_nil _ _) (by decide) (by decide) (by decide)
      (fun env entry => format_bytes_ne_nil ⟨false, false⟩ env entry)).1⟩

/-- Claim C2, at its failing input: a new Entry `p` buffers one trace line, `c`
is derived from `p` by `WithField`, an error call on `c` drains the line; the
later error call on `p` writes the same line to the output a second time and
attaches it again as `error_trace`. -/
theorem shared_buffer_line_delivered_twice :
    sharedBufferRun.1.count "Jan 02 15:04:05 [42] DEBU: step\n".toList = 2 ∧
    sharedBufferRun.2.map (fun r => r.Data.get fieldErrorTrace) =
      some (some (Value.str "Jan 02 15:04:05 [42] DEBU: step\n".toList)) := by
  decide

/-- Claim C3, at its failing input: an Entry carries the module `db`; after one
trace call on it (level info, human-readable formatter) its field map is empty,
not the map it had before, and the second of two equal trace calls renders a
line without the module tag. -/
theorem trace_deletes_module_field :
    moduleTraceRun.1 = [(fieldModule, Value.str "db".toList)] ∧
    moduleTraceRun.2.1 = [] ∧
    moduleTraceRun.2.2 = ["Jan 02 15:04:05 [42] DEBU: (db) one\n".toList,
      "Jan 02 15:04:05 [42] DEBU: one\n".toList] := by
  decide

/-- Claim C4: `WithField(k, v)` returns a new Entry whose field map is the map
of `e` with `k` set to `v` (a new value replaces an old one), `WithFields(m)`
returns one whose map is the map of `e` overwritten by `m`, and both leave the
field map of `e` as it was. -/
theorem withField_sets_key_keeps_parent (w : World) (e : Entry) (k : Str) (v : Value)
    (m : Fields) (he : e.e < w.maps.length) (hm : (m.map (fun p => p.1)).Nodup) :
    (∀ k', ((Entry.WithField w e k v).1.data (Entry.WithField w e k v).2).get k' =
      if k' = k then some v else (w.data e).get k') ∧
    (Entry.WithField w e k v).1.data e = w.data e ∧
    (∀ k', ((Entry.WithFields w e m).1.data (Entry.WithFields w e m).2).get k' =
      match m.get k' with
      | some x => some x
      | none => (w.data e).get k') ∧
    (Entry.WithFields w e m).1.data e = w.data e := by
  refine ⟨?_, ?_, ?_, ?_⟩
  · intro k'
    simp only [Entry.WithField, World.data, getD_append_length]
    exact Fields.get_set _ k k' v
  · simp only [Entry.WithField, World.data]
    exact getD_append_left _ _ _ _ he
  · intro k'
    simp only [Entry.WithFields, World.data, getD_append_length]
    exact Fields.get_setAll _ m k' hm
  · simp only [Entry.WithFields, World.data]
    exact getD_append_left _ _ _ _ he

theorem withField_sets_key_keeps_parent_witness :
    sampleStart.2.e < sampleStart.1.maps.length ∧
    (∀ k', ((Entry.WithField sampleStart.1 sampleStart.2 "k".toList (Value.str "v".toList)).1.data
        (Entry.WithField sampleStart.1 sampleStart.2 "k".toList (Value.str "v".toList)).2).get k' =
      if k' = "k".toList then some (Value.str "v".toList)
      else (sampleStart.1.data sampleStart.2).get k') ∧
    (Entry.WithField sampleStart.1 sampleStart.2 "k".toList (Value.str "v".toList)).1.data
      sampleStart.2 = sampleStart.1.data sampleStart.2 :=
  ⟨by decide,
    (withField_sets_key_keeps_parent sampleStart.1 sampleStart.2 "k".toList (Value.str "v".toList)
      [] (by decide) (by decide)).1,
    (withField_sets_key_keeps_parent sampleStart.1 sampleStart.2 "k".toList (Value.str "v".toList)
      [] (by decide) (by decide)).2.1⟩

/-- Claim C5: redaction is idempotent, `defaultFilter (defaultFilter b) =
defaultFilter b` for every text `b`. -/
theorem defaultFilter_idempotent (b : Str) : defaultFilter (defaultFilter b) = defaultFilter b := by
  have h1 : NoHit rxEmail (rxEmail.ReplaceAll b) :=
    noHit_replaceAll rxEmail rxEmail rxEmail_ok rxEmail_ok _ b rfl (covers_self _ _)
  have h2 : NoHit rxEmail (defaultFilter b) :=
    noHit_replaceAll rxEmail rxPassword rxEmail_ok rxPassword_ok _ _ rfl
      (covers_of_noHit _ _ _ h1)
  have h3 : NoHit rxPassword (defaultFilter b) :=
    noHit_replaceAll rxPassword rxPassword rxPassword_ok rxPassword_ok _ _ rfl (covers_self _ _)
  show rxPassword.ReplaceAll (rxEmail.ReplaceAll (defaultFilter b)) = defaultFilter b
  rw [noHit_replace rxEmail _ h2, noHit_replace rxPassword _ h3]

/-- Claim C7 (as stated) fails: for the record with the string field
`password=abc123`, the output of `twFormatter.Format` contains `abc123` and does
not contain `password=[FILTERED]`. -/
theorem twFormatter_keeps_password :
    containsStr ((twFormatter.Format ⟨false, false⟩) sampleEnv passwordRecord).bytes
      "abc123".toList = true ∧
    containsStr ((twFormatter.Format ⟨false, false⟩) sampleEnv passwordRecord).bytes
      "password=[FILTERED]".toList = false := by
  decide

/-- Claim C7 (amended): the human-readable formatter applies no redaction pass;
for every record that carries, under a key other than `error_message`, a string
field value `password=v` (`v` a word of ASCII letters, digits, `_` and `-`), the
output of `twFormatter.Format` contains `password=v`, and so `v`, as it is. -/
theorem twFormatter_writes_value_verbatim (f : twFormatter) (env : Env) (entry : Record)
    (k v : Str) (hk : k ≠ fieldErrorMessage)
    (hget : entry.Data.get k = some (Value.str ("password=".toList ++ v)))
    (hv : ∀ c ∈ v, isAsciiWord c = true) :
    containsStr (f.Format env entry).bytes ("password=".toList ++ v) = true ∧
    containsStr (f.Format env entry).bytes v = true := by
  have hin : ("password=".toList ++ v) <:+: (f.Format env entry).bytes := by
    by_cases hm : k = fieldModule
    · subst hm
      have : (f.Format env entry).bytes =
          (env.timeText entry.Time ++ " [".toList ++
            colorize env.pid bgWhite (!f.DisableColors && (f.ForceColors || env.stdoutIsTerminal)) ++
            "] ".toList ++ colorize ((entry.Level.String.map upperChar).take 4)
              (colors entry.Level) (!f.DisableColors && (f.ForceColors || env.stdoutIsTerminal)) ++
            ":".toList ++ " (".toList) ++ ("password=".toList ++ v) ++
          (")".toList ++ " ".toList ++ trimSpace entry.Message ++ "\n".toList ++
            printData env (f.Format env entry).Data
              (!f.DisableColors && (f.ForceColors || env.stdoutIsTerminal)) ++
            (extractError env (printMessage env entry
              (!f.DisableColors && (f.ForceColors || env.stdoutIsTerminal))).2
              (!f.DisableColors && (f.ForceColors || env.stdoutIsTerminal))).1) := by
        show (twFormatter.Format f env entry).bytes = _
        simp only [twFormatter.Format, printMessage, hget, List.append_assoc]
      exact ⟨_, _, this.symm⟩
    · obtain ⟨h1, h2⟩ := format_keeps_string f env entry k _ hm hk hget
      have h3 := printData_contains env (f.Format env entry).Data
        (!f.DisableColors && (f.ForceColors || env.stdoutIsTerminal)) k _ h1
      have hplain : ∀ c ∈ "password=".toList ++ v,
          32 ≤ c.toNat ∧ c.toNat < 127 ∧ c.toNat ≠ 34 ∧ c.toNat ≠ 92 := by
        intro c hc
        rcases List.mem_append.1 hc with hc | hc
        · have hall : ∀ d ∈ "password=".toList,
              32 ≤ d.toNat ∧ d.toNat < 127 ∧ d.toNat ≠ 34 ∧ d.toNat ≠ 92 := by decide
          exact hall c hc
        · exact isAsciiWord_plain (hv c hc)
      rw [goQuote_plain env.isPrint _ hplain] at h3
      have h4 : ("password=".toList ++ v) <:+:
          (k ++ '=' :: ('"' :: ("password=".toList ++ v) ++ ['"'])) :=
        ⟨k ++ ['=', '"'], ['"'], by simp [List.append_assoc]⟩
      obtain ⟨a, b, e⟩ := List.IsInfix.trans h4 h3
      rw [h2]
      exact ⟨(printMessage env entry
          (!f.DisableColors && (f.ForceColors || env.stdoutIsTerminal))).1 ++ a,
        b ++ (extractError env (printMessage env entry
          (!f.DisableColors && (f.ForceColors || env.stdoutIsTerminal))).2
          (!f.DisableColors && (f.ForceColors || env.stdoutIsTerminal))).1,
        by simp [← e, List.append_assoc]⟩
  refine ⟨(containsStr_iff _ _).2 hin, (containsStr_iff _ _).2 ?_⟩
  exact List.IsInfix.trans ⟨"password=".toList, [], by simp⟩ hin

theorem twFormatter_writes_value_verbatim_witness :
    "k".toList ≠ fieldErrorMessage ∧
    passwordRecord.Data.get "k".toList = some (Value.str ("password=".toList ++ "abc123".toList)) ∧
    containsStr ((twFormatter.Format ⟨false, false⟩) sampleEnv passwordRecord).bytes
      ("password=".toList ++ "abc123".toList) = true :=
  ⟨by decide, by decide,
    (twFormatter_writes_value_verbatim ⟨false, false⟩ sampleEnv passwordRecord "k".toList
      "abc123".toList (by decide) (by decide) (by decide)).1⟩

/-- Claim C8 (as stated) fails: `token` is not a key of the rule set,
`defaultFilter` leaves `Token: abc` as it is. -/
theorem defaultFilter_token_not_filtered :
    defaultFilter "Token: abc".toList = "Token: abc".toList ∧
    defaultFilter "Token: abc".toList ≠ "Token: [FILTERED]".toList := by
  decide

/-- Claim C8 (amended): the default rule set replaces the value of every
`key=value` or `key:value` pair (optional quotes around key and value, optional
spaces around the separator) whose key is `password`, `secret`, `tw-auth` or
`twauth` with a word as value, or `email` or `e-mail` with an email-shaped
value, in any letter case; so `SECRET=v` becomes `SECRET=[FILTERED]`.  The key
`token` is not in the rule set: `Token: v` stays as it is. -/
theorem defaultFilter_rule_set (v : Str) (hv : v ≠ []) (hw : ∀ c ∈ v, isWord c = true) :
    (∀ key ∈ rxPassword.keys, ∀ (k q1 q3 w1 w2 q5 q7 : Str) (sep : Char), FoldMatch key k →
      OptQ q1 → OptQ q3 → OptQ q5 → OptQ q7 → (∀ c ∈ w1, isSpace c = true) →
      (∀ c ∈ w2, isSpace c = true) → isSep sep = true →
      defaultFilter (q1 ++ k ++ q3 ++ w1 ++ sep :: w2 ++ q5 ++ v ++ q7) =
        q1 ++ k ++ q3 ++ w1 ++ sep :: w2 ++ q5 ++ "[FILTERED]".toList ++ q7) ∧
    (∀ key ∈ rxEmail.keys, ∀ (k q1 q3 w1 w2 q5 q7 l d : Str) (sep : Char), FoldMatch key k →
      OptQ q1 → OptQ q3 → OptQ q5 → OptQ q7 → (∀ c ∈ w1, isSpace c = true) →
      (∀ c ∈ w2, isSpace c = true) → isSep sep = true →
      l ≠ [] → (∀ c ∈ l, isEmailChar c = true) → d ≠ [] → (∀ c ∈ d, isEmailChar c = true) →
      defaultFilter (q1 ++ k ++ q3 ++ w1 ++ sep :: w2 ++ q5 ++ l ++ '@' :: d ++ q7) =
        q1 ++ k ++ q3 ++ w1 ++ sep :: w2 ++ q5 ++ "[FILTERED]".toList ++ q7) ∧
    defaultFilter ("SECRET=".toList ++ v) = "SECRET=[FILTERED]".toList ∧
    defaultFilter ("Token: ".toList ++ v) = "Token: ".toList ++ v := by
  refine ⟨?_, ?_, ?_, token_unchanged v hw⟩
  · intro key hkey k q1 q3 w1 w2 q5 q7 sep hk h1 h3 h5 h7 hw1 hw2 hs
    exact rxPassword_pair key k q1 q3 w1 w2 q5 q7 v sep hkey hk h1 h3 h5 h7 hw1 hw2 hs hv hw
  · intro key hkey k q1 q3 w1 w2 q5 q7 l d sep hk h1 h3 h5 h7 hw1 hw2 hs hl hle hd hde
    exact rxEmail_pair key k q1 q3 w1 w2 q5 q7 l d sep hkey hk h1 h3 h5 h7 hw1 hw2 hs hl hle
      hd hde
  · have hfold : FoldMatch "secret".toList "SECRET".toList := by
      unfold FoldMatch
      decide
    have := rxPassword_pair "secret".toList "SECRET".toList [] [] [] [] [] [] v '='
      (by decide) hfold optQ_nil optQ_nil optQ_nil optQ_nil (by simp) (by simp) (by decide) hv hw
    simpa [filtered, List.append_assoc] using this

theorem defaultFilter_rule_set_witness :
    "abc".toList ≠ [] ∧ (∀ c ∈ "abc".toList, isWord c = true) ∧
    defaultFilter ("SECRET=".toList ++ "abc".toList) = "SECRET=[FILTERED]".toList ∧
    defaultFilter ("Token: ".toList ++ "abc".toList) = "Token: ".toList ++ "abc".toList ∧
    defaultFilter ([] ++ "TW-Auth".toList ++ ['"'] ++ [' '] ++ ':' :: [' '] ++ ['"'] ++
        "abc".toList ++ ['"']) =
      [] ++ "TW-Auth".toList ++ ['"'] ++ [' '] ++ ':' :: [' '] ++ ['"'] ++
        "[FILTERED]".toList ++ ['"'] ∧
    defaultFilter ([] ++ "E-Mail".toList ++ [] ++ [] ++ '=' :: [] ++ [] ++ "a.b".toList ++
        '@' :: "c.d".toList ++ []) =
      [] ++ "E-Mail".toList ++ [] ++ [] ++ '=' :: [] ++ [] ++ "[FILTERED]".toList ++ [] :=
  ⟨by decide, by decide,
    (defaultFilter_rule_set "abc".toList (by decide) (by decide)).2.2.1,
    (defaultFilter_rule_set "abc".toList (by decide) (by decide)).2.2.2,
    (defaultFilter_rule_set "abc".toList (by decide) (by decide)).1 "tw-auth".toList (by decide)
      "TW-Auth".toList [] ['"'] [' '] [' '] ['"'] ['"'] ':' (by unfold FoldMatch; decide)
      optQ_nil (Or.inr ⟨'"', by decide, rfl⟩) (Or.inr ⟨'"', by decide, rfl⟩)
      (Or.inr ⟨'"', by decide, rfl⟩) (by decide) (by decide) (by decide),
    (defaultFilter_rule_set "abc".toList (by decide) (by decide)).2.1 "e-mail".toList (by decide)
      "E-Mail".toList [] [] [] [] [] [] "a.b".toList "c.d".toList '=' (by unfold FoldMatch; decide)
      optQ_nil optQ_nil optQ_nil optQ_nil (by decide) (by decide) (by decide) (by decide)
      (by decide) (by decide) (by decide)⟩

/-- Claim C9 (as stated) fails: `B` carries a stack and wraps `C`, which carries
one too; `earliestStackTracer B` is `C`, not the outermost error `B`. -/
theorem earliestStackTracer_not_outermost :
    (GoError.wrap "b".toList (some []) (GoError.leaf "c".toList (some []))).isStackTracer = true ∧
    (GoError.leaf "c".toList (some [])).isStackTracer = true ∧
    earliestStackTracer (some (GoError.wrap "b".toList (some []) (GoError.leaf "c".toList (some []))))
      = some (GoError.leaf "c".toList (some [])) ∧
    earliestStackTracer (some (GoError.wrap "b".toList (some []) (GoError.leaf "c".toList (some []))))
      ≠ some (GoError.wrap "b".toList (some []) (GoError.leaf "c".toList (some []))) := by
  decide

/-- Claim C9 (amended): for every finite cause chain, `earliestStackTracer`
returns the innermost error of the chain that carries a captured stack, the
last one in the order of the walk from the error it was called on, and nil when
none carries one. -/
theorem earliestStackTracer_innermost (err : GoError) :
    earliestStackTracer (some err) =
      (err.causeChain.filter GoError.isStackTracer).getLast? :=
  earliestStackTracer_getLast err

/-- Claim C10: when `B` carries a captured stack and wraps `A`, and no error of
the chain of `A` carries one, `earliestStackTracer B` is `B`; and
`addStackTrace A` is a new error that carries the stack captured at the call
(the frames `runtime.Callers` returns, at most 25, without the leading frames of
the package), has `A` as its cause and has the message of `A`. -/
theorem earliestStackTracer_wrapper_addStackTrace_fresh (m : Str) (st : List Frame)
    (A : GoError) (myPath : Str) (callers : List Frame)
    (hA : ∀ x ∈ A.causeChain, x.isStackTracer = false) :
    earliestStackTracer (some (GoError.wrap m (some st) A)) = some (GoError.wrap m (some st) A) ∧
    (addStackTrace myPath callers A).StackTrace =
      some ((callers.take maxStackFrames).drop
        (ownFrameCount myPath (callers.take maxStackFrames))) ∧
    (addStackTrace myPath callers A).Cause = some A ∧
    (addStackTrace myPath callers A).Error = A.Error := by
  have h0 : A.isStackTracer = false := by
    apply hA
    cases A <;> simp [GoError.causeChain]
  have hf : A.causeChain.filter GoError.isStackTracer = [] := by
    rw [List.filter_eq_nil_iff]
    intro x hx
    simp [hA x hx]
  refine ⟨?_, ?_, ?_, ?_⟩
  · rw [earliestStackTracer_getLast]
    simp [GoError.causeChain, List.filter, GoError.isStackTracer, GoError.StackTrace, hf]
  · simp [addStackTrace, h0, withStack, GoError.StackTrace]
  · simp [addStackTrace, h0, withStack, GoError.Cause]
  · simp [addStackTrace, h0, withStack, GoError.Error]

theorem earliestStackTracer_wrapper_addStackTrace_fresh_witness :
    (∀ x ∈ (GoError.leaf "a".toList none).causeChain, x.isStackTracer = false) ∧
    earliestStackTracer (some (GoError.wrap "b".toList (some []) (GoError.leaf "a".toList none))) =
        some (GoError.wrap "b".toList (some []) (GoError.leaf "a".toList none)) ∧
    (addStackTrace "/log".toList [⟨"f".toList, "/log/entry.go".toList, 1, "/log/entry.go".toList⟩,
        ⟨"main".toList, "/app/main.go".toList, 2, "/app/main.go".toList⟩] (GoError.leaf "a".toList none)).Cause =
      some (GoError.leaf "a".toList none) :=
  ⟨by decide,
    (earliestStackTracer_wrapper_addStackTrace_fresh "b".toList [] (GoError.leaf "a".toList none)
      "/log".toList [⟨"f".toList, "/log/entry.go".toList, 1, "/log/entry.go".toList⟩,
        ⟨"main".toList, "/app/main.go".toList, 2, "/app/main.go".toList⟩] (by decide)).1,
    (earliestStackTracer_wrapper_addStackTrace_fresh "b".toList [] (GoError.leaf "a".toList none)
      "/log".toList [⟨"f".toList, "/log/entry.go".toList, 1, "/log/entry.go".toList⟩,
        ⟨"main".toList, "/app/main.go".toList, 2, "/app/main.go".toList⟩] (by decide)).2.2.1⟩

/-! ## Enrichment -/

theorem causeChain_wrap_length (m : Str) (s : Option (List Frame)) (c : GoError) :
    (GoError.wrap m s c).causeChain.length = c.causeChain.length + 1 := by
  simp [GoError.causeChain]

theorem wrap_ne_cause (m : Str) (s : Option (List Frame)) (c : GoError) :
    GoError.wrap m s c ≠ c := by
  intro h
  have := causeChain_wrap_length m s c
  rw [h] at this
  omega

theorem ownFrameCount_split (myPath : Str) (l : List Frame) :
    l.take (ownFrameCount myPath l) = l.takeWhile (isOwnFrame myPath) ∧
    l.drop (ownFrameCount myPath l) = l.dropWhile (isOwnFrame myPath) := by
  induction l with
  | nil => simp [ownFrameCount]
  | cons f fs ih =>
    have e : isOwnFrame myPath f =
        (myPath.isPrefixOf f.rawFile && !("_test.go".toList.isSuffixOf f.rawFile)) := rfl
    simp only [ownFrameCount, List.takeWhile, List.dropWhile, e]
    generalize myPath.isPrefixOf f.rawFile = a
    generalize "_test.go".toList.isSuffixOf f.rawFile = b
    cases a <;> cases b <;> simp [ih.1, ih.2]

theorem addStackTrace_of_not_tracer (myPath : Str) (callers : List Frame) (err : GoError)
    (h : err.isStackTracer = false) :
    addStackTrace myPath callers err =
      withStack err ((callers.take maxStackFrames).dropWhile (isOwnFrame myPath)) := by
  simp only [addStackTrace, h]
  rw [(ownFrameCount_split myPath (callers.take maxStackFrames)).2]
  rfl

theorem withError_fields (w : World) (e : Entry) (callers : List Frame) (err1 : GoError)
    (err : Option GoError) (h : err = some err1 ∨ (err = none ∧ err1 = GoError.leaf "(nil)".toList none)) :
    ((Entry.WithError w e callers err).1.data (Entry.WithError w e callers err).2).get fieldError =
      some (Value.err (addStackTrace w.env.myPath callers err1)) ∧
    ((Entry.WithError w e callers err).1.data (Entry.WithError w e callers err).2).get
        fieldErrorMessage = some (Value.str err1.Error) := by
  have n1 : fieldError ≠ fieldErrorMessage := by decide
  rcases h with rfl | ⟨rfl, rfl⟩
  · simp only [Entry.WithError, Entry.WithFields, World.data, getD_append_length]
    constructor
    · rw [Fields.get_setAll _ _ _ (by simp [n1])]
      simp [Fields.get]
    · rw [Fields.get_setAll _ _ _ (by simp [n1])]
      simp [Fields.get, n1]
  · simp only [Entry.WithError, Entry.WithFields, World.data, getD_append_length]
    constructor
    · rw [Fields.get_setAll _ _ _ (by simp [n1])]
      simp [Fields.get]
    · rw [Fields.get_setAll _ _ _ (by simp [n1])]
      simp [Fields.get, n1]

/-! ## The field dump -/

theorem strLe_total (a b : Str) : strLe a b = true ∨ strLe b a = true := by
  induction a generalizing b with
  | nil => exact Or.inl (by simp [strLe])
  | cons x xs ih =>
    cases b with
    | nil => exact Or.inr (by simp [strLe])
    | cons y ys =>
      simp only [strLe, Bool.or_eq_true, Bool.and_eq_true, decide_eq_true_eq]
      rcases ih ys with h | h
      · rcases Nat.lt_trichotomy x.toNat y.toNat with h1 | h1 | h1
        · exact Or.inl (Or.inl h1)
        · exact Or.inl (Or.inr ⟨h1, h⟩)
        · exact Or.inr (Or.inl h1)
      · rcases Nat.lt_trichotomy x.toNat y.toNat with h1 | h1 | h1
        · exact Or.inl (Or.inl h1)
        · exact Or.inr (Or.inr ⟨h1.symm, h⟩)
        · exact Or.inr (Or.inl h1)

theorem strLe_trans (a b c : Str) (h1 : strLe a b = true) (h2 : strLe b c = true) :
    strLe a c = true := by
  induction a generalizing b c with
  | nil => simp [strLe]
  | cons x xs ih =>
    cases b with
    | nil => simp [strLe] at h1
    | cons y ys =>
      cases c with
      | nil => simp [strLe] at h2
      | cons z zs =>
        simp only [strLe, Bool.or_eq_true, Bool.and_eq_true, decide_eq_true_eq] at h1 h2 ⊢
        rcases h1 with h1 | ⟨e1, h1⟩
        · rcases h2 with h2 | ⟨e2, h2⟩
          · exact Or.inl (by omega)
          · exact Or.inl (by omega)
        · rcases h2 with h2 | ⟨e2, h2⟩
          · exact Or.inl (by omega)
          · exact Or.inr ⟨by omega, ih ys zs h1 h2⟩

theorem sortedKeys_sorted (l : List Str) :
    (l.insertionSort (fun a b => strLe a b = true)).Sorted (fun a b => strLe a b = true) := by
  haveI : IsTotal Str (fun a b => strLe a b = true) := ⟨strLe_total⟩
  haveI : IsTrans Str (fun a b => strLe a b = true) := ⟨strLe_trans⟩
  exact List.sorted_insertionSort _ l

/-! ## The graylog hook -/

theorem newData_eq_setAll (g : GraylogHook) (data : Fields) :
    g.newData data = Fields.setAll [] (data.map (fun p => (g.newKey p.1, g.newValue p.2))) := by
  simp [GraylogHook.newData, Fields.setAll, List.foldl_map]

theorem setAll_get_some (acc m : Fields) (k : Str) (v : Value)
    (h : (Fields.setAll acc m).get k = some v) : acc.get k = some v ∨ (k, v) ∈ m := by
  induction m generalizing acc with
  | nil => exact Or.inl h
  | cons p rest ih =>
    have e : Fields.setAll acc (p :: rest) = Fields.setAll (acc.set p.1 p.2) rest := rfl
    rw [e] at h
    rcases ih _ h with h1 | h1
    · rw [Fields.get_set] at h1
      by_cases hk : k = p.1
      · simp only [hk, if_true, Option.some.injEq] at h1
        refine Or.inr ?_
        rw [hk, ← h1]
        simp
      · simp only [hk, if_false] at h1
        exact Or.inl h1
    · exact Or.inr (List.mem_cons_of_mem _ h1)

theorem setAll_get_isSome (acc m : Fields) (k : Str)
    (h : (acc.get k).isSome = true ∨ k ∈ m.map (fun p => p.1)) :
    ((Fields.setAll acc m).get k).isSome = true := by
  induction m generalizing acc with
  | nil =>
    rcases h with h | h
    · exact h
    · simp at h
  | cons p rest ih =>
    have e : Fields.setAll acc (p :: rest) = Fields.setAll (acc.set p.1 p.2) rest := rfl
    rw [e]
    apply ih
    by_cases hk : k = p.1
    · left
      rw [Fields.get_set]
      simp [hk]
    · rcases h with h | h
      · left
        rw [Fields.get_set]
        simp [hk, h]
      · right
        simp only [List.map_cons, List.mem_cons] at h
        rcases h with h | h
        · exact absurd h hk
        · exact h

theorem Fields.get_of_mem (m : Fields) (k : Str) (v : Value)
    (hn : (m.map (fun p => p.1)).Nodup) (h : (k, v) ∈ m) : m.get k = some v := by
  induction m with
  | nil => simp at h
  | cons p rest ih =>
    obtain ⟨k1, v1⟩ := p
    simp only [List.map_cons, List.nodup_cons] at hn
    rcases List.mem_cons.1 h with h | h
    · simp only [Prod.mk.injEq] at h
      simp [Fields.get, h.1, h.2]
    · have hk : k ∈ rest.map (fun p => p.1) := List.mem_map.2 ⟨(k, v), h, rfl⟩
      have hne : ¬ k1 = k := fun e => hn.1 (e ▸ hk)
      simp [Fields.get, hne, ih hn.2 h]

theorem Fields.mem_of_get (m : Fields) (k : Str) (v : Value) (h : m.get k = some v) :
    (k, v) ∈ m := by
  induction m with
  | nil => simp [Fields.get] at h
  | cons p rest ih =>
    obtain ⟨k1, v1⟩ := p
    by_cases hk : k1 = k
    · simp only [Fields.get, hk, if_true, Option.some.injEq] at h
      simp [hk, h]
    · simp only [Fields.get, hk, if_false] at h
      exact List.mem_cons_of_mem _ (ih h)

theorem Fields.set_length (m : Fields) (k : Str) (v : Value)
    (h : k ∉ m.map (fun p => p.1)) :
    (m.set k v).length = m.length + 1 ∧
    (m.set k v).map (fun p => p.1) = m.map (fun p => p.1) ++ [k] := by
  induction m with
  | nil => simp [Fields.set]
  | cons p rest ih =>
    obtain ⟨k1, v1⟩ := p
    simp only [List.map_cons, List.mem_cons, not_or] at h
    have hne : ¬ k1 = k := fun e => h.1 e.symm
    simp [Fields.set, hne, (ih h.2).1, (ih h.2).2]

theorem setAll_length (acc m : Fields) (hn : (m.map (fun p => p.1)).Nodup)
    (hd : ∀ k ∈ m.map (fun p => p.1), k ∉ acc.map (fun p => p.1)) :
    (Fields.setAll acc m).length = acc.length + m.length := by
  induction m generalizing acc with
  | nil => rfl
  | cons p rest ih =>
    have e : Fields.setAll acc (p :: rest) = Fields.setAll (acc.set p.1 p.2) rest := rfl
    simp only [List.map_cons, List.nodup_cons] at hn
    have h1 := Fields.set_length acc p.1 p.2 (hd p.1 (List.mem_cons_self _ _))
    rw [e, ih _ hn.2, h1.1]
    · simp
      omega
    · intro k hk
      rw [h1.2]
      simp only [List.mem_append, List.mem_singleton, not_or]
      refine ⟨hd k (List.mem_cons_of_mem _ hk), ?_⟩
      intro e2
      rw [e2] at hk
      exact hn.1 hk

theorem newKey_injective (g : GraylogHook) (hs : GraylogHook.SafePrefix g.fieldPrefix)
    (k1 k2 : Str) (h : g.newKey k1 = g.newKey k2) : k1 = k2 := by
  have key : ∀ a b : Str, g.fieldPrefix ≠ [] →
      g.fieldPrefix ++ "-".toList ++ a = b → b ≠ logrusErrorKey ∧ prefixIgnore.isPrefixOf b = false := by
    intro a b hp hab
    rcases hs with hs | ⟨hs1, hs2⟩
    · exact absurd hs hp
    · constructor
      · intro hb
        have hmem : '-' ∈ b := by
          rw [← hab]
          simp
        rw [hb] at hmem
        revert hmem
        decide
      · rw [← hab]
        cases hpre : g.fieldPrefix with
        | nil => exact absurd hpre hp
        | cons c t =>
          cases t with
          | nil =>
            rw [hpre] at hs1
            by_contra hcon
            have hcon2 : prefixIgnore.isPrefixOf ([c] ++ "-".toList ++ a) = true := by
              simpa using hcon
            have hc : c = 'g' := by
              simp [prefixIgnore, List.isPrefixOf] at hcon2
              exact hcon2.symm
            exact hs1 (by rw [hc]; rfl)
          | cons d t2 =>
            rw [hpre] at hs2
            by_contra hcon
            have hcon2 : prefixIgnore.isPrefixOf (c :: d :: t2 ++ "-".toList ++ a) = true := by
              simpa using hcon
            have : prefixIgnore.isPrefixOf (c :: d :: t2) = true := by
              simp [prefixIgnore, List.isPrefixOf] at hcon2 ⊢
              exact hcon2
            rw [this] at hs2
            exact Bool.noConfusion hs2
  simp only [GraylogHook.newKey] at h
  split at h
  · rename_i c1
    split at h
    · exact List.append_cancel_left h
    · rename_i c2
      have := key k1 k2 c1.1 h
      exact absurd ⟨c1.1, this.1, this.2⟩ c2
  · rename_i c1
    split at h
    · rename_i c2
      have := key k2 k1 c2.1 h.symm
      exact absurd ⟨c2.1, this.1, this.2⟩ c1
    · exact h

/-! ## Flush -/

theorem sum_map_set {α : Type} (f : α → Nat) (l : List α) (j : Nat) (old x : α)
    (h : l.get? j = some old) :
    ((l.set j x).map f).sum + f old = (l.map f).sum + f x := by
  induction l generalizing j with
  | nil => simp at h
  | cons a t ih =>
    cases j with
    | zero =>
      simp only [List.get?_cons_zero, Option.some.injEq] at h
      subst h
      simp only [List.set_cons_zero, List.map_cons, List.sum_cons]
      omega
    | succ j =>
      simp only [List.get?_cons_succ] at h
      have := ih j h
      simp only [List.set_cons_succ, List.map_cons, List.sum_cons]
      omega

theorem map_set_same {α β : Type} (f : α → β) (l : List α) (j : Nat) (old x : α)
    (h : l.get? j = some old) (hf : f x = f old) : (l.set j x).map f = l.map f := by
  induction l generalizing j with
  | nil => simp at h
  | cons a t ih =>
    cases j with
    | zero =>
      simp only [List.get?_cons_zero, Option.some.injEq] at h
      subst h
      simp [hf]
    | succ j =>
      simp only [List.get?_cons_succ] at h
      simp [ih j h]

theorem sum_zero_all {α : Type} (f : α → Nat) (l : List α) (h : (l.map f).sum = 0) :
    ∀ a ∈ l, f a = 0 := by
  induction l with
  | nil => simp
  | cons a t ih =>
    simp only [List.map_cons, List.sum_cons] at h
    intro b hb
    rcases List.mem_cons.1 hb with rfl | hb
    · omega
    · exact ih (by omega) b hb

theorem sum_all_zero {α : Type} (f : α → Nat) (l : List α) (h : ∀ a ∈ l, f a = 0) :
    (l.map f).sum = 0 := by
  induction l with
  | nil => rfl
  | cons a t ih =>
    simp only [List.map_cons, List.sum_cons]
    rw [h a (by simp), ih (fun b hb => h b (by simp [hb]))]

theorem get?_mem {α : Type} (l : List α) (j : Nat) (a : α) (h : l.get? j = some a) : a ∈ l := by
  induction l generalizing j with
  | nil => simp at h
  | cons b t ih =>
    cases j with
    | zero =>
      simp only [List.get?_cons_zero, Option.some.injEq] at h
      simp [h]
    | succ j =>
      simp only [List.get?_cons_succ] at h
      exact List.mem_cons_of_mem _ (ih j h)

theorem mem_get? {α : Type} (l : List α) (a : α) (h : a ∈ l) : ∃ j, l.get? j = some a := by
  induction l with
  | nil => simp at h
  | cons b t ih =>
    rcases List.mem_cons.1 h with rfl | h
    · exact ⟨0, rfl⟩
    · obtain ⟨j, hj⟩ := ih h
      exact ⟨j + 1, by simpa using hj⟩

theorem take_succ_getD (l : List Nat) (n : Nat) (h : n < l.length) :
    l.take n ++ [l.getD n 0] = l.take (n + 1) := by
  induction l generalizing n with
  | nil => simp at h
  | cons a t ih =>
    cases n with
    | zero => simp
    | succ n =>
      simp only [List.length_cons, Nat.add_lt_add_iff_right] at h
      have := ih n h
      simp only [List.take_succ_cons, List.cons_append, List.getD_cons_succ, this]

theorem init_inv (flushers : List Nat) : Flush.Inv (Flush.init flushers) := by
  refine ⟨?_, ?_, ?_, ?_, ?_, ?_, ?_, ?_⟩ <;> simp [Flush.init]

/-- A step of the main goroutine keeps the invariant and uses up a step. -/
theorem mainStep_inv (s s1 : FlushState) (hI : Flush.Inv s) (h : Flush.mainStep s = some s1) :
    Flush.Inv s1 ∧ s1.flushers = s.flushers ∧ Flush.measure s1 < Flush.measure s := by
  obtain ⟨fl, pc, wg, gs⟩ := s
  obtain ⟨hlen, hadd, hstart, hafter, hret, hcount, hcalls, hfs⟩ := hI
  simp only at hlen hadd hstart hafter hret hcount hcalls hfs
  cases pc with
  | start =>
    have hgs : gs = [] := hstart rfl
    subst hgs
    simp only [Flush.mainStep] at h
    by_cases hf : fl = []
    · simp only [hf, if_true, Option.some.injEq] at h
      subst h
      subst hf
      simp only [reduceCtorEq, if_false, List.map_nil, List.sum_nil, Nat.add_zero] at hcount
      refine ⟨⟨?_, ?_, ?_, ?_, ?_, ?_, ?_, ?_⟩, rfl, ?_⟩ <;> simp [hcount, Flush.measure]
    · simp only [hf, if_false, Option.some.injEq] at h
      subst h
      simp only [reduceCtorEq, if_false, List.map_nil, List.sum_nil, Nat.add_zero] at hcount
      refine ⟨⟨?_, ?_, ?_, ?_, ?_, ?_, ?_, ?_⟩, rfl, ?_⟩ <;> simp [hcount, Flush.measure]
  | loop =>
    simp only [Flush.mainStep] at h
    simp only [reduceCtorEq, if_false, Nat.add_zero] at hcount
    by_cases hl : gs.length < fl.length
    · simp only [hl, if_true, Option.some.injEq] at h
      subst h
      refine ⟨⟨hlen, fun _ => hl, ?_, ?_, ?_, ?_, hcalls, hfs⟩, rfl, ?_⟩
      · simp
      · simp
      · simp
      · simp [hcount]
      · simp [Flush.measure]
    · simp only [hl, if_false, Option.some.injEq] at h
      subst h
      have he : gs.length = fl.length := by omega
      refine ⟨⟨hlen, ?_, ?_, fun _ => he, ?_, ?_, hcalls, hfs⟩, rfl, ?_⟩
      · simp
      · simp
      · simp
      · simp [hcount]
      · simp [Flush.measure, he]
  | added =>
    simp only [Flush.mainStep, Option.some.injEq] at h
    subst h
    have hl : gs.length < fl.length := hadd rfl
    simp only [if_true] at hcount
    refine ⟨⟨?_, ?_, ?_, ?_, ?_, ?_, ?_, ?_⟩, rfl, ?_⟩
    · simp
      omega
    · simp
    · simp
    · simp
    · simp
    · simp [hcount, Flush.active]
    · intro g hg
      simp only [List.mem_append, List.mem_singleton] at hg
      rcases hg with hg | hg
      · exact hcalls g hg
      · rw [hg]
        rfl
    · simp only [List.map_append, List.map_cons, List.map_nil, hfs, List.length_append,
        List.length_singleton]
      exact take_succ_getD fl gs.length hl
    · simp only [Flush.measure, List.map_append, List.map_cons, List.map_nil, List.sum_append,
        List.sum_cons, List.sum_nil, List.length_append, List.length_singleton, Flush.stepsLeft]
      omega
  | wait =>
    simp only [Flush.mainStep] at h
    simp only [reduceCtorEq, if_false, Nat.add_zero] at hcount
    by_cases hw : wg = 0
    · simp only [hw, if_true, Option.some.injEq] at h
      subst h
      subst hw
      have hall := sum_zero_all (fun g : Goroutine => Flush.active g.status) gs hcount.symm
      refine ⟨⟨hlen, ?_, ?_, fun _ => hafter (Or.inl rfl), ?_, ?_, hcalls, hfs⟩, rfl, ?_⟩
      · simp
      · simp
      · intro _ g hg
        have := hall g hg
        cases hst : g.status <;> simp [hst, Flush.active] at this ⊢
      · simp [← hcount]
      · simp [Flush.measure]
    · simp [hw] at h
  | returned => simp [Flush.mainStep] at h

/-- A step of a goroutine keeps the invariant and uses up a step. -/
theorem goStep_inv (s s1 : FlushState) (j : Nat) (g : Goroutine) (hI : Flush.Inv s)
    (hg : s.gs.get? j = some g) (h : Flush.goStep s j g = some s1) :
    Flush.Inv s1 ∧ s1.flushers = s.flushers ∧ Flush.measure s1 < Flush.measure s := by
  obtain ⟨fl, pc, wg, gs⟩ := s
  obtain ⟨hlen, hadd, hstart, hafter, hret, hcount, hcalls, hfs⟩ := hI
  simp only at hlen hadd hstart hafter hret hcount hcalls hfs hg
  have hmem : g ∈ gs := get?_mem gs j g hg
  have hne : gs ≠ [] := List.ne_nil_of_mem hmem
  have hcg := hcalls g hmem
  have hnotret : g.status ≠ GoStatus.done → pc ≠ FlushPC.returned := by
    intro hnd hp
    exact hnd (hret hp g hmem)
  have frame : ∀ (st : GoStatus) (c : Nat), c = Flush.invoked st →
      Flush.active st + 0 = Flush.active g.status → Flush.stepsLeft st < Flush.stepsLeft g.status →
      g.status ≠ GoStatus.done →
      Flush.Inv ⟨fl, pc, wg, gs.set j ⟨g.f, st, c⟩⟩ ∧
      Flush.measure ⟨fl, pc, wg, gs.set j ⟨g.f, st, c⟩⟩ < Flush.measure ⟨fl, pc, wg, gs⟩ := by
    intro st c hc hact hsteps hnd
    have hsum := sum_map_set (fun g : Goroutine => Flush.active g.status) gs j g ⟨g.f, st, c⟩ hg
    have hsum2 := sum_map_set (fun g : Goroutine => Flush.stepsLeft g.status) gs j g
      ⟨g.f, st, c⟩ hg
    have hmap := map_set_same (fun g : Goroutine => g.f) gs j g ⟨g.f, st, c⟩ hg rfl
    simp only at hsum hsum2
    refine ⟨⟨?_, ?_, ?_, ?_, ?_, ?_, ?_, ?_⟩, ?_⟩
    · simpa using hlen
    · simpa using hadd
    · intro hp
      exact absurd (hstart hp) hne
    · simpa using hafter
    · intro hp
      exact absurd hp (hnotret hnd)
    · show wg = _
      rw [hcount]
      simp only
      omega
    · intro x hx
      rcases List.mem_or_eq_of_mem_set hx with hx | hx
      · exact hcalls x hx
      · rw [hx]
        exact hc
    · simp only [hmap, List.length_set]
      exact hfs
    · simp only [Flush.measure, List.length_set]
      omega
  simp only [Flush.goStep] at h
  cases hst : g.status with
  | spawned =>
    simp only [hst, Option.some.injEq] at h
    subst h
    rw [hst] at hcg
    have := frame GoStatus.running (g.calls + 1) (by rw [hcg]; rfl) (by rw [hst]; rfl)
      (by rw [hst]; decide) (by rw [hst]; decide)
    exact ⟨this.1, rfl, this.2⟩
  | running =>
    simp only [hst, Option.some.injEq] at h
    subst h
    rw [hst] at hcg
    have := frame GoStatus.flushed g.calls (by rw [hcg]; rfl) (by rw [hst]; rfl)
      (by rw [hst]; decide) (by rw [hst]; decide)
    exact ⟨this.1, rfl, this.2⟩
  | flushed =>
    simp only [hst] at h
    by_cases hw : wg = 0
    · simp [hw] at h
    · simp only [hw, if_false, Option.some.injEq] at h
      subst h
      rw [hst] at hcg
      have hsum := sum_map_set (fun g : Goroutine => Flush.active g.status) gs j g
        ⟨g.f, GoStatus.done, g.calls⟩ hg
      have hsum2 := sum_map_set (fun g : Goroutine => Flush.stepsLeft g.status) gs j g
        ⟨g.f, GoStatus.done, g.calls⟩ hg
      have hmap := map_set_same (fun g : Goroutine => g.f) gs j g ⟨g.f, GoStatus.done, g.calls⟩
        hg rfl
      simp only [hst] at hsum hsum2
      have a1 : Flush.active GoStatus.flushed = 1 := rfl
      have a2 : Flush.active GoStatus.done = 0 := rfl
      have a3 : Flush.stepsLeft GoStatus.flushed = 1 := rfl
      have a4 : Flush.stepsLeft GoStatus.done = 0 := rfl
      refine ⟨⟨?_, ?_, ?_, ?_, ?_, ?_, ?_, ?_⟩, rfl, ?_⟩
      · simpa using hlen
      · simpa using hadd
      · intro hp
        exact absurd (hstart hp) hne
      · simpa using hafter
      · intro hp
        exact absurd hp (hnotret (by rw [hst]; decide))
      · show wg - 1 = _
        rw [hcount]
        simp only
        omega
      · intro x hx
        rcases List.mem_or_eq_of_mem_set hx with hx | hx
        · exact hcalls x hx
        · rw [hx]
          exact hcg
      · simp only [hmap, List.length_set]
        exact hfs
      · simp only [Flush.measure, List.length_set]
        omega
  | done => simp [hst] at h

theorem step_inv (s s1 : FlushState) (a : FlushAction) (hI : Flush.Inv s)
    (h : Flush.step s a = some s1) :
    Flush.Inv s1 ∧ s1.flushers = s.flushers ∧ Flush.measure s1 < Flush.measure s := by
  cases a with
  | main => exact mainStep_inv s s1 hI h
  | goroutine j =>
    have e : Flush.step s (FlushAction.goroutine j) =
        (match s.gs.get? j with
          | some g => Flush.goStep s j g
          | none => none) := rfl
    rw [e] at h
    cases hg : s.gs.get? j with
    | none =>
      rw [hg] at h
      exact absurd h (by simp)
    | some g =>
      rw [hg] at h
      exact goStep_inv s s1 j g hI hg h

theorem run_inv (acts : List FlushAction) (s s1 : FlushState) (hI : Flush.Inv s)
    (h : Flush.run s acts = some s1) : Flush.Inv s1 ∧ s1.flushers = s.flushers := by
  induction acts generalizing s with
  | nil =>
    simp only [Flush.run, Option.some.injEq] at h
    subst h
    exact ⟨hI, rfl⟩
  | cons a as ih =>
    simp only [Flush.run] at h
    cases hs : Flush.step s a with
    | none => simp [hs] at h
    | some s2 =>
      simp only [hs] at h
      obtain ⟨h1, h2, -⟩ := step_inv s s2 a hI hs
      obtain ⟨h3, h4⟩ := ih s2 h1 h
      exact ⟨h3, h4.trans h2⟩

/-- In a state that is not the return, some goroutine can take a step. -/
theorem flush_progress (s : FlushState) (hI : Flush.Inv s) (hp : s.pc ≠ FlushPC.returned) :
    ∃ a s1, Flush.step s a = some s1 := by
  obtain ⟨fl, pc, wg, gs⟩ := s
  cases pc with
  | start =>
    refine ⟨FlushAction.main, ?_⟩
    by_cases hf : fl = [] <;> simp [Flush.step, Flush.mainStep, hf]
  | loop =>
    refine ⟨FlushAction.main, ?_⟩
    by_cases hl : gs.length < fl.length <;> simp [Flush.step, Flush.mainStep, hl]
  | added =>
    refine ⟨FlushAction.main, ?_⟩
    simp [Flush.step, Flush.mainStep]
  | wait =>
    by_cases hw : wg = 0
    · refine ⟨FlushAction.main, ?_⟩
      simp [Flush.step, Flush.mainStep, hw]
    · have hcount := hI.count
      simp only [reduceCtorEq, if_false, Nat.add_zero] at hcount
      have hex : ∃ g ∈ gs, Flush.active g.status ≠ 0 := by
        by_contra hcon
        simp only [not_exists, not_and, not_not] at hcon
        have := sum_all_zero (fun g : Goroutine => Flush.active g.status) gs hcon
        omega
      obtain ⟨g, hg, hact⟩ := hex
      obtain ⟨j, hj⟩ := mem_get? gs g hg
      refine ⟨FlushAction.goroutine j, ?_⟩
      have e : Flush.step ⟨fl, FlushPC.wait, wg, gs⟩ (FlushAction.goroutine j) =
          (match gs.get? j with
            | some g => Flush.goStep ⟨fl, FlushPC.wait, wg, gs⟩ j g
            | none => none) := rfl
      rw [e, hj]
      simp only [Flush.goStep]
      cases hst : g.status with
      | spawned => exact ⟨_, rfl⟩
      | running => exact ⟨_, rfl⟩
      | flushed => simp [hw]
      | done => simp [hst, Flush.active] at hact
  | returned => exact absurd rfl hp

theorem flush_returns (n : Nat) (s : FlushState) (hI : Flush.Inv s) (hm : Flush.measure s ≤ n) :
    ∃ acts s1, Flush.run s acts = some s1 ∧ s1.pc = FlushPC.returned := by
  induction n generalizing s with
  | zero =>
    by_cases hp : s.pc = FlushPC.returned
    · exact ⟨[], s, rfl, hp⟩
    · obtain ⟨a, s1, hs⟩ := flush_progress s hI hp
      have := (step_inv s s1 a hI hs).2.2
      omega
  | succ n ih =>
    by_cases hp : s.pc = FlushPC.returned
    · exact ⟨[], s, rfl, hp⟩
    · obtain ⟨a, s1, hs⟩ := flush_progress s hI hp
      obtain ⟨h1, -, h3⟩ := step_inv s s1 a hI hs
      obtain ⟨acts, s2, hr, hp2⟩ := ih s1 h1 (by omega)
      exact ⟨a :: acts, s2, by simp [Flush.run, hs, hr], hp2⟩

theorem setAll_keys (acc m : Fields) (hn : (m.map (fun p => p.1)).Nodup)
    (hd : ∀ k ∈ m.map (fun p => p.1), k ∉ acc.map (fun p => p.1)) :
    (Fields.setAll acc m).map (fun p => p.1) = acc.map (fun p => p.1) ++ m.map (fun p => p.1) := by
  induction m generalizing acc with
  | nil => simp [Fields.setAll]
  | cons p rest ih =>
    have e : Fields.setAll acc (p :: rest) = Fields.setAll (acc.set p.1 p.2) rest := rfl
    simp only [List.map_cons, List.nodup_cons] at hn
    have h1 := Fields.set_length acc p.1 p.2 (hd p.1 (List.mem_cons_self _ _))
    rw [e, ih _ hn.2, h1.2]
    · simp
    · intro k hk
      rw [h1.2]
      simp only [List.mem_append, List.mem_singleton, not_or]
      refine ⟨hd k (List.mem_cons_of_mem _ hk), ?_⟩
      intro e2
      rw [e2] at hk
      exact hn.1 hk

theorem newKeys_nodup (g : GraylogHook) (hs : GraylogHook.SafePrefix g.fieldPrefix)
    (data : Fields) (hn : (data.map (fun p => p.1)).Nodup) :
    ((data.map (fun p => (g.newKey p.1, g.newValue p.2))).map (fun p => p.1)).Nodup := by
  have e : (data.map (fun p => (g.newKey p.1, g.newValue p.2))).map (fun p => p.1) =
      (data.map (fun p => p.1)).map g.newKey := by
    simp [List.map_map, Function.comp_def]
  rw [e]
  exact List.Nodup.map (fun a b h => newKey_injective g hs a b h) hn

theorem newData_get (g : GraylogHook) (hs : GraylogHook.SafePrefix g.fieldPrefix)
    (data : Fields) (hn : (data.map (fun p => p.1)).Nodup) (k : Str) (v : Value)
    (h : data.get k = some v) : (g.newData data).get (g.newKey k) = some (g.newValue v) := by
  have hmem : (g.newKey k, g.newValue v) ∈ data.map (fun p => (g.newKey p.1, g.newValue p.2)) :=
    List.mem_map.2 ⟨(k, v), Fields.mem_of_get data k v h, rfl⟩
  have hget := Fields.get_of_mem _ _ _ (newKeys_nodup g hs data hn) hmem
  rw [newData_eq_setAll, Fields.get_setAll _ _ _ (newKeys_nodup g hs data hn), hget]

theorem newData_length (g : GraylogHook) (hs : GraylogHook.SafePrefix g.fieldPrefix)
    (data : Fields) (hn : (data.map (fun p => p.1)).Nodup) :
    (g.newData data).length = data.length ∧ ((g.newData data).map (fun p => p.1)).Nodup := by
  have hnk := newKeys_nodup g hs data hn
  constructor
  · rw [newData_eq_setAll, setAll_length [] _ hnk (fun _ _ h => List.not_mem_nil _ h)]
    simp
  · rw [newData_eq_setAll, setAll_keys [] _ hnk (fun _ _ h => List.not_mem_nil _ h)]
    simpa using hnk

theorem newData_source (g : GraylogHook) (data : Fields) (k : Str) (v : Value)
    (h : (g.newData data).get k = some v) :
    ∃ k0 v0, (k0, v0) ∈ data ∧ k = g.newKey k0 ∧ v = g.newValue v0 := by
  rw [newData_eq_setAll] at h
  rcases setAll_get_some _ _ _ _ h with h1 | h1
  · simp [Fields.get] at h1
  · obtain ⟨p, hp, he⟩ := List.mem_map.1 h1
    simp only [Prod.mk.injEq] at he
    exact ⟨p.1, p.2, hp, he.1.symm, he.2.symm⟩

theorem newData_present (g : GraylogHook) (data : Fields) (k : Str)
    (h : k ∈ data.map (fun p => p.1)) : ((g.newData data).get (g.newKey k)).isSome = true := by
  rw [newData_eq_setAll]
  apply setAll_get_isSome
  right
  obtain ⟨p, hp, he⟩ := List.mem_map.1 h
  exact List.mem_map.2 ⟨(g.newKey p.1, g.newValue p.2), List.mem_map.2 ⟨p, hp, rfl⟩, by
    simp [he]⟩

/-! ## The claims, continued -/

/-- Claim C11, counterexample: the error `wrappedTracer` carries no stack itself
and wraps an error that carries one; `addStackTrace` does not return it
unchanged, it returns a new error with a second stack, captured at the call. -/
theorem addStackTrace_wraps_when_cause_has_stack :
    (wrappedTracer.causeChain.any (fun e => e.isStackTracer)) = true ∧
    addStackTrace "/go/src/log".toList sampleCallers wrappedTracer ≠ wrappedTracer ∧
    (addStackTrace "/go/src/log".toList sampleCallers wrappedTracer).StackTrace =
      some (sampleCallers.drop 1) ∧
    (addStackTrace "/go/src/log".toList sampleCallers wrappedTracer).Cause =
      some wrappedTracer := by
  decide

/-- Claim C11, amended: `addStackTrace` looks at the error itself only.  An error
that itself carries a stack is returned unchanged; for an error that does not,
whatever its cause chain holds, the result is a new error that carries the stack
captured at the call, has the error as cause and has its message; and
`WithError` stores that result under the key `error`. -/
theorem addStackTrace_checks_error_itself (w : World) (e : Entry) (callers : List Frame)
    (err : GoError) :
    (err.isStackTracer = true → addStackTrace w.env.myPath callers err = err) ∧
    (err.isStackTracer = false →
      addStackTrace w.env.myPath callers err ≠ err ∧
      (addStackTrace w.env.myPath callers err).StackTrace =
        some ((callers.take maxStackFrames).dropWhile (isOwnFrame w.env.myPath)) ∧
      (addStackTrace w.env.myPath callers err).Cause = some err ∧
      (addStackTrace w.env.myPath callers err).Error = err.Error) ∧
    ((Entry.WithError w e callers (some err)).1.data
        (Entry.WithError w e callers (some err)).2).get fieldError =
      some (Value.err (addStackTrace w.env.myPath callers err)) := by
  refine ⟨?_, ?_, ?_⟩
  · intro h
    simp [addStackTrace, h]
  · intro h
    rw [addStackTrace_of_not_tracer _ _ _ h]
    exact ⟨wrap_ne_cause _ _ _, rfl, rfl, rfl⟩
  · exact (withError_fields w e callers err (some err) (Or.inl rfl)).1

/-- Claim C11, amended, at the error `wrappedTracer` and at the error it wraps. -/
theorem addStackTrace_checks_error_itself_witness :
    addStackTrace sampleStart.1.env.myPath sampleCallers
        (GoError.leaf "no such file".toList (some [⟨"os.Open".toList, "/go/os/file.go".toList, 3, "/go/os/file.go".toList⟩])) =
      GoError.leaf "no such file".toList (some [⟨"os.Open".toList, "/go/os/file.go".toList, 3, "/go/os/file.go".toList⟩]) ∧
    (addStackTrace sampleStart.1.env.myPath sampleCallers wrappedTracer).Cause =
      some wrappedTracer :=
  ⟨(addStackTrace_checks_error_itself sampleStart.1 sampleStart.2 sampleCallers
      (GoError.leaf "no such file".toList
        (some [⟨"os.Open".toList, "/go/os/file.go".toList, 3, "/go/os/file.go".toList⟩]))).1 (by decide),
    ((addStackTrace_checks_error_itself sampleStart.1 sampleStart.2 sampleCallers
      wrappedTracer).2.1 (by decide)).2.2.1⟩

/-- Claim C13: for every entry, `WithError(nil)` returns an entry whose field
`error_message` is the string `(nil)` and whose field `error` is an error (not
nil) whose message is `(nil)`. -/
theorem withError_nil_sentinel (w : World) (e : Entry) (callers : List Frame) :
    ∃ x : GoError,
      ((Entry.WithError w e callers none).1.data (Entry.WithError w e callers none).2).get
        fieldError = some (Value.err x) ∧
      x.Error = "(nil)".toList ∧
      ((Entry.WithError w e callers none).1.data (Entry.WithError w e callers none).2).get
        fieldErrorMessage = some (Value.str "(nil)".toList) := by
  have h := withError_fields w e callers (GoError.leaf "(nil)".toList none) none
    (Or.inr ⟨rfl, rfl⟩)
  refine ⟨_, h.1, ?_, h.2⟩
  rw [addStackTrace_of_not_tracer w.env.myPath callers (GoError.leaf "(nil)".toList none) rfl]
  rfl

/-- Claim C14, failing input: on a logger whose level is 6, above debug, a debug
call is delivered (the threshold includes debug output), yet `Trace` and
`Tracef` deliver nothing and append the rendered line to the trace buffer. -/
theorem trace_buffers_above_debug_level :
    verboseStart.1.Level = 6 ∧
    Level.DebugLevel.toNat ≤ verboseStart.1.Level ∧
    (Entry.Debug verboseStart.1 verboseStart.2 "m".toList).records.length = 1 ∧
    (Entry.Debug verboseStart.1 verboseStart.2 "m".toList).Out =
      ["Jan 02 15:04:05 [42] DEBU: m\n".toList] ∧
    (Entry.Trace verboseStart.1 verboseStart.2 "m".toList).records.length = 0 ∧
    (Entry.Trace verboseStart.1 verboseStart.2 "m".toList).Out = [] ∧
    (Entry.Trace verboseStart.1 verboseStart.2 "m".toList).lines verboseStart.2 =
      ["Jan 02 15:04:05 [42] DEBU: m\n".toList] ∧
    (Entry.Tracef verboseStart.1 verboseStart.2 "m".toList).records.length = 0 ∧
    (Entry.Tracef verboseStart.1 verboseStart.2 "m".toList).Out = [] ∧
    (Entry.Tracef verboseStart.1 verboseStart.2 "m".toList).lines verboseStart.2 =
      ["Jan 02 15:04:05 [42] DEBU: m\n".toList] := by
  decide

/-- Claim C15, counterexample: with the prefix `p` the key `g-x` is not renamed
to `p-g-x`; it is handed on as `g-x`. -/
theorem fire_keeps_g_prefixed_key :
    (GraylogHook.Fire (sampleHook "p".toList) sampleRecord).Data.get "p-g-x".toList = none ∧
    (GraylogHook.Fire (sampleHook "p".toList) sampleRecord).Data.get "g-x".toList =
      some (Value.str "b".toList) ∧
    (GraylogHook.Fire (sampleHook "p".toList) sampleRecord).Data.get "p-x".toList =
      some (Value.str "a".toList) := by
  decide

/-- Claim C15, amended: with a non-empty prefix `p`, `Fire` renames a key `k` to
`p-k` unless `k` is the error key or starts with `g-`, which it keeps; with an
empty prefix it keeps every key.  Every field it hands on is a field of the
record under its new key, with its value, unchanged unless it is a request;
every key of the record is present under its new key; and when the prefix lets
no two keys meet, the field at the new key holds the value of the old one. -/
theorem fire_renames_keys (g : GraylogHook) (entry : Record) :
    (∀ k, g.fieldPrefix ≠ [] → k ≠ logrusErrorKey → prefixIgnore.isPrefixOf k = false →
      g.newKey k = g.fieldPrefix ++ '-' :: k) ∧
    (∀ k, g.fieldPrefix = [] ∨ k = logrusErrorKey ∨ prefixIgnore.isPrefixOf k = true →
      g.newKey k = k) ∧
    (∀ v, (∀ r, v ≠ Value.httpRequest r) → g.newValue v = v) ∧
    (∀ k v, (g.Fire entry).Data.get k = some v →
      ∃ k0 v0, (k0, v0) ∈ entry.Data ∧ k = g.newKey k0 ∧ v = g.newValue v0) ∧
    (∀ k ∈ entry.Data.map (fun p => p.1), ((g.Fire entry).Data.get (g.newKey k)).isSome = true) ∧
    (GraylogHook.SafePrefix g.fieldPrefix → (entry.Data.map (fun p => p.1)).Nodup →
      ∀ k v, entry.Data.get k = some v →
        (g.Fire entry).Data.get (g.newKey k) = some (g.newValue v)) ∧
    (g.Fire entry).Time = entry.Time ∧ (g.Fire entry).Level = entry.Level ∧
    (g.Fire entry).Message = entry.Message := by
  refine ⟨?_, ?_, ?_, ?_, ?_, ?_, rfl, rfl, rfl⟩
  · intro k h1 h2 h3
    simp [GraylogHook.newKey, h1, h2, h3]
  · intro k h
    simp only [GraylogHook.newKey]
    rcases h with h | h | h
    · simp [h]
    · simp [h]
    · simp [h]
  · intro v hv
    cases v with
    | httpRequest r => exact absurd rfl (hv r)
    | str s => rfl
    | err e => rfl
    | url t => rfl
    | other t => rfl
  · intro k v h
    exact newData_source g entry.Data k v h
  · intro k hk
    exact newData_present g entry.Data k hk
  · intro hs hn k v h
    exact newData_get g hs entry.Data hn k v h

/-- Claim C15, amended, at the prefix `p` and the record `sampleRecord`. -/
theorem fire_renames_keys_witness :
    (sampleHook "p".toList).newKey "x".toList = "p-x".toList ∧
    (sampleHook "p".toList).newKey "g-x".toList = "g-x".toList ∧
    (GraylogHook.Fire (sampleHook "p".toList) sampleRecord).Data.get
        ((sampleHook "p".toList).newKey "x".toList) =
      some ((sampleHook "p".toList).newValue (Value.str "a".toList)) :=
  ⟨(fire_renames_keys (sampleHook "p".toList) sampleRecord).1 "x".toList (by decide) (by decide)
      (by decide),
    (fire_renames_keys (sampleHook "p".toList) sampleRecord).2.1 "g-x".toList
      (Or.inr (Or.inr (by decide))),
    (fire_renames_keys (sampleHook "p".toList) sampleRecord).2.2.2.2.2.1
      (Or.inr ⟨by decide, by decide⟩) (by decide) "x".toList (Value.str "a".toList) (by decide)⟩

/-- Claim C16: for an empty field map `printData` writes nothing; for a
non-empty one it writes a tab, then one `key=value` pair for every key of the
map, the keys in ascending order, the pairs joined by single spaces, then a
newline; a string value is written quoted (`%q`). -/
theorem printData_sorted_pairs (env : Env) (data : Fields) (color : Bool) :
    printData env [] color = [] ∧
    (data ≠ [] → ∃ keys : List Str,
      keys.Perm (data.map (fun p => p.1)) ∧
      keys.Sorted (fun a b => strLe a b = true) ∧
      printData env data color =
        '\t' :: joinWith " ".toList (keys.map (fun k => formatPair env k (data.get k))) ++
          "\n".toList) ∧
    (∀ k s, formatPair env k (some (Value.str s)) = k ++ '=' :: goQuote env.isPrint s) := by
  refine ⟨rfl, ?_, fun _ _ => rfl⟩
  intro h
  refine ⟨(data.map (fun p => p.1)).insertionSort (fun a b => strLe a b = true),
    List.perm_insertionSort _ _, sortedKeys_sorted _, ?_⟩
  have hl : data.length ≠ 0 := by
    intro h0
    exact h (List.length_eq_zero.1 h0)
  simp [printData, hl]

/-- Claim C16, at the field map with the keys `x` and `g-x`. -/
theorem printData_sorted_pairs_witness :
    printData sampleEnv sampleRecord.Data false = "\tg-x=\"b\" x=\"a\"\n".toList ∧
    ∃ keys : List Str,
      keys.Perm (sampleRecord.Data.map (fun p => p.1)) ∧
      keys.Sorted (fun a b => strLe a b = true) ∧
      printData sampleEnv sampleRecord.Data false =
        '\t' :: joinWith " ".toList
          (keys.map (fun k => formatPair sampleEnv k (sampleRecord.Data.get k))) ++ "\n".toList :=
  ⟨by decide, (printData_sorted_pairs sampleEnv sampleRecord.Data false).2.1 (by decide)⟩

/-- Claim C17: `Flush` with no registered flusher returns at its first step and
starts no goroutine.  With the flushers `fs`, under every schedule of the main
goroutine and the goroutines it starts: no flusher is invoked twice; when
`Flush` has returned there is one goroutine for each registered flusher, in
order, each has invoked `Flush` on its flusher once and that invocation has
completed; and from every state a schedule reaches `Flush` can go on to
return. -/
theorem flush_waits_for_every_flusher (fs : List Nat) :
    Flush.step (Flush.init []) FlushAction.main = some ⟨[], FlushPC.returned, 0, []⟩ ∧
    (∀ acts s, Flush.run (Flush.init fs) acts = some s →
      (∀ g ∈ s.gs, g.calls ≤ 1) ∧
      (s.pc = FlushPC.returned →
        s.gs.map (fun g => g.f) = fs ∧
        ∀ g ∈ s.gs, g.status = GoStatus.done ∧ g.calls = 1)) ∧
    (∀ acts s, Flush.run (Flush.init fs) acts = some s →
      ∃ acts2 s2, Flush.run s acts2 = some s2 ∧ s2.pc = FlushPC.returned) := by
  refine ⟨rfl, ?_, ?_⟩
  · intro acts s h
    obtain ⟨hI, hf⟩ := run_inv acts _ s (init_inv fs) h
    have hf2 : s.flushers = fs := hf
    constructor
    · intro g hg
      rw [hI.calls g hg]
      cases g.status <;> simp [Flush.invoked]
    · intro hp
      constructor
      · rw [hI.fs, hI.after (Or.inr hp), hf2]
        simp
      · intro g hg
        have hd := hI.ret hp g hg
        refine ⟨hd, ?_⟩
        rw [hI.calls g hg, hd]
        rfl
  · intro acts s h
    obtain ⟨hI, -⟩ := run_inv acts _ s (init_inv fs) h
    exact flush_returns (Flush.measure s) s hI (Nat.le_refl _)

/-- Claim C17, at two flushers and a schedule on which the second one completes
first. -/
theorem flush_waits_for_every_flusher_witness :
    Flush.run (Flush.init [7, 8]) sampleSchedule = some sampleFinal ∧
    sampleFinal.gs.map (fun g => g.f) = [7, 8] ∧
    ∀ g ∈ sampleFinal.gs, g.status = GoStatus.done ∧ g.calls = 1 :=
  ⟨by decide,
    (((flush_waits_for_every_flusher [7, 8]).2.1 sampleSchedule sampleFinal (by decide)).2 rfl)⟩

/-- Claim C18, counterexample: with the prefix `g` the keys `x` and `g-x` are
both handed on as `g-x`; the record has two fields, the map handed on has
one. -/
theorem fire_loses_field_on_key_clash :
    (sampleHook "g".toList).newKey "x".toList = (sampleHook "g".toList).newKey "g-x".toList ∧
    sampleRecord.Data.length = 2 ∧
    (GraylogHook.Fire (sampleHook "g".toList) sampleRecord).Data.length = 1 := by
  decide

/-- Claim C18, amended: when the prefix is empty, or is not `g` and does not
start with `g-`, no two distinct keys are renamed to the same key, and for every
record (a map: distinct keys) `Fire` hands on a field map with distinct keys and
exactly as many fields as the record has. -/
theorem fire_keeps_field_count (g : GraylogHook) (entry : Record)
    (hs : GraylogHook.SafePrefix g.fieldPrefix) (hn : (entry.Data.map (fun p => p.1)).Nodup) :
    (∀ k1 k2, g.newKey k1 = g.newKey k2 → k1 = k2) ∧
    (g.Fire entry).Data.length = entry.Data.length ∧
    ((g.Fire entry).Data.map (fun p => p.1)).Nodup :=
  ⟨newKey_injective g hs, (newData_length g hs entry.Data hn).1,
    (newData_length g hs entry.Data hn).2⟩

/-- Claim C18, amended, at the prefix `p` and the record `sampleRecord`. -/
theorem fire_keeps_field_count_witness :
    GraylogHook.SafePrefix (sampleHook "p".toList).fieldPrefix ∧
    (GraylogHook.Fire (sampleHook "p".toList) sampleRecord).Data.length = 2 :=
  ⟨Or.inr ⟨by decide, by decide⟩,
    (fire_keeps_field_count (sampleHook "p".toList) sampleRecord (Or.inr ⟨by decide, by decide⟩)
      (by decide)).2.1⟩

end TeamworkLog
